import Mathlib

/-!
Verification development for the kpath short-read compressor
(src/src/kingsford/kpath). The Go source is shallowly embedded: pure
functions become Lean functions, the mutable k-mer models and the global
coding state become explicit state passing, machine integers become `Nat`
with explicit `% 2 ^ w` where the width can matter, and fatal paths
(panics, `DIE_ON_ERR`) become `Option`.

Components not present under src/ (the `arithc` range coder, the `bitio`
bit streams, the FASTQ record type of fastq.go, and the bit-tree bucket
serializer) are modelled from the specification; each such definition is
marked `Modelled from the spec:` in its doc comment.
-/

namespace KPath

/-- The nucleotide alphabet of the program: A, C, G, T plus the wildcard N
(`readReferenceFile` and the read ingestion admit exactly these letters and
panic on anything else, so sequences are embedded at this type). -/
inductive Base
  | A
  | C
  | G
  | T
  | N
deriving DecidableEq, Repr

/-- A sequence of bases (a Go string drawn from ACGTN). -/
abbrev Bases := List Base

/-- A 4-tuple of per-channel counts, one per letter of ALPHA = "ACGT"
(`[len(ALPHA)]KmerCount` and `[len(ALPHA)]uint8` cells are both embedded as
`Fin 4 → Nat`; bounds such as `< 256` or `< 2 ^ 16` appear as hypotheses). -/
abbrev Dist := Fin 4 → Nat

/-- MAX_OBSERVATION from kpath.go: `math.MaxUint16`. -/
def MAX_OBSERVATION : Nat := 65535

/-- pseudoCount from kpath.go. -/
def pseudoCount : Nat := 1

/-- seenThreshold from kpath.go. -/
def seenThreshold : Nat := 2

/-- observationWeight from kpath.go (default value of the `-mul` flag). -/
def observationWeight : Nat := 10

/-- updateReference from kpath.go (default value of the `-update` flag). -/
def updateReference : Bool := true

/-- acgt() from kpath.go: the 2-bit index of a base; N folds to A. -/
def acgt : Base → Fin 4
  | .A => 0
  | .N => 0
  | .C => 1
  | .G => 2
  | .T => 3

/-- baseFromBits() from kpath.go: the letter `"ACGT"[a]` of a 2-bit code. -/
def baseFromBits (a : Fin 4) : Base :=
  if a = 0 then .A else if a = 1 then .C else if a = 2 then .G else .T

/-- RC() from kpath.go: the complement of a single base, N fixed. -/
def RC : Base → Base
  | .A => .T
  | .N => .N
  | .C => .G
  | .G => .C
  | .T => .A

/-- reverseComplement() from kpath.go: `s[len(r)-1-i] = RC(r[i])`, i.e. the
per-base complement followed by reversal. -/
def reverseComplement (r : Bases) : Bases :=
  (r.map RC).reverse

/-- ASCII code of a base, for the raw-byte string comparisons Go performs
(`rcr < fq.Seq`, the read sort, `sort.Strings`). -/
def byteVal : Base → Nat
  | .A => 65
  | .C => 67
  | .G => 71
  | .N => 78
  | .T => 84

/-- Go `<` on strings of bytes: strict lexicographic order. -/
def bytesLt : List Nat → List Nat → Bool
  | [], [] => false
  | [], _ :: _ => true
  | _ :: _, [] => false
  | a :: as, b :: bs =>
    if a < b then true else if b < a then false else bytesLt as bs

/-- Go `<` on ACGTN strings, via their bytes. -/
def seqLt (a b : Bases) : Bool :=
  bytesLt (a.map byteVal) (b.map byteVal)

/-- The accumulator value of stringToKmer() before any truncation: base-4
digits of the bases, MSB first. -/
def kmerVal (s : Bases) : Nat :=
  s.foldl (fun x c => x * 4 + (acgt c : Nat)) 0

/-- stringToKmer() from kpath.go: accumulates in a uint64 and casts the
result to `Kmer` (uint32). The program only calls it on strings of at most
16 bases, where the uint64 accumulation cannot wrap; the final uint32 cast
is kept as `% 2 ^ 32`. -/
def stringToKmer (s : Bases) : Nat :=
  kmerVal s % 2 ^ 32

/-- shiftKmer() from kpath.go: `((kmer << 2) | next) & shiftKmerMask` with
`shiftKmerMask = 4 ^ k − 1` (setShiftKmerMask). For the admissible
`1 ≤ k ≤ 16` the uint32 arithmetic computes exactly `(4·kmer + next) mod 4 ^ k`,
because `2 ^ (2k)` divides `2 ^ 32`. -/
def shiftKmer (k : Nat) (kmer : Nat) (next : Fin 4) : Nat :=
  (kmer * 4 + (next : Nat)) % 4 ^ k

/-- contextWeight() from kpath.go: `observationWeight · dist[i]` for counts
at or above `seenThreshold`, the pseudocount otherwise. -/
def contextWeight (charIdx : Fin 4) (dist : Dist) : Nat :=
  if seenThreshold ≤ dist charIdx then observationWeight * dist charIdx
  else pseudoCount

/-- The four channel indices in the fixed A,C,G,T iteration order of the
`for i := 0; i < len(dist); i++` loops. -/
def chanList : List (Fin 4) := [0, 1, 2, 3]

/-- Cumulative sum of the first `j` of the four weights `w 0, …, w 3`, in the
fixed A,C,G,T order (the `a`/`b`/`total` accumulators of intervalFor() and
the running `sum` of dart() are partial sums of this form). -/
def cumW (w : Fin 4 → Nat) (j : Nat) : Nat :=
  ((chanList.filter fun i => i.val < j).map w).sum

/-- intervalFor() from kpath.go: one pass over the four channels in A,C,G,T
order, accumulating `total`, and `b` (resp. `a`) over the channels `≤ letter`
(resp. `< letter`). -/
def intervalFor (letter : Fin 4) (dist : Dist) : Nat × Nat × Nat :=
  chanList.foldl
    (fun acc i =>
      let w := contextWeight i dist
      (if i.val < letter.val then acc.1 + w else acc.1,
       if i.val ≤ letter.val then acc.2.1 + w else acc.2.1,
       acc.2.2 + w))
    (0, 0, 0)

/-- intervalForDefault() from kpath.go: the same pass with the raw entries of
the default interval as weights. -/
def intervalForDefault (defaultInterval : Dist) (letter : Fin 4) :
    Nat × Nat × Nat :=
  chanList.foldl
    (fun acc i =>
      let w := defaultInterval i
      (if i.val < letter.val then acc.1 + w else acc.1,
       if i.val ≤ letter.val then acc.2.1 + w else acc.2.1,
       acc.2.2 + w))
    (0, 0, 0)

/-- The linear search shared by dart() and dartDefault(): walk the four
weights in A,C,G,T order keeping a running sum, and return
`(sum − w, sum, i)` at the first channel whose cumulative sum exceeds the
target. Falling off the end is the fatal `panic("Couldn't find range …")`,
embedded as `none`. -/
def dartSearch (w : Fin 4 → Nat) (target : Nat) : Option (Nat × Nat × Fin 4) :=
  go chanList 0
where
  go : List (Fin 4) → Nat → Option (Nat × Nat × Fin 4)
    | [], _ => none
    | i :: rest, sum =>
      let sum' := sum + w i
      if target < sum' then some (sum' - w i, sum', i) else go rest sum'

/-- dart() from kpath.go. The uint32 running sum cannot wrap for uint16-typed
distributions (4 · 10 · 65535 < 2 ^ 32), so it is embedded over `Nat`; the
theorems about it carry the `dist i < 2 ^ 16` typing bound. -/
def dart (dist : Dist) (target : Nat) : Option (Nat × Nat × Fin 4) :=
  dartSearch (fun i => contextWeight i dist) target

/-- dartDefault() from kpath.go, over the current default interval. The
uint32 running sum is embedded over `Nat`; the theorem about it carries the
no-wrap bound on the total. -/
def dartDefault (defaultInterval : Dist) (target : Nat) :
    Option (Nat × Nat × Fin 4) :=
  dartSearch defaultInterval target

-- Basic facts about the four-channel cumulative sums and the linear search.

theorem finVal0 : ((0 : Fin 4) : Nat) = 0 := rfl

theorem finVal1 : ((1 : Fin 4) : Nat) = 1 := rfl

theorem finVal2 : ((2 : Fin 4) : Nat) = 2 := rfl

theorem finVal3 : ((3 : Fin 4) : Nat) = 3 := rfl

theorem cumW_zero (w : Fin 4 → Nat) : cumW w 0 = 0 := rfl

theorem cumW_one (w : Fin 4 → Nat) : cumW w 1 = w 0 + 0 := rfl

theorem cumW_two (w : Fin 4 → Nat) : cumW w 2 = w 0 + (w 1 + 0) := rfl

theorem cumW_three (w : Fin 4 → Nat) : cumW w 3 = w 0 + (w 1 + (w 2 + 0)) :=
  rfl

theorem cumW_four (w : Fin 4 → Nat) :
    cumW w 4 = w 0 + (w 1 + (w 2 + (w 3 + 0))) := rfl

theorem cumW_succ (w : Fin 4 → Nat) (j : Fin 4) :
    cumW w ((j : Nat) + 1) = cumW w j + w j := by
  fin_cases j <;>
    simp [cumW_zero, cumW_one, cumW_two, cumW_three, cumW_four] <;> omega

theorem cumW_ge_four (w : Fin 4 → Nat) {j : Nat} (h : 4 ≤ j) :
    cumW w j = cumW w 4 := by
  unfold cumW
  rw [List.filter_eq_self.mpr
        (fun i _ => by simp only [decide_eq_true_eq]; omega),
      List.filter_eq_self.mpr (fun i _ => by simp)]

theorem cumW_mono (w : Fin 4 → Nat) {i j : Nat} (h : i ≤ j) :
    cumW w i ≤ cumW w j := by
  have step : ∀ n : Nat, cumW w n ≤ cumW w (n + 1) := by
    intro n
    rcases Nat.lt_or_ge n 4 with hn | hn
    · have := cumW_succ w ⟨n, hn⟩
      simp only [Fin.val_mk] at this
      omega
    · rw [cumW_ge_four w hn, cumW_ge_four w (show 4 ≤ n + 1 by omega)]
  induction j with
  | zero => simp_all
  | succ j ih =>
    rcases Nat.lt_or_ge i (j + 1) with hlt | hge
    · exact le_trans (ih (by omega)) (step j)
    · have : i = j + 1 := by omega
      simp [this]

/-- intervalFor computes the cumulative-weight triple. -/
theorem intervalFor_eq (letter : Fin 4) (dist : Dist) :
    intervalFor letter dist =
      (cumW (fun i => contextWeight i dist) letter,
       cumW (fun i => contextWeight i dist) ((letter : Nat) + 1),
       cumW (fun i => contextWeight i dist) 4) := by
  fin_cases letter <;>
    simp [intervalFor, chanList, cumW_zero, cumW_one, cumW_two, cumW_three,
      cumW_four, finVal0, finVal1, finVal2, finVal3] <;>
    omega

/-- intervalForDefault computes the cumulative-weight triple of the raw
default-interval entries. -/
theorem intervalForDefault_eq (d : Dist) (letter : Fin 4) :
    intervalForDefault d letter =
      (cumW d letter, cumW d ((letter : Nat) + 1), cumW d 4) := by
  fin_cases letter <;>
    simp [intervalForDefault, chanList, cumW_zero, cumW_one, cumW_two,
      cumW_three, cumW_four, finVal0, finVal1, finVal2, finVal3] <;> omega

/-- dartSearch unfolded: the four-way if-chain it computes. -/
theorem dartSearch_eq (w : Fin 4 → Nat) (t : Nat) :
    dartSearch w t =
      if t < w 0 then some (0, w 0, (0 : Fin 4))
      else if t < w 0 + w 1 then some (w 0, w 0 + w 1, (1 : Fin 4))
      else if t < w 0 + w 1 + w 2 then
        some (w 0 + w 1, w 0 + w 1 + w 2, (2 : Fin 4))
      else if t < w 0 + w 1 + w 2 + w 3 then
        some (w 0 + w 1 + w 2, w 0 + w 1 + w 2 + w 3, (3 : Fin 4))
      else none := by
  simp only [dartSearch, dartSearch.go, chanList]
  split_ifs <;>
    first
      | rfl
      | (exfalso; omega)
      | (simp only [Option.some.injEq, Prod.mk.injEq]
         exact ⟨by omega, by omega, by first | rfl | trivial⟩)

/-- When the target lies under the total, the linear search returns the
first channel whose cumulative weight exceeds it, together with that
channel's cumulative bounds. -/
theorem dartSearch_found (w : Fin 4 → Nat) (t : Nat) (ht : t < cumW w 4) :
    ∃ s : Fin 4, dartSearch w t = some (cumW w s.val, cumW w (s.val + 1), s) ∧
      cumW w s.val ≤ t ∧ t < cumW w (s.val + 1) ∧
      ∀ j : Fin 4, j.val < s.val → cumW w (j.val + 1) ≤ t := by
  rw [dartSearch_eq]
  rw [cumW_four] at ht
  split_ifs with h1 h2 h3
  · refine ⟨0, ?_, ?_, ?_, ?_⟩
    · simp only [Nat.reduceAdd, true_and, finVal0, cumW_zero, cumW_one, Option.some.injEq,
        Prod.mk.injEq, and_true]
      omega
    · simp [finVal0, cumW_zero]
    · simp only [Nat.reduceAdd, true_and, finVal0, cumW_one]; omega
    · intro j hj; simp [finVal0] at hj
  · refine ⟨1, ?_, ?_, ?_, ?_⟩
    · simp only [Nat.reduceAdd, true_and, finVal1, cumW_one, cumW_two, Option.some.injEq,
        Prod.mk.injEq, and_true]
      omega
    · simp only [Nat.reduceAdd, true_and, finVal1, cumW_one]; omega
    · simp only [Nat.reduceAdd, true_and, finVal1, cumW_two]; omega
    · intro j hj
      rw [finVal1] at hj
      have hj0 : j = 0 := by
        apply Fin.eq_of_val_eq; omega
      subst hj0
      simp only [Nat.reduceAdd, true_and, finVal0, cumW_one]; omega
  · refine ⟨2, ?_, ?_, ?_, ?_⟩
    · simp only [Nat.reduceAdd, true_and, finVal2, cumW_two, cumW_three, Option.some.injEq,
        Prod.mk.injEq, and_true]
      omega
    · simp only [Nat.reduceAdd, true_and, finVal2, cumW_two]; omega
    · simp only [Nat.reduceAdd, true_and, finVal2, cumW_three]; omega
    · intro j hj
      rw [finVal2] at hj
      rcases Nat.lt_or_ge j.val 1 with hv | hv
      · have hj0 : j = 0 := by apply Fin.eq_of_val_eq; omega
        subst hj0
        simp only [Nat.reduceAdd, true_and, finVal0, cumW_one]; omega
      · have hj1 : j = 1 := by apply Fin.eq_of_val_eq; omega
        subst hj1
        simp only [Nat.reduceAdd, true_and, finVal1, cumW_two]; omega
  · refine ⟨3, ?_, ?_, ?_, ?_⟩
    · simp only [Nat.reduceAdd, true_and, finVal3, cumW_three, cumW_four, Option.some.injEq,
        Prod.mk.injEq, and_true]
      omega
    · simp only [Nat.reduceAdd, true_and, finVal3, cumW_three]; omega
    · simp only [Nat.reduceAdd, true_and, finVal3, cumW_four]; omega
    · intro j hj
      rw [finVal3] at hj
      rcases Nat.lt_or_ge j.val 1 with hv | hv
      · have hj0 : j = 0 := by apply Fin.eq_of_val_eq; omega
        subst hj0
        simp only [Nat.reduceAdd, true_and, finVal0, cumW_one]; omega
      · rcases Nat.lt_or_ge j.val 2 with hv2 | hv2
        · have hj1 : j = 1 := by apply Fin.eq_of_val_eq; omega
          subst hj1
          simp only [Nat.reduceAdd, true_and, finVal1, cumW_two]; omega
        · have hj2 : j = 2 := by apply Fin.eq_of_val_eq; omega
          subst hj2
          simp only [Nat.reduceAdd, true_and, finVal2, cumW_three]; omega
  · exfalso; omega

/-- A target at or past the total weight falls off the end of the search:
the fatal panic branch. -/
theorem dartSearch_none (w : Fin 4 → Nat) (t : Nat) (ht : cumW w 4 ≤ t) :
    dartSearch w t = none := by
  rw [dartSearch_eq]
  rw [cumW_four] at ht
  split_ifs <;> first | rfl | (exfalso; omega)

/-- The search inverts the cumulative bounds: any target inside channel
`c`'s half-open interval returns channel `c` with exactly those bounds. -/
theorem dartSearch_inv (w : Fin 4 → Nat) (c : Fin 4) (t : Nat)
    (h1 : cumW w c.val ≤ t) (h2 : t < cumW w (c.val + 1)) :
    dartSearch w t = some (cumW w c.val, cumW w (c.val + 1), c) := by
  obtain ⟨s, hs, hle, hlt, hfirst⟩ :=
    dartSearch_found w t
      (lt_of_lt_of_le h2 (cumW_mono w (by omega)))
  have hcs : c = s := by
    by_contra hne
    rcases Nat.lt_or_ge c.val s.val with hlt2 | hge
    · have := hfirst c hlt2
      omega
    · have hlt3 : s.val < c.val := by
        rcases Nat.lt_or_ge s.val c.val with h | h
        · exact h
        · exact absurd (Fin.eq_of_val_eq (by omega)) (Ne.symm hne)
      have hmono : cumW w (s.val + 1) ≤ cumW w c.val := cumW_mono w (by omega)
      omega
  subst hcs
  exact hs

/-- C5. Encoder interval arithmetic: for every letter in {A,C,G,T} and every
4-tuple distribution, intervalFor returns `a = Σ_{i<letter} w_i`,
`b = a + w_letter` and `total = Σ_i w_i`, where the weight `w_i` is
`observationWeight·dist[i]` (10·dist[i]) when `dist[i] ≥ seenThreshold` (2)
and `pseudoCount` (1) otherwise, accumulated in the fixed A,C,G,T order. -/
theorem C5_encoder_interval_arithmetic (letter : Fin 4) (dist : Dist) :
    intervalFor letter dist =
      (cumW (fun i => contextWeight i dist) letter.val,
       cumW (fun i => contextWeight i dist) letter.val +
         contextWeight letter dist,
       cumW (fun i => contextWeight i dist) 4) ∧
    ∀ i : Fin 4, contextWeight i dist =
      if seenThreshold ≤ dist i then observationWeight * dist i
      else pseudoCount := by
  refine ⟨?_, fun i => rfl⟩
  rw [intervalFor_eq, cumW_succ]

/-- C6. Decoder symbol lookup: for a target under the total transformed
weight, dart returns the first channel whose cumulative weight strictly
exceeds the target together with that channel's cumulative bounds (a
half-open interval containing the target); a target at or past the total
hits the fatal panic (`none`). The same holds for dartDefault over the
default interval. The bounds `dist i < 2 ^ 16` (KmerCount is uint16) and
`cumW d 4 < 2 ^ 32` ensure the uint32 sums of the Go code do not wrap, so
the `Nat` embedding is exact. -/
theorem C6_decoder_symbol_lookup (dist : Dist) (d : Dist) (t u : Nat)
    (hdist : ∀ i, dist i < 2 ^ 16) (hd : cumW d 4 < 2 ^ 32) :
    (t < cumW (fun i => contextWeight i dist) 4 →
      ∃ s : Fin 4,
        dart dist t = some (cumW (fun i => contextWeight i dist) s.val,
          cumW (fun i => contextWeight i dist) (s.val + 1), s) ∧
        cumW (fun i => contextWeight i dist) s.val ≤ t ∧
        t < cumW (fun i => contextWeight i dist) (s.val + 1) ∧
        ∀ j : Fin 4, j.val < s.val →
          cumW (fun i => contextWeight i dist) (j.val + 1) ≤ t) ∧
    (cumW (fun i => contextWeight i dist) 4 ≤ t → dart dist t = none) ∧
    (u < cumW d 4 →
      ∃ s : Fin 4,
        dartDefault d u = some (cumW d s.val, cumW d (s.val + 1), s) ∧
        cumW d s.val ≤ u ∧ u < cumW d (s.val + 1) ∧
        ∀ j : Fin 4, j.val < s.val → cumW d (j.val + 1) ≤ u) ∧
    (cumW d 4 ≤ u → dartDefault d u = none) :=
  ⟨fun h => dartSearch_found _ t h,
   fun h => dartSearch_none _ t h,
   fun h => dartSearch_found _ u h,
   fun h => dartSearch_none _ u h⟩

/-- Witness for C6 at the concrete distribution (3,3,3,3) (weights 30 each,
total 120), default interval (2,2,2,2) (total 8), targets 35 and 7. -/
theorem C6_decoder_symbol_lookup_witness :
    (∀ i : Fin 4, (fun _ : Fin 4 => 3) i < 2 ^ 16) ∧
    cumW (fun _ : Fin 4 => 2) 4 < 2 ^ 32 ∧
    ((35 < cumW (fun i => contextWeight i fun _ => 3) 4 →
      ∃ s : Fin 4,
        dart (fun _ => 3) 35 =
          some (cumW (fun i => contextWeight i fun _ => 3) s.val,
            cumW (fun i => contextWeight i fun _ => 3) (s.val + 1), s) ∧
        cumW (fun i => contextWeight i fun _ => 3) s.val ≤ 35 ∧
        35 < cumW (fun i => contextWeight i fun _ => 3) (s.val + 1) ∧
        ∀ j : Fin 4, j.val < s.val →
          cumW (fun i => contextWeight i fun _ => 3) (j.val + 1) ≤ 35) ∧
    (cumW (fun i => contextWeight i fun _ => 3) 4 ≤ 35 →
      dart (fun _ => 3) 35 = none) ∧
    (7 < cumW (fun _ : Fin 4 => 2) 4 →
      ∃ s : Fin 4,
        dartDefault (fun _ => 2) 7 =
          some (cumW (fun _ : Fin 4 => 2) s.val,
            cumW (fun _ : Fin 4 => 2) (s.val + 1), s) ∧
        cumW (fun _ : Fin 4 => 2) s.val ≤ 7 ∧
        7 < cumW (fun _ : Fin 4 => 2) (s.val + 1) ∧
        ∀ j : Fin 4, j.val < s.val →
          cumW (fun _ : Fin 4 => 2) (j.val + 1) ≤ 7) ∧
    (cumW (fun _ : Fin 4 => 2) 4 ≤ 7 → dartDefault (fun _ => 2) 7 = none)) :=
  ⟨by decide, by decide,
   C6_decoder_symbol_lookup (fun _ => 3) (fun _ => 2) 35 7 (by decide)
     (by decide)⟩

-- ==================================================================
-- The two k-mer model backends (smallkmermodel.go / kmermodel.go)
-- ==================================================================

/-- The Go zero value of a 4-tuple cell or distribution. -/
def zeroDist : Dist := fun _ => 0

/-- Pointwise update of one channel of a 4-tuple. -/
def updF (d : Dist) (c : Fin 4) (v : Nat) : Dist :=
  fun j => if j = c then v else d j

/-- Read of a Go `map[Kmer][4]uint8` with zero-value semantics for missing
keys. -/
def mapGet (m : List (Nat × Dist)) (k : Nat) : Dist :=
  (m.lookup k).getD zeroDist

/-- Write to a Go map: replace the binding if present, insert otherwise. -/
def mapSet : List (Nat × Dist) → Nat → Dist → List (Nat × Dist)
  | [], k, v => [(k, v)]
  | (k', v') :: rest, k, v =>
    if k' = k then (k, v) :: rest else (k', v') :: mapSet rest k v

/-- Read of the overflow slice; out-of-range reads (which the program never
performs: it only stores indices it created) give the zero tuple. -/
def overGet (ov : List Dist) (idx : Nat) : Dist := ov.getD idx zeroDist

/-- SmallKmerModel from smallkmermodel.go: the sparse (hash map) backend.
Cells are 4 bytes: either four uint8 counters, or the 0xFF sentinel in
byte 0 followed by a big-endian 24-bit index into `overflow`. -/
structure SmallKmerModel where
  order : Nat
  overflow : List Dist
  dist : List (Nat × Dist)

/-- NewSmallKmerModel() from smallkmermodel.go. -/
def NewSmallKmerModel (order : Nat) : SmallKmerModel :=
  { order := order, overflow := [], dist := [] }

/-- SmallKmerModel.hasOverflow(): sentinel test plus big-endian index
decode; also returns the raw entry, as the Go function does. -/
def SmallKmerModel.hasOverflow (km : SmallKmerModel) (k : Nat) :
    Nat × Dist × Bool :=
  let entry := mapGet km.dist k
  if entry 0 = 255 then
    (entry 1 * 2 ^ 16 + entry 2 * 2 ^ 8 + entry 3, entry, true)
  else (0, entry, false)

/-- SmallKmerModel.NextCount() from smallkmermodel.go. -/
def SmallKmerModel.NextCount (km : SmallKmerModel) (k : Nat) (c : Fin 4) :
    Nat :=
  let r := km.hasOverflow k
  if r.2.2 then overGet km.overflow r.1 c else r.2.1 c

/-- SmallKmerModel.createOverflow() from smallkmermodel.go: append a copy
of the four counters to the overflow table and write sentinel + big-endian
index into the cell. The `DIE_IF(id ≥ 1<<24)` fatal is not modelled; the
claims only quantify over states whose indices were created below 2^24. -/
def SmallKmerModel.createOverflow (km : SmallKmerModel) (k : Nat) :
    Nat × SmallKmerModel :=
  let d : Dist := fun c => mapGet km.dist k c
  let overflow' := km.overflow ++ [d]
  let id := overflow'.length - 1
  let f : Dist := fun c =>
    if c = 0 then 255
    else if c = 1 then id / 2 ^ 16 % 256
    else if c = 2 then id / 2 ^ 8 % 256
    else id % 256
  (id, { km with overflow := overflow', dist := mapSet km.dist k f })

/-- SmallKmerModel.Distribution() from smallkmermodel.go: `exists` is key
presence; the tuple comes from the overflow table or from widening the four
uint8 counters. -/
def SmallKmerModel.Distribution (km : SmallKmerModel) (k : Nat) :
    Bool × Dist :=
  match km.dist.lookup k with
  | some entry =>
    if entry 0 = 255 then
      (true,
       overGet km.overflow (entry 1 * 2 ^ 16 + entry 2 * 2 ^ 8 + entry 3))
    else (true, fun c => entry c)
  | none => (false, zeroDist)

/-- SmallKmerModel.SetCount() from smallkmermodel.go. -/
def SmallKmerModel.SetCount (km : SmallKmerModel) (k : Nat) (c : Fin 4)
    (v : Nat) : SmallKmerModel :=
  let entry := mapGet km.dist k
  { km with dist := mapSet km.dist k (updF entry c v) }

/-- SmallKmerModel.Increment() from smallkmermodel.go: in overflow
representation add only while the result stays under MAX_OBSERVATION; in
small representation add, promoting to overflow when the result would reach
255. -/
def SmallKmerModel.Increment (km : SmallKmerModel) (k : Nat) (c : Fin 4)
    (b : Nat) : SmallKmerModel :=
  let r := km.hasOverflow k
  if r.2.2 then
    if overGet km.overflow r.1 c + b < MAX_OBSERVATION then
      { km with overflow := (km.overflow.set r.1 (updF
          (overGet km.overflow r.1) c (overGet km.overflow r.1 c + b))) }
    else km
  else
    if 255 ≤ r.2.1 c + b then
      let idkm := km.createOverflow k
      { idkm.2 with overflow := (idkm.2.overflow.set idkm.1 (updF
          (overGet idkm.2.overflow idkm.1) c
          (overGet idkm.2.overflow idkm.1 c + b))) }
    else { km with dist := mapSet km.dist k (updF r.2.1 c (r.2.1 c + b)) }

/-- ArrayKmerModel from kmermodel.go: the dense (array) backend. The
zero-initialized `[]uint8` cell array of length 4^order is embedded as a
total function. -/
structure ArrayKmerModel where
  order : Nat
  overflow : List Dist
  dist : Nat → Dist

/-- NewArrayKmerModel() from kmermodel.go. -/
def NewArrayKmerModel (order : Nat) : ArrayKmerModel :=
  { order := order, overflow := [], dist := fun _ => zeroDist }

/-- Update of one cell of the dense array. -/
def arrSet (f : Nat → Dist) (k : Nat) (v : Dist) : Nat → Dist :=
  fun j => if j = k then v else f j

/-- ArrayKmerModel.hasOverflow() from kmermodel.go. -/
def ArrayKmerModel.hasOverflow (ka : ArrayKmerModel) (k : Nat) :
    Nat × Bool :=
  if ka.dist k 0 = 255 then
    (ka.dist k 1 * 2 ^ 16 + ka.dist k 2 * 2 ^ 8 + ka.dist k 3, true)
  else (0, false)

/-- ArrayKmerModel.NextCount() from kmermodel.go. -/
def ArrayKmerModel.NextCount (ka : ArrayKmerModel) (k : Nat) (c : Fin 4) :
    Nat :=
  let r := ka.hasOverflow k
  if r.2 then overGet ka.overflow r.1 c else ka.dist k c

/-- ArrayKmerModel.createOverflow() from kmermodel.go. -/
def ArrayKmerModel.createOverflow (ka : ArrayKmerModel) (k : Nat) :
    Nat × ArrayKmerModel :=
  let d : Dist := fun c => ka.dist k c
  let overflow' := ka.overflow ++ [d]
  let id := overflow'.length - 1
  let f : Dist := fun c =>
    if c = 0 then 255
    else if c = 1 then id / 2 ^ 16 % 256
    else if c = 2 then id / 2 ^ 8 % 256
    else id % 256
  (id, { ka with overflow := overflow', dist := arrSet ka.dist k f })

/-- ArrayKmerModel.Distribution() from kmermodel.go: `exists` is "any
counter nonzero" for a non-overflowed cell. -/
def ArrayKmerModel.Distribution (ka : ArrayKmerModel) (k : Nat) :
    Bool × Dist :=
  let r := ka.hasOverflow k
  if r.2 then (true, overGet ka.overflow r.1)
  else (chanList.any fun c => 0 < ka.dist k c, fun c => ka.dist k c)

/-- ArrayKmerModel.SetCount() from kmermodel.go. -/
def ArrayKmerModel.SetCount (ka : ArrayKmerModel) (k : Nat) (c : Fin 4)
    (v : Nat) : ArrayKmerModel :=
  { ka with dist := arrSet ka.dist k (updF (ka.dist k) c v) }

/-- ArrayKmerModel.Increment() from kmermodel.go. -/
def ArrayKmerModel.Increment (ka : ArrayKmerModel) (k : Nat) (c : Fin 4)
    (b : Nat) : ArrayKmerModel :=
  let r := ka.hasOverflow k
  if r.2 then
    if overGet ka.overflow r.1 c + b < MAX_OBSERVATION then
      { ka with overflow := (ka.overflow.set r.1 (updF
          (overGet ka.overflow r.1) c (overGet ka.overflow r.1 c + b))) }
    else ka
  else
    if 255 ≤ ka.dist k c + b then
      let idka := ka.createOverflow k
      { idka.2 with overflow := (idka.2.overflow.set idka.1 (updF
          (overGet idka.2.overflow idka.1) c
          (overGet idka.2.overflow idka.1 c + b))) }
    else
      { ka with dist := (arrSet ka.dist k (updF (ka.dist k) c
          (ka.dist k c + b))) }

theorem mem_chanList (c : Fin 4) : c ∈ chanList := by
  fin_cases c <;> decide

/-- C4. Distribution "known" semantics per backend: the sparse backend
reports a context known iff its key is present in the map (even if all four
counters of the present entry are zero), while the dense backend reports it
known iff the cell has overflowed or some counter is nonzero; in the known
cases the full stored 4-tuple is returned. -/
theorem C4_distribution_known_semantics (km : SmallKmerModel)
    (ka : ArrayKmerModel) (k : Nat) :
    ((km.Distribution k).1 = true ↔ (km.dist.lookup k).isSome = true) ∧
    (∀ entry, km.dist.lookup k = some entry → entry 0 ≠ 255 →
      km.Distribution k = (true, fun c => entry c)) ∧
    (∀ entry, km.dist.lookup k = some entry → entry 0 = 255 →
      km.Distribution k =
        (true,
         overGet km.overflow
           (entry 1 * 2 ^ 16 + entry 2 * 2 ^ 8 + entry 3))) ∧
    (km.dist.lookup k = some zeroDist → km.Distribution k = (true, zeroDist)) ∧
    ((ka.Distribution k).1 = true ↔
      ka.dist k 0 = 255 ∨ ∃ c : Fin 4, 0 < ka.dist k c) ∧
    (ka.dist k 0 ≠ 255 → (∀ c, ka.dist k c = 0) →
      (ka.Distribution k).1 = false) ∧
    (ka.dist k 0 ≠ 255 → ka.Distribution k =
      ((chanList.any fun c => 0 < ka.dist k c), fun c => ka.dist k c)) := by
  refine ⟨?_, ?_, ?_, ?_, ?_, ?_, ?_⟩
  · unfold SmallKmerModel.Distribution
    cases h : km.dist.lookup k with
    | none => simp [h]
    | some entry =>
      dsimp only
      split <;> simp
  · intro entry hl h0
    unfold SmallKmerModel.Distribution
    rw [hl]
    simp [h0]
  · intro entry hl h0
    unfold SmallKmerModel.Distribution
    rw [hl]
    simp [h0]
  · intro hl
    unfold SmallKmerModel.Distribution
    rw [hl]
    dsimp only
    have h0 : ¬ (zeroDist 0 = 255) := by decide
    rw [if_neg h0]
  · by_cases h0 : ka.dist k 0 = 255
    · simp [ArrayKmerModel.Distribution, ArrayKmerModel.hasOverflow, h0]
    · have hov : ka.hasOverflow k = (0, false) := by
        unfold ArrayKmerModel.hasOverflow
        rw [if_neg h0]
      unfold ArrayKmerModel.Distribution
      rw [hov]
      dsimp only
      rw [if_neg (by decide : ¬ (false = true))]
      dsimp only
      simp only [h0, false_or, List.any_eq_true, decide_eq_true_eq]
      constructor
      · rintro ⟨c, _, hpos⟩
        exact ⟨c, hpos⟩
      · rintro ⟨c, hc⟩
        exact ⟨c, mem_chanList c, hc⟩
  · intro h0 hz
    unfold ArrayKmerModel.Distribution ArrayKmerModel.hasOverflow
    simp only [h0, if_false]
    simp [List.any_eq_true, hz]
  · intro h0
    unfold ArrayKmerModel.Distribution ArrayKmerModel.hasOverflow
    simp [h0]

/-- Witness for C4 at a concrete pair of models: the sparse model holding
key 5 with an all-zero entry (known), and the dense model with cell 5 all
zero (unknown). -/
theorem C4_distribution_known_semantics_witness :
    ((SmallKmerModel.Distribution
        { order := 2, overflow := [], dist := [(5, zeroDist)] } 5).1 = true ↔
      (List.lookup (5 : Nat) [((5 : Nat), zeroDist)]).isSome = true) ∧
    (((NewArrayKmerModel 2).Distribution 5).1 = true ↔
      (NewArrayKmerModel 2).dist 5 0 = 255 ∨
        ∃ c : Fin 4, 0 < (NewArrayKmerModel 2).dist 5 c) := by
  have h1 := C4_distribution_known_semantics
    { order := 2, overflow := [], dist := [(5, zeroDist)] }
    (NewArrayKmerModel 2) 5
  exact ⟨h1.1, h1.2.2.2.2.1⟩

-- ==================================================================
-- Step and iteration lemmas for the two backends (claims C2, C3)
-- ==================================================================

/-- The sentinel cell written by createOverflow for index `id`: 0xFF in
byte 0 and the big-endian bytes of the 24-bit index in bytes 1..3. -/
def idxCell (id : Nat) : Dist :=
  fun j =>
    if j = 0 then 255
    else if j = 1 then id / 2 ^ 16 % 256
    else if j = 2 then id / 2 ^ 8 % 256
    else id % 256

theorem updF_self (d : Dist) (c : Fin 4) (v : Nat) : updF d c v c = v := by
  simp [updF]

theorem updF_updF (d : Dist) (c : Fin 4) (v w : Nat) :
    updF (updF d c v) c w = updF d c w := by
  funext j
  unfold updF
  split <;> rfl

theorem updF_other (d : Dist) (c j : Fin 4) (v : Nat) (h : j ≠ c) :
    updF d c v j = d j := by
  simp [updF, h]

theorem mapGet_nil (k : Nat) : mapGet [] k = zeroDist := rfl

theorem mapGet_singleton (k : Nat) (v : Dist) : mapGet [(k, v)] k = v := by
  simp [mapGet, List.lookup]

theorem mapSet_singleton (k : Nat) (v w : Dist) :
    mapSet [(k, v)] k w = [(k, w)] := by
  simp [mapSet]

theorem overGet_append_self (ov : List Dist) (v : Dist) :
    overGet (ov ++ [v]) ov.length = v := by
  induction ov with
  | nil => rfl
  | cons x xs ih => simpa [overGet, List.getD] using ih

theorem set_append_self (ov : List Dist) (v w : Dist) :
    (ov ++ [v]).set ov.length w = ov ++ [w] := by
  induction ov with
  | nil => rfl
  | cons x xs ih => simp [List.set, ih]

/-- Increment on a non-overflowed cell that stays under 255: plain add. -/
theorem SmallKmerModel.Increment_small (km : SmallKmerModel) (k : Nat)
    (c : Fin 4) (b : Nat) (entry : Dist) (hget : mapGet km.dist k = entry)
    (h0 : entry 0 ≠ 255) (hlt : entry c + b < 255) :
    km.Increment k c b =
      { km with dist := mapSet km.dist k (updF entry c (entry c + b)) } := by
  unfold Increment hasOverflow
  rw [hget, if_neg h0]
  dsimp only
  rw [if_neg (by decide : ¬ (false = true)), if_neg (by omega)]

/-- Increment on a non-overflowed cell that would reach 255: promotion.
The current counters are copied to a fresh overflow entry (which then
receives the addition) and the cell becomes sentinel + index. -/
theorem SmallKmerModel.Increment_promote (km : SmallKmerModel) (k : Nat)
    (c : Fin 4) (b : Nat) (entry : Dist) (hget : mapGet km.dist k = entry)
    (h0 : entry 0 ≠ 255) (hge : 255 ≤ entry c + b) :
    km.Increment k c b =
      { km with
          overflow := km.overflow ++ [updF entry c (entry c + b)],
          dist := mapSet km.dist k (idxCell km.overflow.length) } := by
  have hd : (fun c => mapGet km.dist k c) = entry := by
    funext j
    rw [hget]
  unfold Increment hasOverflow createOverflow
  rw [hd, hget, if_neg h0]
  dsimp only
  rw [if_neg (by decide : ¬ (false = true)), if_pos (by omega)]
  have hlen : (km.overflow ++ [entry]).length - 1 = km.overflow.length := by
    simp
  rw [hlen, overGet_append_self, set_append_self]
  rfl

/-- Increment on an overflowed cell while strictly under MAX_OBSERVATION:
add into the overflow entry. -/
theorem SmallKmerModel.Increment_over_add (km : SmallKmerModel) (k : Nat)
    (c : Fin 4) (b : Nat) (entry : Dist) (hget : mapGet km.dist k = entry)
    (h0 : entry 0 = 255)
    (hlt : overGet km.overflow
        (entry 1 * 2 ^ 16 + entry 2 * 2 ^ 8 + entry 3) c + b <
      MAX_OBSERVATION) :
    km.Increment k c b =
      { km with overflow :=
          (km.overflow.set (entry 1 * 2 ^ 16 + entry 2 * 2 ^ 8 + entry 3)
            (updF
              (overGet km.overflow
                (entry 1 * 2 ^ 16 + entry 2 * 2 ^ 8 + entry 3)) c
              (overGet km.overflow
                (entry 1 * 2 ^ 16 + entry 2 * 2 ^ 8 + entry 3) c + b))) } := by
  unfold Increment hasOverflow
  rw [hget, if_pos h0]
  dsimp only
  rw [if_pos (by decide : true = true), if_pos hlt]

/-- Increment on an overflowed cell whose result would reach or pass
MAX_OBSERVATION: silently discarded. -/
theorem SmallKmerModel.Increment_over_noop (km : SmallKmerModel) (k : Nat)
    (c : Fin 4) (b : Nat) (entry : Dist) (hget : mapGet km.dist k = entry)
    (h0 : entry 0 = 255)
    (hge : MAX_OBSERVATION ≤ overGet km.overflow
        (entry 1 * 2 ^ 16 + entry 2 * 2 ^ 8 + entry 3) c + b) :
    km.Increment k c b = km := by
  unfold Increment hasOverflow
  rw [hget, if_pos h0]
  dsimp only
  rw [if_pos (by decide : true = true), if_neg (by omega)]

/-- n repeated unit increments (Increment(k, c, 1)) on the sparse model. -/
def iterIncSmall (km : SmallKmerModel) (k : Nat) (c : Fin 4) : Nat → SmallKmerModel
  | 0 => km
  | n + 1 => (iterIncSmall km k c n).Increment k c 1

/-- n repeated unit increments on the dense model. -/
def iterIncArray (ka : ArrayKmerModel) (k : Nat) (c : Fin 4) : Nat → ArrayKmerModel
  | 0 => ka
  | n + 1 => (iterIncArray ka k c n).Increment k c 1

theorem updF_zero_at (c : Fin 4) (n : Nat) :
    updF zeroDist c n 0 = if (0 : Fin 4) = c then n else 0 := by
  simp [updF, zeroDist]

/-- After 1 ≤ n ≤ 254 unit increments from a fresh sparse model, the cell
is still in small representation, holding n on channel c. -/
theorem iterIncSmall_le_254 (ord k : Nat) (c : Fin 4) :
    ∀ n, 1 ≤ n → n ≤ 254 →
      iterIncSmall (NewSmallKmerModel ord) k c n =
        { order := ord, overflow := [], dist := [(k, updF zeroDist c n)] } := by
  intro n
  induction n with
  | zero => omega
  | succ n ih =>
    intro h1 h254
    rcases Nat.eq_or_lt_of_le h1 with h | h
    · have hn : n = 0 := by omega
      subst hn
      show SmallKmerModel.Increment (NewSmallKmerModel ord) k c 1 = _
      rw [SmallKmerModel.Increment_small (NewSmallKmerModel ord) k c 1
          zeroDist rfl (by decide) (by simp [zeroDist])]
      rfl
    · have hn1 : 1 ≤ n := by omega
      have hn254 : n ≤ 254 := by omega
      show (iterIncSmall (NewSmallKmerModel ord) k c n).Increment k c 1 = _
      rw [ih hn1 (by omega)]
      rw [SmallKmerModel.Increment_small _ k c 1 (updF zeroDist c n)
          (mapGet_singleton k _)
          (by rw [updF_zero_at]; split <;> omega)
          (by rw [updF_self]; omega),
        mapSet_singleton, updF_self, updF_updF]

theorem overGet_singleton (v : Dist) : overGet [v] 0 = v := rfl

theorem idxCell_zero_idx :
    idxCell 0 1 * 2 ^ 16 + idxCell 0 2 * 2 ^ 8 + idxCell 0 3 = 0 := rfl

/-- From the 255th through the 65534th unit increment, the cell is in
overflow representation; the single overflow entry holds n on channel c. -/
theorem iterIncSmall_255_to_cap (ord k : Nat) (c : Fin 4) :
    ∀ n, 255 ≤ n → n ≤ 65534 →
      iterIncSmall (NewSmallKmerModel ord) k c n =
        { order := ord, overflow := [updF zeroDist c n],
          dist := [(k, idxCell 0)] } := by
  intro n
  induction n with
  | zero => omega
  | succ n ih =>
    intro h1 h2
    rcases Nat.eq_or_lt_of_le h1 with h | h
    · have hn : n = 254 := by omega
      subst hn
      show (iterIncSmall (NewSmallKmerModel ord) k c 254).Increment k c 1 = _
      rw [iterIncSmall_le_254 ord k c 254 (by omega) (by omega)]
      rw [SmallKmerModel.Increment_promote _ k c 1 (updF zeroDist c 254)
          (mapGet_singleton k _)
          (by rw [updF_zero_at]; split <;> omega)
          (by rw [updF_self] <;> omega),
        mapSet_singleton, updF_self, updF_updF]
      rfl
    · have hn1 : 255 ≤ n := by omega
      show (iterIncSmall (NewSmallKmerModel ord) k c n).Increment k c 1 = _
      rw [ih hn1 (by omega)]
      rw [SmallKmerModel.Increment_over_add _ k c 1 (idxCell 0)
          (mapGet_singleton k _) rfl
          (by
            rw [idxCell_zero_idx, overGet_singleton, updF_self]
            unfold MAX_OBSERVATION
            omega)]
      rw [idxCell_zero_idx, overGet_singleton, updF_self, updF_updF]
      rfl

/-- From the 65534th unit increment on, further unit increments are
discarded: the overflow entry stays at 65534. -/
theorem iterIncSmall_cap (ord k : Nat) (c : Fin 4) :
    ∀ n, 65534 ≤ n →
      iterIncSmall (NewSmallKmerModel ord) k c n =
        { order := ord, overflow := [updF zeroDist c 65534],
          dist := [(k, idxCell 0)] } := by
  intro n
  induction n with
  | zero => omega
  | succ n ih =>
    intro h1
    rcases Nat.eq_or_lt_of_le h1 with h | h
    · have hn : n = 65533 := by omega
      subst hn
      exact iterIncSmall_255_to_cap ord k c 65534 (by omega) (by omega)
    · have hn1 : 65534 ≤ n := by omega
      show (iterIncSmall (NewSmallKmerModel ord) k c n).Increment k c 1 = _
      rw [ih hn1]
      rw [SmallKmerModel.Increment_over_noop _ k c 1 (idxCell 0)
          (mapGet_singleton k _) rfl
          (by
            rw [idxCell_zero_idx, overGet_singleton, updF_self]
            unfold MAX_OBSERVATION
            omega)]

/-- NextCount on a cell in small representation reads the raw counter. -/
theorem SmallKmerModel.NextCount_small (km : SmallKmerModel) (k : Nat)
    (c : Fin 4) (entry : Dist) (hget : mapGet km.dist k = entry)
    (h0 : entry 0 ≠ 255) : km.NextCount k c = entry c := by
  unfold NextCount hasOverflow
  rw [hget, if_neg h0]
  dsimp only
  rw [if_neg (by decide : ¬ (false = true))]

/-- NextCount on an overflowed cell reads the overflow entry. -/
theorem SmallKmerModel.NextCount_over (km : SmallKmerModel) (k : Nat)
    (c : Fin 4) (entry : Dist) (hget : mapGet km.dist k = entry)
    (h0 : entry 0 = 255) :
    km.NextCount k c =
      overGet km.overflow (entry 1 * 2 ^ 16 + entry 2 * 2 ^ 8 + entry 3) c := by
  unfold NextCount hasOverflow
  rw [hget, if_pos h0]
  dsimp only
  rw [if_pos (by decide : true = true)]

/-- The count read back after n unit increments of a fresh sparse model:
min n 65534. Repeated unit increments saturate at 65534, not at
MAX_OBSERVATION = 65535, because an increment is discarded as soon as its
result would reach MAX_OBSERVATION. -/
theorem smallIter_nextCount (ord k : Nat) (c : Fin 4) (n : Nat) :
    (iterIncSmall (NewSmallKmerModel ord) k c n).NextCount k c =
      min n 65534 := by
  rcases Nat.eq_zero_or_pos n with h0 | hpos
  · subst h0
    show (NewSmallKmerModel ord).NextCount k c = _
    rw [SmallKmerModel.NextCount_small (NewSmallKmerModel ord) k c zeroDist
        rfl (by decide)]
    rfl
  · rcases Nat.lt_or_ge n 255 with h255 | h255
    · rw [iterIncSmall_le_254 ord k c n (by omega) (by omega)]
      rw [SmallKmerModel.NextCount_small _ k c (updF zeroDist c n)
          (mapGet_singleton k _)
          (by rw [updF_zero_at]; split <;> omega),
        updF_self]
      omega
    · rcases Nat.lt_or_ge n 65535 with hcap | hcap
      · rw [iterIncSmall_255_to_cap ord k c n (by omega) (by omega)]
        rw [SmallKmerModel.NextCount_over _ k c (idxCell 0)
            (mapGet_singleton k _) rfl,
          idxCell_zero_idx, overGet_singleton, updF_self]
        omega
      · rw [iterIncSmall_cap ord k c n (by omega)]
        rw [SmallKmerModel.NextCount_over _ k c (idxCell 0)
            (mapGet_singleton k _) rfl,
          idxCell_zero_idx, overGet_singleton, updF_self]
        omega

theorem arrSet_self (f : Nat → Dist) (k : Nat) (v : Dist) :
    arrSet f k v k = v := by
  simp [arrSet]

theorem arrSet_arrSet (f : Nat → Dist) (k : Nat) (v w : Dist) :
    arrSet (arrSet f k v) k w = arrSet f k w := by
  funext j
  unfold arrSet
  split <;> rfl

/-- Increment on a non-overflowed dense cell that stays under 255. -/
theorem ArrayKmerModel.arrIncrement_small (ka : ArrayKmerModel) (k : Nat)
    (c : Fin 4) (b : Nat) (h0 : ka.dist k 0 ≠ 255)
    (hlt : ka.dist k c + b < 255) :
    ka.Increment k c b =
      { ka with dist := arrSet ka.dist k (updF (ka.dist k) c
          (ka.dist k c + b)) } := by
  unfold Increment hasOverflow
  rw [if_neg h0]
  dsimp only
  rw [if_neg (by decide : ¬ (false = true)), if_neg (by omega)]

/-- Increment on a non-overflowed dense cell that would reach 255:
promotion to overflow. -/
theorem ArrayKmerModel.arrIncrement_promote (ka : ArrayKmerModel) (k : Nat)
    (c : Fin 4) (b : Nat) (h0 : ka.dist k 0 ≠ 255)
    (hge : 255 ≤ ka.dist k c + b) :
    ka.Increment k c b =
      { ka with
          overflow := ka.overflow ++ [updF (ka.dist k) c (ka.dist k c + b)],
          dist := arrSet ka.dist k (idxCell ka.overflow.length) } := by
  unfold Increment hasOverflow createOverflow
  rw [if_neg h0]
  dsimp only
  rw [if_neg (by decide : ¬ (false = true)), if_pos (by omega)]
  have hlen : (ka.overflow ++ [fun c => ka.dist k c]).length - 1 =
      ka.overflow.length := by
    simp
  rw [hlen, overGet_append_self, set_append_self]
  rfl

/-- Increment on an overflowed dense cell strictly under MAX_OBSERVATION. -/
theorem ArrayKmerModel.arrIncrement_over_add (ka : ArrayKmerModel) (k : Nat)
    (c : Fin 4) (b : Nat) (h0 : ka.dist k 0 = 255)
    (hlt : overGet ka.overflow
        (ka.dist k 1 * 2 ^ 16 + ka.dist k 2 * 2 ^ 8 + ka.dist k 3) c + b <
      MAX_OBSERVATION) :
    ka.Increment k c b =
      { ka with overflow :=
          (ka.overflow.set
            (ka.dist k 1 * 2 ^ 16 + ka.dist k 2 * 2 ^ 8 + ka.dist k 3)
            (updF
              (overGet ka.overflow
                (ka.dist k 1 * 2 ^ 16 + ka.dist k 2 * 2 ^ 8 + ka.dist k 3)) c
              (overGet ka.overflow
                (ka.dist k 1 * 2 ^ 16 + ka.dist k 2 * 2 ^ 8 + ka.dist k 3) c +
                b))) } := by
  unfold Increment hasOverflow
  rw [if_pos h0]
  dsimp only
  rw [if_pos (by decide : true = true), if_pos hlt]

/-- Increment on an overflowed dense cell at or past MAX_OBSERVATION:
silently discarded. -/
theorem ArrayKmerModel.arrIncrement_over_noop (ka : ArrayKmerModel) (k : Nat)
    (c : Fin 4) (b : Nat) (h0 : ka.dist k 0 = 255)
    (hge : MAX_OBSERVATION ≤ overGet ka.overflow
        (ka.dist k 1 * 2 ^ 16 + ka.dist k 2 * 2 ^ 8 + ka.dist k 3) c + b) :
    ka.Increment k c b = ka := by
  unfold Increment hasOverflow
  rw [if_pos h0]
  dsimp only
  rw [if_pos (by decide : true = true), if_neg (by omega)]

/-- The dense-model state with a single touched cell at context k. -/
def arrState (ord k : Nat) (cell : Dist) (ov : List Dist) : ArrayKmerModel :=
  { order := ord, overflow := ov,
    dist := arrSet (fun _ => zeroDist) k cell }

theorem arrState_dist (ord k : Nat) (cell : Dist) (ov : List Dist) :
    (arrState ord k cell ov).dist k = cell := by
  show arrSet (fun _ => zeroDist) k cell k = cell
  exact arrSet_self _ _ _

theorem arrState_overflow (ord k : Nat) (cell : Dist) (ov : List Dist) :
    (arrState ord k cell ov).overflow = ov := rfl

/-- After 1 ≤ n ≤ 254 unit increments from a fresh dense model, the cell
holds n on channel c in small representation. -/
theorem iterIncArray_le_254 (ord k : Nat) (c : Fin 4) :
    ∀ n, 1 ≤ n → n ≤ 254 →
      iterIncArray (NewArrayKmerModel ord) k c n =
        arrState ord k (updF zeroDist c n) [] := by
  intro n
  induction n with
  | zero => omega
  | succ n ih =>
    intro h1 h254
    rcases Nat.eq_or_lt_of_le h1 with h | h
    · have hn : n = 0 := by omega
      subst hn
      show (NewArrayKmerModel ord).Increment k c 1 = _
      rw [ArrayKmerModel.arrIncrement_small (NewArrayKmerModel ord) k c 1
          (by simp [NewArrayKmerModel, zeroDist])
          (by simp [NewArrayKmerModel, zeroDist])]
      rfl
    · have hn1 : 1 ≤ n := by omega
      show (iterIncArray (NewArrayKmerModel ord) k c n).Increment k c 1 = _
      rw [ih hn1 (by omega)]
      have hdk := arrState_dist ord k (updF zeroDist c n) []
      rw [ArrayKmerModel.arrIncrement_small _ k c 1
          (by rw [hdk, updF_zero_at]; split <;> omega)
          (by rw [hdk, updF_self] <;> omega),
        hdk]
      unfold arrState
      dsimp only
      rw [updF_self, updF_updF, arrSet_arrSet]

/-- From the 255th through the 65534th unit increment of the dense model,
the cell is in overflow representation with a single entry holding n. -/
theorem iterIncArray_255_to_cap (ord k : Nat) (c : Fin 4) :
    ∀ n, 255 ≤ n → n ≤ 65534 →
      iterIncArray (NewArrayKmerModel ord) k c n =
        arrState ord k (idxCell 0) [updF zeroDist c n] := by
  intro n
  induction n with
  | zero => omega
  | succ n ih =>
    intro h1 h2
    rcases Nat.eq_or_lt_of_le h1 with h | h
    · have hn : n = 254 := by omega
      subst hn
      show (iterIncArray (NewArrayKmerModel ord) k c 254).Increment k c 1 = _
      rw [iterIncArray_le_254 ord k c 254 (by omega) (by omega)]
      have hdk := arrState_dist ord k (updF zeroDist c 254) []
      rw [ArrayKmerModel.arrIncrement_promote _ k c 1
          (by rw [hdk, updF_zero_at]; split <;> omega)
          (by rw [hdk, updF_self] <;> omega),
        hdk]
      unfold arrState
      dsimp only
      rw [updF_self, updF_updF, arrSet_arrSet]
      rfl
    · have hn1 : 255 ≤ n := by omega
      show (iterIncArray (NewArrayKmerModel ord) k c n).Increment k c 1 = _
      rw [ih hn1 (by omega)]
      have hdk := arrState_dist ord k (idxCell 0) [updF zeroDist c n]
      rw [ArrayKmerModel.arrIncrement_over_add _ k c 1
          (by rw [hdk]; decide)
          (by
            rw [hdk, idxCell_zero_idx, arrState_overflow, overGet_singleton,
              updF_self]
            unfold MAX_OBSERVATION
            omega),
        hdk, idxCell_zero_idx, arrState_overflow, overGet_singleton,
        updF_self, updF_updF]
      rfl

/-- From the 65534th unit increment of the dense model on, further unit
increments are discarded. -/
theorem iterIncArray_cap (ord k : Nat) (c : Fin 4) :
    ∀ n, 65534 ≤ n →
      iterIncArray (NewArrayKmerModel ord) k c n =
        arrState ord k (idxCell 0) [updF zeroDist c 65534] := by
  intro n
  induction n with
  | zero => omega
  | succ n ih =>
    intro h1
    rcases Nat.eq_or_lt_of_le h1 with h | h
    · have hn : n = 65533 := by omega
      subst hn
      exact iterIncArray_255_to_cap ord k c 65534 (by omega) (by omega)
    · have hn1 : 65534 ≤ n := by omega
      show (iterIncArray (NewArrayKmerModel ord) k c n).Increment k c 1 = _
      rw [ih hn1]
      have hdk := arrState_dist ord k (idxCell 0) [updF zeroDist c 65534]
      rw [ArrayKmerModel.arrIncrement_over_noop _ k c 1
          (by rw [hdk]; decide)
          (by
            rw [hdk, idxCell_zero_idx, arrState_overflow, overGet_singleton,
              updF_self]
            unfold MAX_OBSERVATION
            omega)]

/-- NextCount of the dense model on a cell in small representation. -/
theorem ArrayKmerModel.arrNextCount_small (ka : ArrayKmerModel) (k : Nat)
    (c : Fin 4) (h0 : ka.dist k 0 ≠ 255) : ka.NextCount k c = ka.dist k c := by
  unfold NextCount hasOverflow
  rw [if_neg h0]
  dsimp only
  rw [if_neg (by decide : ¬ (false = true))]

/-- NextCount of the dense model on an overflowed cell. -/
theorem ArrayKmerModel.arrNextCount_over (ka : ArrayKmerModel) (k : Nat)
    (c : Fin 4) (h0 : ka.dist k 0 = 255) :
    ka.NextCount k c =
      overGet ka.overflow
        (ka.dist k 1 * 2 ^ 16 + ka.dist k 2 * 2 ^ 8 + ka.dist k 3) c := by
  unfold NextCount hasOverflow
  rw [if_pos h0]
  dsimp only
  rw [if_pos (by decide : true = true)]

/-- The count read back after n unit increments of a fresh dense model:
min n 65534, exactly as for the sparse model. -/
theorem arrayIter_nextCount (ord k : Nat) (c : Fin 4) (n : Nat) :
    (iterIncArray (NewArrayKmerModel ord) k c n).NextCount k c =
      min n 65534 := by
  rcases Nat.eq_zero_or_pos n with h0 | hpos
  · subst h0
    show (NewArrayKmerModel ord).NextCount k c = _
    rw [ArrayKmerModel.arrNextCount_small (NewArrayKmerModel ord) k c
        (by simp [NewArrayKmerModel, zeroDist])]
    rfl
  · rcases Nat.lt_or_ge n 255 with h255 | h255
    · rw [iterIncArray_le_254 ord k c n (by omega) (by omega)]
      have hdk := arrState_dist ord k (updF zeroDist c n) []
      rw [ArrayKmerModel.arrNextCount_small _ k c
          (by rw [hdk, updF_zero_at]; split <;> omega),
        hdk, updF_self]
      omega
    · rcases Nat.lt_or_ge n 65535 with hcap | hcap
      · rw [iterIncArray_255_to_cap ord k c n (by omega) (by omega)]
        have hdk := arrState_dist ord k (idxCell 0) [updF zeroDist c n]
        rw [ArrayKmerModel.arrNextCount_over _ k c (by rw [hdk]; decide),
          hdk, idxCell_zero_idx, arrState_overflow, overGet_singleton,
          updF_self]
        omega
      · rw [iterIncArray_cap ord k c n (by omega)]
        have hdk := arrState_dist ord k (idxCell 0) [updF zeroDist c 65534]
        rw [ArrayKmerModel.arrNextCount_over _ k c (by rw [hdk]; decide),
          hdk, idxCell_zero_idx, arrState_overflow, overGet_singleton,
          updF_self]
        omega

theorem lookup_singleton (k : Nat) (v : Dist) :
    List.lookup k [(k, v)] = some v := by
  simp [List.lookup]

/-- Distribution of a present, non-overflowed sparse cell. -/
theorem SmallKmerModel.Distribution_present (km : SmallKmerModel) (k : Nat)
    (entry : Dist) (hlk : km.dist.lookup k = some entry)
    (h0 : entry 0 ≠ 255) : km.Distribution k = (true, fun c => entry c) := by
  unfold Distribution
  rw [hlk]
  dsimp only
  rw [if_neg h0]

/-- Distribution of an overflowed sparse cell. -/
theorem SmallKmerModel.Distribution_overflowed (km : SmallKmerModel)
    (k : Nat) (entry : Dist) (hlk : km.dist.lookup k = some entry)
    (h0 : entry 0 = 255) :
    km.Distribution k =
      (true,
       overGet km.overflow
         (entry 1 * 2 ^ 16 + entry 2 * 2 ^ 8 + entry 3)) := by
  unfold Distribution
  rw [hlk]
  dsimp only
  rw [if_pos h0]

/-- The sparse overflow flag is false on a non-overflowed cell. -/
theorem SmallKmerModel.hasOverflow_false (km : SmallKmerModel) (k : Nat)
    (entry : Dist) (hget : mapGet km.dist k = entry) (h0 : entry 0 ≠ 255) :
    (km.hasOverflow k).2.2 = false := by
  unfold hasOverflow
  rw [hget, if_neg h0]

/-- The sparse overflow flag is true on an overflowed cell. -/
theorem SmallKmerModel.hasOverflow_true (km : SmallKmerModel) (k : Nat)
    (entry : Dist) (hget : mapGet km.dist k = entry) (h0 : entry 0 = 255) :
    (km.hasOverflow k).2.2 = true := by
  unfold hasOverflow
  rw [hget, if_pos h0]

/-- Distribution of a non-overflowed dense cell. -/
theorem ArrayKmerModel.Distribution_small (ka : ArrayKmerModel) (k : Nat)
    (h0 : ka.dist k 0 ≠ 255) :
    ka.Distribution k =
      ((chanList.any fun c => 0 < ka.dist k c), fun c => ka.dist k c) := by
  have hov : ka.hasOverflow k = (0, false) := by
    unfold hasOverflow
    rw [if_neg h0]
  unfold Distribution
  rw [hov]
  dsimp only
  rw [if_neg (by decide : ¬ (false = true))]

/-- Distribution of an overflowed dense cell. -/
theorem ArrayKmerModel.arrDistribution_overflowed (ka : ArrayKmerModel)
    (k : Nat) (h0 : ka.dist k 0 = 255) :
    ka.Distribution k =
      (true,
       overGet ka.overflow
         (ka.dist k 1 * 2 ^ 16 + ka.dist k 2 * 2 ^ 8 + ka.dist k 3)) := by
  unfold Distribution hasOverflow
  rw [if_pos h0]
  dsimp only
  rw [if_pos (by decide : true = true)]

/-- The dense overflow flag, both directions. -/
theorem ArrayKmerModel.arrHasOverflow_false (ka : ArrayKmerModel) (k : Nat)
    (h0 : ka.dist k 0 ≠ 255) : (ka.hasOverflow k).2 = false := by
  unfold hasOverflow
  rw [if_neg h0]

theorem ArrayKmerModel.arrHasOverflow_true (ka : ArrayKmerModel) (k : Nat)
    (h0 : ka.dist k 0 = 255) : (ka.hasOverflow k).2 = true := by
  unfold hasOverflow
  rw [if_pos h0]

/-- C2 counterexample: a channel repeatedly incremented by 1 does NOT
saturate at 65535. After 65535 unit increments — and after any larger
number — both backends read back 65534, because the increment whose result
would reach MAX_OBSERVATION = 65535 is already discarded. -/
theorem C2_saturation_counterexample :
    (iterIncSmall (NewSmallKmerModel 8) 0 0 65535).NextCount 0 0 = 65534 ∧
    (iterIncSmall (NewSmallKmerModel 8) 0 0 100000).NextCount 0 0 = 65534 ∧
    (iterIncArray (NewArrayKmerModel 8) 0 0 65535).NextCount 0 0 = 65534 ∧
    (iterIncArray (NewArrayKmerModel 8) 0 0 100000).NextCount 0 0 = 65534 := by
  refine ⟨?_, ?_, ?_, ?_⟩ <;>
    first
      | (rw [smallIter_nextCount]; rfl)
      | (rw [arrayIter_nextCount]; rfl)

/-- C2 (amended). Counter saturation: for either backend, an increment of
a cell in overflow representation whose result would reach or pass
MAX_OBSERVATION = 65535 is silently discarded, leaving the model unchanged
(in particular a channel holding 65535 incremented by 1 stays at 65535);
and a fresh channel repeatedly incremented by 1 reads back min(n, 65534) —
it saturates at 65534, one below MAX_OBSERVATION, never exceeding it. -/
theorem C2_counter_saturation_amended (km : SmallKmerModel)
    (ka : ArrayKmerModel) (k ord n : Nat) (c : Fin 4) (b : Nat)
    (hkm0 : mapGet km.dist k 0 = 255)
    (hkmmax : MAX_OBSERVATION ≤ overGet km.overflow
        (mapGet km.dist k 1 * 2 ^ 16 + mapGet km.dist k 2 * 2 ^ 8 +
          mapGet km.dist k 3) c + b)
    (hka0 : ka.dist k 0 = 255)
    (hkamax : MAX_OBSERVATION ≤ overGet ka.overflow
        (ka.dist k 1 * 2 ^ 16 + ka.dist k 2 * 2 ^ 8 + ka.dist k 3) c + b) :
    km.Increment k c b = km ∧
    ka.Increment k c b = ka ∧
    (iterIncSmall (NewSmallKmerModel ord) k c n).NextCount k c =
      min n 65534 ∧
    (iterIncArray (NewArrayKmerModel ord) k c n).NextCount k c =
      min n 65534 :=
  ⟨SmallKmerModel.Increment_over_noop km k c b (mapGet km.dist k) rfl hkm0
      hkmmax,
   ArrayKmerModel.arrIncrement_over_noop ka k c b hka0 hkamax,
   smallIter_nextCount ord k c n,
   arrayIter_nextCount ord k c n⟩

/-- Witness for C2 (amended) at concrete overflowed models whose channel 0
holds 65535, incremented by 1, and n = 5 iterations from fresh models. -/
theorem C2_counter_saturation_amended_witness :
    (mapGet [((0 : Nat), idxCell 0)] 0 0 = 255) ∧
    (MAX_OBSERVATION ≤ overGet [updF zeroDist 0 65535]
        (mapGet [((0 : Nat), idxCell 0)] 0 1 * 2 ^ 16 +
          mapGet [((0 : Nat), idxCell 0)] 0 2 * 2 ^ 8 +
          mapGet [((0 : Nat), idxCell 0)] 0 3) 0 + 1) ∧
    ((arrState 2 0 (idxCell 0) [updF zeroDist 0 65535]).dist 0 0 = 255) ∧
    (MAX_OBSERVATION ≤
      overGet (arrState 2 0 (idxCell 0) [updF zeroDist 0 65535]).overflow
        ((arrState 2 0 (idxCell 0) [updF zeroDist 0 65535]).dist 0 1 * 2 ^ 16 +
          (arrState 2 0 (idxCell 0) [updF zeroDist 0 65535]).dist 0 2 * 2 ^ 8 +
          (arrState 2 0 (idxCell 0) [updF zeroDist 0 65535]).dist 0 3) 0 + 1) ∧
    (SmallKmerModel.Increment
        { order := 2, overflow := [updF zeroDist 0 65535],
          dist := [(0, idxCell 0)] } 0 0 1 =
      { order := 2, overflow := [updF zeroDist 0 65535],
        dist := [(0, idxCell 0)] } ∧
     ArrayKmerModel.Increment
        (arrState 2 0 (idxCell 0) [updF zeroDist 0 65535]) 0 0 1 =
      arrState 2 0 (idxCell 0) [updF zeroDist 0 65535] ∧
     (iterIncSmall (NewSmallKmerModel 2) 0 0 5).NextCount 0 0 = min 5 65534 ∧
     (iterIncArray (NewArrayKmerModel 2) 0 0 5).NextCount 0 0 =
       min 5 65534) :=
  ⟨by decide, by decide, by decide, by decide,
   C2_counter_saturation_amended
     { order := 2, overflow := [updF zeroDist 0 65535],
       dist := [(0, idxCell 0)] }
     (arrState 2 0 (idxCell 0) [updF zeroDist 0 65535]) 0 2 5 0 1
     (by decide) (by decide) (by decide) (by decide)⟩

/-- C3 counterexample: immediately before promotion — after exactly 254
unit increments on channel C — the distribution reads back 254 on that
channel (not 255), and the cell has not yet overflowed, on both backends. -/
theorem C3_before_promotion_counterexample :
    ((iterIncSmall (NewSmallKmerModel 2) 0 1 254).Distribution 0).2 1 =
      254 ∧
    ((iterIncSmall (NewSmallKmerModel 2) 0 1 254).hasOverflow 0).2.2 =
      false ∧
    ((iterIncArray (NewArrayKmerModel 2) 0 1 254).Distribution 0).2 1 =
      254 ∧
    ((iterIncArray (NewArrayKmerModel 2) 0 1 254).hasOverflow 0).2 =
      false := by
  rw [iterIncSmall_le_254 2 0 1 254 (by omega) (by omega),
    iterIncArray_le_254 2 0 1 254 (by omega) (by omega)]
  refine ⟨?_, ?_, ?_, ?_⟩ <;> decide

/-- C3 (amended). Overflow promotion boundary: on either backend, a fresh
cell incremented 255 times by 1 on channel c stays in small representation
through the 254th increment and transitions to overflow representation
(0xFF sentinel, big-endian 24-bit index — here index 0) precisely on the
255th; the promotion copies the four 8-bit counters into a fresh overflow
entry which then receives the pending addition, so the overflow table holds
exactly (0,…,255,…,0); Distribution reads back 254 on channel c (and 0
elsewhere) immediately before promotion, and 255 (and 0 elsewhere)
immediately after. -/
theorem C3_overflow_promotion_boundary_amended (ord k : Nat) (c : Fin 4) :
    (∀ m, m ≤ 254 →
      ((iterIncSmall (NewSmallKmerModel ord) k c m).hasOverflow k).2.2 =
        false ∧
      ((iterIncArray (NewArrayKmerModel ord) k c m).hasOverflow k).2 =
        false) ∧
    ((iterIncSmall (NewSmallKmerModel ord) k c 255).hasOverflow k).2.2 =
      true ∧
    ((iterIncArray (NewArrayKmerModel ord) k c 255).hasOverflow k).2 =
      true ∧
    (iterIncSmall (NewSmallKmerModel ord) k c 255).overflow =
      [updF zeroDist c 255] ∧
    (iterIncArray (NewArrayKmerModel ord) k c 255).overflow =
      [updF zeroDist c 255] ∧
    (∀ j : Fin 4,
      ((iterIncSmall (NewSmallKmerModel ord) k c 254).Distribution k).2 j =
        if j = c then 254 else 0) ∧
    (∀ j : Fin 4,
      ((iterIncSmall (NewSmallKmerModel ord) k c 255).Distribution k).2 j =
        if j = c then 255 else 0) ∧
    (∀ j : Fin 4,
      ((iterIncArray (NewArrayKmerModel ord) k c 254).Distribution k).2 j =
        if j = c then 254 else 0) ∧
    (∀ j : Fin 4,
      ((iterIncArray (NewArrayKmerModel ord) k c 255).Distribution k).2 j =
        if j = c then 255 else 0) := by
  have hs254 := iterIncSmall_le_254 ord k c 254 (by omega) (by omega)
  have ha254 := iterIncArray_le_254 ord k c 254 (by omega) (by omega)
  have hs255 := iterIncSmall_255_to_cap ord k c 255 (by omega) (by omega)
  have ha255 := iterIncArray_255_to_cap ord k c 255 (by omega) (by omega)
  refine ⟨?_, ?_, ?_, ?_, ?_, ?_, ?_, ?_, ?_⟩
  · intro m hm
    constructor
    · rcases Nat.eq_zero_or_pos m with h0 | hpos
      · subst h0
        exact SmallKmerModel.hasOverflow_false _ k zeroDist rfl (by decide)
      · rw [iterIncSmall_le_254 ord k c m (by omega) hm]
        exact SmallKmerModel.hasOverflow_false _ k (updF zeroDist c m)
          (mapGet_singleton k _) (by rw [updF_zero_at]; split <;> omega)
    · rcases Nat.eq_zero_or_pos m with h0 | hpos
      · subst h0
        show ((NewArrayKmerModel ord).hasOverflow k).2 = false
        exact ArrayKmerModel.arrHasOverflow_false _ k
          (by simp [NewArrayKmerModel, zeroDist])
      · rw [iterIncArray_le_254 ord k c m (by omega) hm]
        exact ArrayKmerModel.arrHasOverflow_false _ k
          (by
            rw [arrState_dist, updF_zero_at]
            split <;> omega)
  · rw [hs255]
    exact SmallKmerModel.hasOverflow_true _ k (idxCell 0)
      (mapGet_singleton k _) rfl
  · rw [ha255]
    exact ArrayKmerModel.arrHasOverflow_true _ k (by rw [arrState_dist]; decide)
  · rw [hs255]
  · rw [ha255, arrState_overflow]
  · intro j
    rw [hs254,
      SmallKmerModel.Distribution_present _ k (updF zeroDist c 254)
        (lookup_singleton k _) (by rw [updF_zero_at]; split <;> omega)]
    simp [updF, zeroDist]
  · intro j
    rw [hs255,
      SmallKmerModel.Distribution_overflowed _ k (idxCell 0)
        (lookup_singleton k _) rfl,
      idxCell_zero_idx]
    show overGet [updF zeroDist c 255] 0 j = _
    rw [overGet_singleton]
    simp [updF, zeroDist]
  · intro j
    rw [ha254,
      ArrayKmerModel.Distribution_small _ k
        (by rw [arrState_dist, updF_zero_at]; split <;> omega)]
    dsimp only
    rw [arrState_dist]
    simp [updF, zeroDist]
  · intro j
    rw [ha255,
      ArrayKmerModel.arrDistribution_overflowed _ k
        (by rw [arrState_dist]; decide)]
    dsimp only
    rw [arrState_dist, idxCell_zero_idx, arrState_overflow,
      overGet_singleton]
    simp [updF, zeroDist]

/-- Witness for C3 (amended): the full boundary statement instantiated at
order 2, context 0, channel 1 (the letter C). -/
theorem C3_overflow_promotion_boundary_amended_witness :
    (∀ m, m ≤ 254 →
      ((iterIncSmall (NewSmallKmerModel 2) 0 1 m).hasOverflow 0).2.2 =
        false ∧
      ((iterIncArray (NewArrayKmerModel 2) 0 1 m).hasOverflow 0).2 =
        false) ∧
    ((iterIncSmall (NewSmallKmerModel 2) 0 1 255).hasOverflow 0).2.2 =
      true ∧
    ((iterIncArray (NewArrayKmerModel 2) 0 1 255).hasOverflow 0).2 =
      true ∧
    (iterIncSmall (NewSmallKmerModel 2) 0 1 255).overflow =
      [updF zeroDist 1 255] ∧
    (iterIncArray (NewArrayKmerModel 2) 0 1 255).overflow =
      [updF zeroDist 1 255] ∧
    (∀ j : Fin 4,
      ((iterIncSmall (NewSmallKmerModel 2) 0 1 254).Distribution 0).2 j =
        if j = 1 then 254 else 0) ∧
    (∀ j : Fin 4,
      ((iterIncSmall (NewSmallKmerModel 2) 0 1 255).Distribution 0).2 j =
        if j = 1 then 255 else 0) ∧
    (∀ j : Fin 4,
      ((iterIncArray (NewArrayKmerModel 2) 0 1 254).Distribution 0).2 j =
        if j = 1 then 254 else 0) ∧
    (∀ j : Fin 4,
      ((iterIncArray (NewArrayKmerModel 2) 0 1 255).Distribution 0).2 j =
        if j = 1 then 255 else 0) :=
  C3_overflow_promotion_boundary_amended 2 0 1

-- ==================================================================
-- The driver layer shared by encode and decode (kpath.go)
-- ==================================================================

/-- The KmerModel interface of kpath.go, as a bundle of its four
operations over a backend state type M (Go dispatches through an
interface value; either backend instantiates this). -/
structure KmerModelOps (M : Type) where
  NextCount : M → Nat → Fin 4 → Nat
  Distribution : M → Nat → Bool × Dist
  SetCount : M → Nat → Fin 4 → Nat → M
  Increment : M → Nat → Fin 4 → Nat → M

/-- The sparse backend seen through the KmerModel interface. -/
def smallOps : KmerModelOps SmallKmerModel :=
  { NextCount := SmallKmerModel.NextCount,
    Distribution := SmallKmerModel.Distribution,
    SetCount := SmallKmerModel.SetCount,
    Increment := SmallKmerModel.Increment }

/-- The dense backend seen through the KmerModel interface. -/
def arrayOps : KmerModelOps ArrayKmerModel :=
  { NextCount := ArrayKmerModel.NextCount,
    Distribution := ArrayKmerModel.Distribution,
    SetCount := ArrayKmerModel.SetCount,
    Increment := ArrayKmerModel.Increment }

/-- The mutable globals of kpath.go shared by the encode and decode loops:
the k-mer model plus defaultInterval ([4]uint32) and defaultIntervalSum
(uint64). The counters are increment-only and far from wrapping for any
input the program can process; they are embedded as unbounded naturals. -/
structure GlobalState (M : Type) where
  km : M
  defaultInterval : Dist
  defaultIntervalSum : Nat

/-- The initial globals: `defaultInterval = {2, 2, 2, 2}` and
`defaultIntervalSum = 4 * 2`, with the model built from the reference. -/
def initialState {M : Type} (km : M) : GlobalState M :=
  { km := km, defaultInterval := fun _ => 2, defaultIntervalSum := 8 }

/-- The loop body of contextTotal(): `total += contextWeight(i, dist)` over
the four channels. -/
def sumWeights (dist : Dist) : Nat :=
  chanList.foldl (fun total i => total + contextWeight i dist) 0

theorem sumWeights_eq_cumW (dist : Dist) :
    sumWeights dist = cumW (fun i => contextWeight i dist) 4 := by
  simp [sumWeights, chanList, cumW_four]
  omega

/-- nextInterval() from kpath.go: compute the interval for `kidx` under the
context's distribution when the context is known, under the default
interval otherwise (bumping defaultInterval and defaultIntervalSum in the
latter case), and adaptively increment the model either way (when
updateReference is set). The decoder calls it with computeInterval = false,
purely for the state update. -/
def nextInterval {M : Type} (ops : KmerModelOps M) (st : GlobalState M)
    (contextMer : Nat) (kidx : Fin 4) (computeInterval : Bool) :
    (Nat × Nat × Nat) × GlobalState M :=
  let ed := ops.Distribution st.km contextMer
  if ed.1 then
    ((if computeInterval then intervalFor kidx ed.2 else (0, 0, 0)),
     { st with km :=
        if updateReference then ops.Increment st.km contextMer kidx 1
        else st.km })
  else
    ((if computeInterval then intervalForDefault st.defaultInterval kidx
      else (0, 0, 0)),
     { km :=
        if updateReference then ops.Increment st.km contextMer kidx 1
        else st.km,
       defaultInterval :=
        updF st.defaultInterval kidx (st.defaultInterval kidx + 1),
       defaultIntervalSum := st.defaultIntervalSum + 1 })

/-- contextTotal() from kpath.go: the summed transformed weights of the
context's distribution when known, defaultIntervalSum otherwise. -/
def contextTotal {M : Type} (ops : KmerModelOps M) (st : GlobalState M)
    (context : Nat) : Nat :=
  let ed := ops.Distribution st.km context
  if ed.1 then sumWeights ed.2 else st.defaultIntervalSum

/-- lookup() from kpath.go: dart over the context distribution when known,
dartDefault otherwise. -/
def lookup {M : Type} (ops : KmerModelOps M) (st : GlobalState M)
    (context : Nat) (t : Nat) : Option (Nat × Nat × Fin 4) :=
  let ed := ops.Distribution st.km context
  if ed.1 then dart ed.2 t else dartDefault st.defaultInterval t

/-- The global states reachable during encode or decode: the initial state
(for any model the reference produced) followed by any sequence of
per-symbol nextInterval updates. -/
inductive ReachableState {M : Type} (ops : KmerModelOps M) :
    GlobalState M → Prop
  | init (km : M) : ReachableState ops (initialState km)
  | step (st : GlobalState M) (ctx : Nat) (c : Fin 4) (b : Bool) :
      ReachableState ops st →
      ReachableState ops (nextInterval ops st ctx c b).2

theorem nextInterval_known {M : Type} (ops : KmerModelOps M)
    (st : GlobalState M) (ctx : Nat) (c : Fin 4) (b : Bool)
    (h : (ops.Distribution st.km ctx).1 = true) :
    (nextInterval ops st ctx c b).2 =
      { st with km :=
          if updateReference then ops.Increment st.km ctx c 1
          else st.km } := by
  unfold nextInterval
  dsimp only
  rw [if_pos h]

theorem nextInterval_unknown {M : Type} (ops : KmerModelOps M)
    (st : GlobalState M) (ctx : Nat) (c : Fin 4) (b : Bool)
    (h : (ops.Distribution st.km ctx).1 = false) :
    (nextInterval ops st ctx c b).2 =
      { km :=
          if updateReference then ops.Increment st.km ctx c 1
          else st.km,
        defaultInterval :=
          updF st.defaultInterval c (st.defaultInterval c + 1),
        defaultIntervalSum := st.defaultIntervalSum + 1 } := by
  unfold nextInterval
  dsimp only
  rw [if_neg (by simp [h])]

theorem cumW_updF_succ (d : Dist) (c : Fin 4) :
    cumW (updF d c (d c + 1)) 4 = cumW d 4 + 1 := by
  rw [cumW_four, cumW_four]
  fin_cases c <;> simp [updF] <;> omega

/-- One transformed weight is always at least 1 (pseudoCount for unseen
counts, at least observationWeight·seenThreshold = 20 otherwise). -/
theorem contextWeight_pos (i : Fin 4) (dist : Dist) :
    1 ≤ contextWeight i dist := by
  unfold contextWeight observationWeight pseudoCount seenThreshold
  split <;> omega

/-- The summed transformed weights are at least 4·pseudoCount. -/
theorem sumWeights_ge_four (dist : Dist) : 4 ≤ sumWeights dist := by
  have h0 := contextWeight_pos 0 dist
  have h1 := contextWeight_pos 1 dist
  have h2 := contextWeight_pos 2 dist
  have h3 := contextWeight_pos 3 dist
  simp [sumWeights, chanList]
  omega

/-- The invariant maintained by every reachable global state: the default
interval sum matches the sum of its four entries, each entry is at least
its initial value 2, and the sum is at least its initial value 8. -/
theorem reachable_invariant {M : Type} (ops : KmerModelOps M)
    (st : GlobalState M) (h : ReachableState ops st) :
    st.defaultIntervalSum = cumW st.defaultInterval 4 ∧
    (∀ i : Fin 4, 2 ≤ st.defaultInterval i) ∧
    8 ≤ st.defaultIntervalSum := by
  induction h with
  | init km =>
    exact ⟨rfl, fun i => le_refl 2, le_refl 8⟩
  | step st ctx c b hst ih =>
    obtain ⟨hsum, hent, hge⟩ := ih
    by_cases hd : (ops.Distribution st.km ctx).1 = true
    · rw [nextInterval_known ops st ctx c b hd]
      exact ⟨hsum, hent, hge⟩
    · rw [nextInterval_unknown ops st ctx c b
        (by simpa using hd)]
      refine ⟨?_, ?_, ?_⟩
      · show st.defaultIntervalSum + 1 =
          cumW (updF st.defaultInterval c (st.defaultInterval c + 1)) 4
        rw [cumW_updF_succ, hsum]
      · intro i
        show 2 ≤ updF st.defaultInterval c (st.defaultInterval c + 1) i
        unfold updF
        split
        · have := hent c
          omega
        · exact hent i
      · show 8 ≤ st.defaultIntervalSum + 1
        omega

/-- C7. Strictly positive totals: in every global state reachable during
encode or decode (over either backend, since the statement is generic in
the bundled model operations) and for every context, contextTotal is
strictly positive; when the context exists it equals the summed transformed
weights and is at least 4·pseudoCount, otherwise it is defaultIntervalSum,
which starts at 8 and never decreases under nextInterval steps. -/
theorem C7_strictly_positive_totals {M : Type} (ops : KmerModelOps M)
    (st : GlobalState M) (ctx : Nat) (h : ReachableState ops st) :
    0 < contextTotal ops st ctx ∧
    ((ops.Distribution st.km ctx).1 = true →
      contextTotal ops st ctx = sumWeights (ops.Distribution st.km ctx).2 ∧
      4 * pseudoCount ≤ contextTotal ops st ctx) ∧
    ((ops.Distribution st.km ctx).1 = false →
      contextTotal ops st ctx = st.defaultIntervalSum ∧
      8 ≤ st.defaultIntervalSum) ∧
    (∀ ctx2 : Nat, ∀ c : Fin 4, ∀ b : Bool,
      st.defaultIntervalSum ≤
        (nextInterval ops st ctx2 c b).2.defaultIntervalSum) := by
  obtain ⟨hsum, hent, hge⟩ := reachable_invariant ops st h
  have hct : ∀ hd : (ops.Distribution st.km ctx).1 = true,
      contextTotal ops st ctx = sumWeights (ops.Distribution st.km ctx).2 := by
    intro hd
    unfold contextTotal
    dsimp only
    rw [if_pos hd]
  have hcf : ∀ hd : (ops.Distribution st.km ctx).1 = false,
      contextTotal ops st ctx = st.defaultIntervalSum := by
    intro hd
    unfold contextTotal
    dsimp only
    rw [if_neg (by simp [hd])]
  refine ⟨?_, ?_, ?_, ?_⟩
  · by_cases hd : (ops.Distribution st.km ctx).1 = true
    · rw [hct hd]
      have := sumWeights_ge_four (ops.Distribution st.km ctx).2
      omega
    · rw [hcf (by simpa using hd)]
      omega
  · intro hd
    have h4 := sumWeights_ge_four (ops.Distribution st.km ctx).2
    refine ⟨hct hd, ?_⟩
    rw [hct hd]
    unfold pseudoCount
    omega
  · intro hd
    exact ⟨hcf hd, hge⟩
  · intro ctx2 c b
    by_cases hd : (ops.Distribution st.km ctx2).1 = true
    · rw [nextInterval_known ops st ctx2 c b hd]
    · rw [nextInterval_unknown ops st ctx2 c b (by simpa using hd)]
      show st.defaultIntervalSum ≤ st.defaultIntervalSum + 1
      omega

/-- Witness for C7 at the initial state of the sparse backend built from an
empty reference, context 7. -/
theorem C7_strictly_positive_totals_witness :
    ReachableState smallOps (initialState (NewSmallKmerModel 2)) ∧
    (0 < contextTotal smallOps (initialState (NewSmallKmerModel 2)) 7 ∧
     ((smallOps.Distribution (initialState (NewSmallKmerModel 2)).km 7).1 =
        true →
      contextTotal smallOps (initialState (NewSmallKmerModel 2)) 7 =
        sumWeights
          (smallOps.Distribution (initialState (NewSmallKmerModel 2)).km
            7).2 ∧
      4 * pseudoCount ≤
        contextTotal smallOps (initialState (NewSmallKmerModel 2)) 7) ∧
     ((smallOps.Distribution (initialState (NewSmallKmerModel 2)).km 7).1 =
        false →
      contextTotal smallOps (initialState (NewSmallKmerModel 2)) 7 =
        (initialState (NewSmallKmerModel 2)).defaultIntervalSum ∧
      8 ≤ (initialState (NewSmallKmerModel 2)).defaultIntervalSum) ∧
     (∀ ctx2 : Nat, ∀ c : Fin 4, ∀ b : Bool,
       (initialState (NewSmallKmerModel 2)).defaultIntervalSum ≤
         (nextInterval smallOps (initialState (NewSmallKmerModel 2)) ctx2 c
           b).2.defaultIntervalSum)) :=
  ⟨ReachableState.init (NewSmallKmerModel 2),
   C7_strictly_positive_totals smallOps (initialState (NewSmallKmerModel 2))
     7 (ReachableState.init (NewSmallKmerModel 2))⟩

/-- C10. Default-interval sum invariant: in every reachable global state
defaultIntervalSum equals the sum of the four defaultInterval entries; the
initial values are consistent (8 = 2+2+2+2); a nextInterval step leaves
both unchanged when the context is known and increments defaultInterval at
the coded symbol and defaultIntervalSum together when it is unknown; hence
the total contextTotal supplies through its default branch equals the sum
of the weights dartDefault linearly searches. -/
theorem C10_default_interval_sum_invariant {M : Type}
    (ops : KmerModelOps M) (st : GlobalState M) (ctx : Nat)
    (h : ReachableState ops st) :
    st.defaultIntervalSum = cumW st.defaultInterval 4 ∧
    (∀ km : M, (initialState km).defaultIntervalSum =
      cumW (initialState km).defaultInterval 4) ∧
    ((ops.Distribution st.km ctx).1 = true →
      ∀ c : Fin 4, ∀ b : Bool,
        (nextInterval ops st ctx c b).2.defaultInterval =
          st.defaultInterval ∧
        (nextInterval ops st ctx c b).2.defaultIntervalSum =
          st.defaultIntervalSum) ∧
    ((ops.Distribution st.km ctx).1 = false →
      (∀ c : Fin 4, ∀ b : Bool,
        (nextInterval ops st ctx c b).2.defaultInterval =
          updF st.defaultInterval c (st.defaultInterval c + 1) ∧
        (nextInterval ops st ctx c b).2.defaultIntervalSum =
          st.defaultIntervalSum + 1) ∧
      contextTotal ops st ctx = cumW st.defaultInterval 4) := by
  obtain ⟨hsum, hent, hge⟩ := reachable_invariant ops st h
  refine ⟨hsum, fun km => rfl, ?_, ?_⟩
  · intro hd c b
    rw [nextInterval_known ops st ctx c b hd]
    exact ⟨rfl, rfl⟩
  · intro hd
    constructor
    · intro c b
      rw [nextInterval_unknown ops st ctx c b hd]
      exact ⟨rfl, rfl⟩
    · have : contextTotal ops st ctx = st.defaultIntervalSum := by
        unfold contextTotal
        dsimp only
        rw [if_neg (by simp [hd])]
      rw [this, hsum]

/-- Witness for C10 at the initial state of the sparse backend, context 3:
the invariant instantiated and the hypothesis discharged by reachability of
the initial state. -/
theorem C10_default_interval_sum_invariant_witness :
    ReachableState smallOps (initialState (NewSmallKmerModel 2)) ∧
    ((initialState (NewSmallKmerModel 2)).defaultIntervalSum =
      cumW (initialState (NewSmallKmerModel 2)).defaultInterval 4 ∧
     (∀ km : SmallKmerModel, (initialState km).defaultIntervalSum =
       cumW (initialState km).defaultInterval 4) ∧
     ((smallOps.Distribution (initialState (NewSmallKmerModel 2)).km 3).1 =
        true →
      ∀ c : Fin 4, ∀ b : Bool,
        (nextInterval smallOps (initialState (NewSmallKmerModel 2)) 3 c
          b).2.defaultInterval =
          (initialState (NewSmallKmerModel 2)).defaultInterval ∧
        (nextInterval smallOps (initialState (NewSmallKmerModel 2)) 3 c
          b).2.defaultIntervalSum =
          (initialState (NewSmallKmerModel 2)).defaultIntervalSum) ∧
     ((smallOps.Distribution (initialState (NewSmallKmerModel 2)).km 3).1 =
        false →
      (∀ c : Fin 4, ∀ b : Bool,
        (nextInterval smallOps (initialState (NewSmallKmerModel 2)) 3 c
          b).2.defaultInterval =
          updF (initialState (NewSmallKmerModel 2)).defaultInterval c
            ((initialState (NewSmallKmerModel 2)).defaultInterval c + 1) ∧
        (nextInterval smallOps (initialState (NewSmallKmerModel 2)) 3 c
          b).2.defaultIntervalSum =
          (initialState (NewSmallKmerModel 2)).defaultIntervalSum + 1) ∧
      contextTotal smallOps (initialState (NewSmallKmerModel 2)) 3 =
        cumW (initialState (NewSmallKmerModel 2)).defaultInterval 4)) :=
  ⟨ReachableState.init (NewSmallKmerModel 2),
   C10_default_interval_sum_invariant smallOps
     (initialState (NewSmallKmerModel 2)) 3
     (ReachableState.init (NewSmallKmerModel 2))⟩

-- ==================================================================
-- BitVec (bitvec.go) and the read flipper (claims C8)
-- ==================================================================

/-- BitVec from bitvec.go: a fixed bit set packed into 64-bit words
(`data []uint64`). Word values stay below 2^64 under the operations used
(SetOn only ORs single bits in), so they are embedded as naturals. -/
structure BitVec where
  length : Nat
  data : List Nat

/-- NewBitVec() from bitvec.go. -/
def NewBitVec (length : Nat) : BitVec :=
  { length := length,
    data :=
      List.replicate (length / 64 + if length % 64 ≠ 0 then 1 else 0) 0 }

/-- BitVec.Get() from bitvec.go: `data[i/64] & (1 << (i%64)) != 0`. -/
def BitVec.Get (bv : BitVec) (i : Nat) : Bool :=
  Nat.testBit (bv.data.getD (i / 64) 0) (i % 64)

/-- BitVec.SetOn() from bitvec.go: `data[i/64] |= 1 << (i%64)`. -/
def BitVec.SetOn (bv : BitVec) (i : Nat) : BitVec :=
  { bv with data := (bv.data.set (i / 64)
      (Nat.lor (bv.data.getD (i / 64) 0) (2 ^ (i % 64)))) }

/-- The loop of countMatchingObservations() from kpath.go: starting from
the packed context, add seenThreshold whenever both the context k-mer and
the shifted next k-mer are present in the bit vector. The uint16
accumulator is embedded as Nat; claim C8 carries the read-length bound
under which a uint16 cannot wrap. -/
def countMatchingGo (k : Nat) (bv : BitVec) : Nat → Bases → Nat
  | _, [] => 0
  | contextMer, s :: rest =>
    let nextMer := shiftKmer k contextMer (acgt s)
    (if bv.Get contextMer ∧ bv.Get nextMer then (seenThreshold : Nat)
     else 0) +
      countMatchingGo k bv nextMer rest

/-- countMatchingObservations() from kpath.go. -/
def countMatchingObservations (k : Nat) (bv : BitVec) (r : Bases) : Nat :=
  countMatchingGo k bv (stringToKmer (r.take k)) (r.drop k)

/-- Modelled from the spec: the read record of fastq.go (not under src/).
`Seq` is the stored sequence with every N overwritten by A, `NLocations`
the offsets where the original base was N, `IsFlipped` the
reverse-complement mark (spec §3, read record). -/
structure FastQ where
  Seq : Bases
  NLocations : List Nat
  IsFlipped : Bool
deriving DecidableEq

/-- Modelled from the spec: N folding at ingest ("N is silently folded to
A on ingest; its original position is preserved out-of-band", spec §3). -/
def nToA : Base → Base
  | .N => .A
  | b => b

/-- The offsets of the Ns of a raw read, in increasing order. -/
def nPositions (r : Bases) : List Nat :=
  (List.range r.length).filter fun i => r.getD i .A = .N

/-- Modelled from the spec: ReadFastQ ingestion of one read (fastq.go not
under src/): fold Ns to A recording their positions; nothing flipped yet. -/
def ingestRead (r : Bases) : FastQ :=
  { Seq := r.map nToA, NLocations := nPositions r, IsFlipped := false }

/-- Modelled from the spec: FastQ.SetReverseComplement (fastq.go not under
src/): store the reverse complement and set the flipped mark. The N
positions are mirrored (i ↦ L−1−i) so that the decode driver's "reinsert
N's at recorded positions and reverse-complement if flipped" (spec §4.I)
restores the original read, as the spec's round-trip property requires. -/
def FastQ.SetReverseComplement (fq : FastQ) (rcr : Bases) : FastQ :=
  { Seq := rcr,
    NLocations := fq.NLocations.map fun i => fq.Seq.length - 1 - i,
    IsFlipped := true }

/-- The loop body of flipRange() from kpath.go: score the read and its
reverse complement against the reference bit vector; replace the read by
its reverse complement when it scores strictly higher, or when the scores
tie and the reverse complement is lexicographically smaller. -/
def flipOne (k : Nat) (bv : BitVec) (fq : FastQ) : FastQ :=
  let n1 := countMatchingObservations k bv fq.Seq
  let rcr := reverseComplement fq.Seq
  let n2 := countMatchingObservations k bv rcr
  if n1 < n2 ∨ (n2 = n1 ∧ seqLt rcr fq.Seq) then fq.SetReverseComplement rcr
  else fq

/-- flipRange() from kpath.go over one block (the workers of
readAndFlipReads partition the reads into disjoint contiguous blocks and
each maps its block independently). -/
def flipRange (k : Nat) (bv : BitVec) (block : List FastQ) : List FastQ :=
  block.map (flipOne k bv)

/-- The packed k-mer of the window r[i..i+k). -/
def windowKmer (k : Nat) (r : Bases) (i : Nat) : Nat :=
  stringToKmer ((r.drop i).take k)

/-- The score formula of the specification: Σ seenThreshold · 1[bv holds
mer_i and bv holds mer_{i+1}] over all consecutive window pairs. -/
def scoreSpec (k : Nat) (bv : BitVec) (r : Bases) : Nat :=
  ((List.range (r.length - k)).map fun i =>
    (seenThreshold : Nat) *
      (if bv.Get (windowKmer k r i) ∧ bv.Get (windowKmer k r (i + 1))
       then 1 else 0)).sum

theorem kmerVal_go (s : Bases) :
    ∀ x : Nat, s.foldl (fun a c => a * 4 + (acgt c : Nat)) x =
      x * 4 ^ s.length + kmerVal s := by
  induction s with
  | nil => intro x; simp [kmerVal]
  | cons c rest ih =>
    intro x
    show List.foldl _ (x * 4 + (acgt c : Nat)) rest = _
    rw [ih (x * 4 + (acgt c : Nat))]
    have hk : kmerVal (c :: rest) =
        (acgt c : Nat) * 4 ^ rest.length + kmerVal rest := by
      show List.foldl _ (0 * 4 + (acgt c : Nat)) rest = _
      rw [ih (0 * 4 + (acgt c : Nat))]
      ring
    rw [hk]
    simp [List.length_cons]
    ring

theorem kmerVal_cons (c : Base) (s : Bases) :
    kmerVal (c :: s) = (acgt c : Nat) * 4 ^ s.length + kmerVal s := by
  show List.foldl _ (0 * 4 + (acgt c : Nat)) s = _
  rw [kmerVal_go s]
  ring

theorem kmerVal_append_singleton (s : Bases) (c : Base) :
    kmerVal (s ++ [c]) = kmerVal s * 4 + (acgt c : Nat) := by
  unfold kmerVal
  rw [List.foldl_append]
  rfl

theorem kmerVal_lt (s : Bases) : kmerVal s < 4 ^ s.length := by
  induction s with
  | nil => simp [kmerVal]
  | cons c rest ih =>
    rw [kmerVal_cons]
    have hc : (acgt c : Nat) < 4 := (acgt c).isLt
    have : (acgt c : Nat) * 4 ^ rest.length ≤ 3 * 4 ^ rest.length := by
      apply Nat.mul_le_mul_right
      omega
    calc (acgt c : Nat) * 4 ^ rest.length + kmerVal rest
        < (acgt c : Nat) * 4 ^ rest.length + 4 ^ rest.length := by omega
      _ ≤ 3 * 4 ^ rest.length + 4 ^ rest.length := by omega
      _ = 4 ^ (rest.length + 1) := by ring
      _ = 4 ^ (c :: rest).length := by rw [List.length_cons]

/-- For strings of at most 16 bases the uint32 truncation in stringToKmer
is the identity. -/
theorem stringToKmer_eq_kmerVal (s : Bases) (h : s.length ≤ 16) :
    stringToKmer s = kmerVal s := by
  unfold stringToKmer
  apply Nat.mod_eq_of_lt
  calc kmerVal s < 4 ^ s.length := kmerVal_lt s
    _ ≤ 4 ^ 16 := Nat.pow_le_pow_right (by omega) h
    _ ≤ 2 ^ 32 := by norm_num

/-- Sliding the window: shifting the packed window at offset i by the base
at offset i+k yields the packed window at offset i+1. -/
theorem windowKmer_shift (k : Nat) (r : Bases) (i : Nat) (hk1 : 1 ≤ k)
    (hk16 : k ≤ 16) (hik : i + k < r.length) :
    shiftKmer k (windowKmer k r i) (acgt (r.getD (i + k) .A)) =
      windowKmer k r (i + 1) := by
  have hi : i < r.length := by omega
  have hi1 : k - 1 ≤ (r.drop (i + 1)).length := by
    rw [List.length_drop]
    omega
  have hwl : ((r.drop i).take k).length = k := by
    rw [List.length_take, List.length_drop]
    omega
  have hwl1 : ((r.drop (i + 1)).take k).length = k := by
    rw [List.length_take, List.length_drop]
    omega
  have htl : ((r.drop (i + 1)).take (k - 1)).length = k - 1 := by
    rw [List.length_take, List.length_drop]
    omega
  -- w_i = r[i] :: t with t the (k-1)-window at offset i+1
  have hsplit : (r.drop i).take k =
      r[i] :: (r.drop (i + 1)).take (k - 1) := by
    rw [List.drop_eq_getElem_cons hi]
    conv_lhs => rw [show k = (k - 1) + 1 by omega]
    rw [List.take_succ_cons]
  -- w_{i+1} = t ++ [r[i+k]]
  have hk1' : k - 1 < (r.drop (i + 1)).length := by
    rw [List.length_drop]
    omega
  have hsplit1 : (r.drop (i + 1)).take k =
      (r.drop (i + 1)).take (k - 1) ++ [r[i + k]] := by
    have hsome : (r.drop (i + 1))[k - 1]? = some r[i + k] := by
      rw [List.getElem?_drop, show i + 1 + (k - 1) = i + k by omega,
        List.getElem?_eq_getElem hik]
    conv_lhs => rw [show k = (k - 1) + 1 by omega]
    rw [List.take_succ, hsome]
    rfl
  have hgd : r.getD (i + k) .A = r[i + k] := List.getD_eq_getElem r .A hik
  set t := (r.drop (i + 1)).take (k - 1) with ht
  have hvt : kmerVal t < 4 ^ (k - 1) := by
    have := kmerVal_lt t
    rwa [htl] at this
  have hw : windowKmer k r i =
      (acgt r[i] : Nat) * 4 ^ (k - 1) + kmerVal t := by
    unfold windowKmer
    rw [stringToKmer_eq_kmerVal _ (by rw [hwl]; omega), hsplit,
      kmerVal_cons, htl]
  have hw1 : windowKmer k r (i + 1) =
      kmerVal t * 4 + (acgt r[i + k] : Nat) := by
    unfold windowKmer
    rw [stringToKmer_eq_kmerVal _ (by rw [hwl1]; omega), hsplit1,
      kmerVal_append_singleton]
  have hlt : kmerVal t * 4 + (acgt r[i + k] : Nat) < 4 ^ k := by
    have hc : (acgt r[i + k] : Nat) < 4 := (acgt r[i + k]).isLt
    have : (kmerVal t + 1) * 4 ≤ 4 ^ (k - 1) * 4 := by
      apply Nat.mul_le_mul_right
      omega
    have hpow : 4 ^ (k - 1) * 4 = 4 ^ k := by
      conv_rhs => rw [show k = (k - 1) + 1 by omega]
      rw [Nat.pow_succ]
    omega
  unfold shiftKmer
  rw [hw, hgd, hw1]
  have hassoc : ((acgt r[i] : Nat) * 4 ^ (k - 1) + kmerVal t) * 4 +
      (acgt r[i + k] : Nat) =
      4 ^ k * (acgt r[i] : Nat) +
        (kmerVal t * 4 + (acgt r[i + k] : Nat)) := by
    have hpow : 4 ^ (k - 1) * 4 = 4 ^ k := by
      conv_rhs => rw [show k = (k - 1) + 1 by omega]
      rw [Nat.pow_succ]
    calc ((acgt r[i] : Nat) * 4 ^ (k - 1) + kmerVal t) * 4 +
          (acgt r[i + k] : Nat)
        = (acgt r[i] : Nat) * (4 ^ (k - 1) * 4) +
            (kmerVal t * 4 + (acgt r[i + k] : Nat)) := by ring
      _ = 4 ^ k * (acgt r[i] : Nat) +
            (kmerVal t * 4 + (acgt r[i + k] : Nat)) := by
          rw [hpow]
          ring
  rw [hassoc, Nat.mul_add_mod, Nat.mod_eq_of_lt hlt]

/-- The countMatchingObservations loop computes the specification's score
sum, window pair by window pair. -/
theorem countMatchingGo_spec (k : Nat) (bv : BitVec) (r : Bases)
    (hk1 : 1 ≤ k) (hk16 : k ≤ 16) :
    ∀ n i, i + k + n = r.length →
      countMatchingGo k bv (windowKmer k r i) (r.drop (i + k)) =
        ((List.range n).map fun j =>
          (seenThreshold : Nat) *
            (if bv.Get (windowKmer k r (i + j)) ∧
                bv.Get (windowKmer k r (i + j + 1)) then 1 else 0)).sum := by
  intro n
  induction n with
  | zero =>
    intro i hlen
    rw [List.drop_eq_nil_of_le (by omega)]
    rfl
  | succ n ih =>
    intro i hlen
    have hik : i + k < r.length := by omega
    rw [List.drop_eq_getElem_cons hik]
    show (if bv.Get (windowKmer k r i) ∧
        bv.Get (shiftKmer k (windowKmer k r i) (acgt r[i + k])) then
        (seenThreshold : Nat) else 0) +
      countMatchingGo k bv
        (shiftKmer k (windowKmer k r i) (acgt r[i + k]))
        (r.drop (i + k + 1)) = _
    have hgd : acgt r[i + k] = acgt (r.getD (i + k) .A) := by
      rw [List.getD_eq_getElem r .A hik]
    rw [hgd, windowKmer_shift k r i hk1 hk16 hik]
    have hdrop : r.drop (i + k + 1) = r.drop ((i + 1) + k) := by
      congr 1
      omega
    rw [hdrop, ih (i + 1) (by omega)]
    rw [List.range_succ_eq_map, List.map_cons, List.sum_cons, List.map_map]
    have hidx : ∀ j : Nat, i + 1 + j = i + (j + 1) := by omega
    have hfun :
        ((fun j =>
          (seenThreshold : Nat) *
            (if bv.Get (windowKmer k r (i + j)) ∧
                bv.Get (windowKmer k r (i + j + 1)) then 1 else 0)) ∘
          Nat.succ) =
        fun j =>
          (seenThreshold : Nat) *
            (if bv.Get (windowKmer k r (i + 1 + j)) ∧
                bv.Get (windowKmer k r (i + 1 + j + 1)) then 1 else 0) := by
      funext j
      show (seenThreshold : Nat) *
          (if bv.Get (windowKmer k r (i + (j + 1))) ∧
              bv.Get (windowKmer k r (i + (j + 1) + 1)) then 1 else 0) = _
      rw [show i + (j + 1) = i + 1 + j by omega,
        show i + 1 + j + 1 = i + 1 + j + 1 from rfl]
    rw [hfun]
    have hterm : (if bv.Get (windowKmer k r i) ∧
        bv.Get (windowKmer k r (i + 1)) then (seenThreshold : Nat) else 0) =
        (seenThreshold : Nat) *
          (if bv.Get (windowKmer k r (i + 0)) ∧
              bv.Get (windowKmer k r (i + 0 + 1)) then 1 else 0) := by
      rw [show i + 0 = i from rfl]
      split <;> simp
    rw [hterm]

/-- The flipper's score loop equals the score formula of the spec. -/
theorem countMatchingObservations_spec (k : Nat) (bv : BitVec) (r : Bases)
    (hk1 : 1 ≤ k) (hk16 : k ≤ 16) (hkr : k ≤ r.length) :
    countMatchingObservations k bv r = scoreSpec k bv r := by
  unfold countMatchingObservations scoreSpec
  have h0 : stringToKmer (r.take k) = windowKmer k r 0 := by
    unfold windowKmer
    rw [List.drop_zero]
  rw [h0]
  have := countMatchingGo_spec k bv r hk1 hk16 (r.length - k) 0 (by omega)
  simpa using this

/-- C8. Read flipping rule: the flipper replaces a read by its reverse
complement and marks it flipped exactly when the reverse complement scores
strictly higher, or the scores tie and the reverse complement is
lexicographically smaller — where the loop-computed score equals the
spec's formula Σ seenThreshold·1[bv holds mer_i and bv holds mer_{i+1}]
over consecutive window pairs; consequently on a tie the
lexicographically smaller orientation is stored. The bound
`length ≤ k + 32767` keeps the Go uint16 score accumulator exact. -/
theorem C8_read_flipping_rule (k : Nat) (bv : BitVec) (fq : FastQ)
    (hk1 : 1 ≤ k) (hk16 : k ≤ 16) (hkL : k ≤ fq.Seq.length)
    (hL : fq.Seq.length ≤ k + 32767) :
    countMatchingObservations k bv fq.Seq = scoreSpec k bv fq.Seq ∧
    countMatchingObservations k bv (reverseComplement fq.Seq) =
      scoreSpec k bv (reverseComplement fq.Seq) ∧
    flipOne k bv fq =
      (if scoreSpec k bv fq.Seq < scoreSpec k bv (reverseComplement fq.Seq) ∨
          (scoreSpec k bv (reverseComplement fq.Seq) =
            scoreSpec k bv fq.Seq ∧
           seqLt (reverseComplement fq.Seq) fq.Seq) then
        fq.SetReverseComplement (reverseComplement fq.Seq)
      else fq) ∧
    (scoreSpec k bv (reverseComplement fq.Seq) = scoreSpec k bv fq.Seq →
      (seqLt (reverseComplement fq.Seq) fq.Seq = true →
        (flipOne k bv fq).Seq = reverseComplement fq.Seq ∧
        (flipOne k bv fq).IsFlipped = true) ∧
      (seqLt (reverseComplement fq.Seq) fq.Seq = false →
        flipOne k bv fq = fq)) := by
  have hrclen : (reverseComplement fq.Seq).length = fq.Seq.length := by
    simp [reverseComplement]
  have h1 := countMatchingObservations_spec k bv fq.Seq hk1 hk16 hkL
  have h2 := countMatchingObservations_spec k bv (reverseComplement fq.Seq)
    hk1 hk16 (by rw [hrclen]; exact hkL)
  have hflip : flipOne k bv fq =
      (if scoreSpec k bv fq.Seq <
            scoreSpec k bv (reverseComplement fq.Seq) ∨
          (scoreSpec k bv (reverseComplement fq.Seq) =
            scoreSpec k bv fq.Seq ∧
           seqLt (reverseComplement fq.Seq) fq.Seq) then
        fq.SetReverseComplement (reverseComplement fq.Seq)
      else fq) := by
    unfold flipOne
    dsimp only
    rw [h1, h2]
  refine ⟨h1, h2, hflip, ?_⟩
  intro heq
  constructor
  · intro hlt
    rw [hflip, if_pos (Or.inr ⟨heq, hlt⟩)]
    exact ⟨rfl, rfl⟩
  · intro hfalse
    rw [hflip, if_neg ?_]
    rintro (h | ⟨_, h⟩)
    · omega
    · rw [hfalse] at h
      exact absurd h (by decide)

/-- Witness for C8: the all-T read of length 3 against an empty bit vector
with k = 2. Both scores are 0 and the reverse complement AAA is smaller,
so the read is flipped. -/
theorem C8_read_flipping_rule_witness :
    (1 ≤ 2 ∧ 2 ≤ 16 ∧
      2 ≤ (FastQ.mk [Base.T, Base.T, Base.T] [] false).Seq.length ∧
      (FastQ.mk [Base.T, Base.T, Base.T] [] false).Seq.length ≤
        2 + 32767) ∧
    (countMatchingObservations 2 (NewBitVec 16)
        (FastQ.mk [Base.T, Base.T, Base.T] [] false).Seq =
      scoreSpec 2 (NewBitVec 16)
        (FastQ.mk [Base.T, Base.T, Base.T] [] false).Seq ∧
     countMatchingObservations 2 (NewBitVec 16)
        (reverseComplement (FastQ.mk [Base.T, Base.T, Base.T] [] false).Seq) =
      scoreSpec 2 (NewBitVec 16)
        (reverseComplement
          (FastQ.mk [Base.T, Base.T, Base.T] [] false).Seq) ∧
     flipOne 2 (NewBitVec 16) (FastQ.mk [Base.T, Base.T, Base.T] [] false) =
      (if scoreSpec 2 (NewBitVec 16)
            (FastQ.mk [Base.T, Base.T, Base.T] [] false).Seq <
          scoreSpec 2 (NewBitVec 16)
            (reverseComplement
              (FastQ.mk [Base.T, Base.T, Base.T] [] false).Seq) ∨
          (scoreSpec 2 (NewBitVec 16)
            (reverseComplement
              (FastQ.mk [Base.T, Base.T, Base.T] [] false).Seq) =
           scoreSpec 2 (NewBitVec 16)
            (FastQ.mk [Base.T, Base.T, Base.T] [] false).Seq ∧
           seqLt
            (reverseComplement
              (FastQ.mk [Base.T, Base.T, Base.T] [] false).Seq)
            (FastQ.mk [Base.T, Base.T, Base.T] [] false).Seq) then
        (FastQ.mk [Base.T, Base.T, Base.T] [] false).SetReverseComplement
          (reverseComplement
            (FastQ.mk [Base.T, Base.T, Base.T] [] false).Seq)
      else FastQ.mk [Base.T, Base.T, Base.T] [] false) ∧
     (scoreSpec 2 (NewBitVec 16)
        (reverseComplement
          (FastQ.mk [Base.T, Base.T, Base.T] [] false).Seq) =
      scoreSpec 2 (NewBitVec 16)
        (FastQ.mk [Base.T, Base.T, Base.T] [] false).Seq →
      (seqLt
          (reverseComplement
            (FastQ.mk [Base.T, Base.T, Base.T] [] false).Seq)
          (FastQ.mk [Base.T, Base.T, Base.T] [] false).Seq = true →
        (flipOne 2 (NewBitVec 16)
          (FastQ.mk [Base.T, Base.T, Base.T] [] false)).Seq =
          reverseComplement
            (FastQ.mk [Base.T, Base.T, Base.T] [] false).Seq ∧
        (flipOne 2 (NewBitVec 16)
          (FastQ.mk [Base.T, Base.T, Base.T] [] false)).IsFlipped = true) ∧
      (seqLt
          (reverseComplement
            (FastQ.mk [Base.T, Base.T, Base.T] [] false).Seq)
          (FastQ.mk [Base.T, Base.T, Base.T] [] false).Seq = false →
        flipOne 2 (NewBitVec 16)
          (FastQ.mk [Base.T, Base.T, Base.T] [] false) =
          FastQ.mk [Base.T, Base.T, Base.T] [] false))) :=
  ⟨⟨by decide, by decide, by decide, by decide⟩,
   C8_read_flipping_rule 2 (NewBitVec 16)
     (FastQ.mk [Base.T, Base.T, Base.T] [] false) (by decide) (by decide)
     (by decide) (by decide)⟩

-- ==================================================================
-- The bucketizer listBuckets() (claim C9)
-- ==================================================================

/-- `counts[len(counts)-1]` with the Go-unreachable empty case mapped to
the junk value 0 (the program reads it only after a bucket was opened). -/
def lastCount (counts : List Int) : Int := counts.getLastD 0

/-- `counts[len(counts)-1] = -counts[len(counts)-1]`. -/
def negLast (counts : List Int) : List Int :=
  counts.modifyLast fun c => -c

/-- `counts[len(counts)-1]++`. -/
def incLast (counts : List Int) : List Int :=
  counts.modifyLast fun c => c + 1

/-- The loop of listBuckets() from kpath.go, threading the loop variables
(curBucket, prevRead, allSame) and the accumulated buckets and counts.
On closing a bucket (prefix change, and once more after the loop) the last
count is negated when dupsOption is set, the bucket was uniform, and it
held more than one read. -/
def listBucketsGo (k : Nat) (dups : Bool) :
    List FastQ → Bases → Bases → Bool → List Bases → List Int →
      List Bases × List Int
  | [], _, _, allSame, buckets, counts =>
    if dups ∧ allSame ∧ 1 < lastCount counts then (buckets, negLast counts)
    else (buckets, counts)
  | rec :: rest, curBucket, prevRead, allSame, buckets, counts =>
    let r := rec.Seq
    if r.take k ≠ curBucket then
      let counts1 :=
        if dups ∧ allSame ∧ 1 < lastCount counts then negLast counts
        else counts
      listBucketsGo k dups rest (r.take k) r true
        (buckets ++ [r.take k]) (counts1 ++ [1])
    else
      listBucketsGo k dups rest curBucket r
        (allSame && decide (r = prevRead)) buckets (incLast counts)

/-- listBuckets() from kpath.go. -/
def listBuckets (k : Nat) (dups : Bool) (reads : List FastQ) :
    List Bases × List Int :=
  listBucketsGo k dups reads [] [] false [] []

theorem dropWhile_length_le {α : Type} (p : α → Bool) (l : List α) :
    (l.dropWhile p).length ≤ l.length := by
  induction l with
  | nil => simp
  | cons x xs ih =>
    rw [List.dropWhile_cons]
    split
    · exact le_trans ih (by simp)
    · simp

/-- The bucket structure of a read list: one (prefix, signed count) pair
per maximal run of a common k-prefix, the count negated for a uniform run
of length at least 2 (when dups is set). -/
def bucketSpec (k : Nat) (dups : Bool) : List FastQ → List (Bases × Int)
  | [] => []
  | r :: rest =>
    let p := fun x : FastQ => decide (x.Seq.take k = r.Seq.take k)
    let grp := r :: rest.takeWhile p
    (r.Seq.take k,
      if dups ∧ (1 : Int) < (grp.length : Int) ∧
          grp.all (fun x => decide (x.Seq = r.Seq)) then
        -(grp.length : Int)
      else (grp.length : Int)) ::
      bucketSpec k dups (rest.dropWhile p)
termination_by l => l.length
decreasing_by
  simp only [List.length_cons]
  have := dropWhile_length_le
    (fun x : FastQ => decide (x.Seq.take k = r.Seq.take k)) rest
  omega

theorem lastCount_append (counts : List Int) (c : Int) :
    lastCount (counts ++ [c]) = c := by
  simp [lastCount]

theorem negLast_append (counts : List Int) (c : Int) :
    negLast (counts ++ [c]) = counts ++ [-c] :=
  List.modifyLast_append_one _ c counts

theorem incLast_append (counts : List Int) (c : Int) :
    incLast (counts ++ [c]) = counts ++ [c + 1] :=
  List.modifyLast_append_one _ c counts

theorem bucketSpec_nil (k : Nat) (dups : Bool) :
    bucketSpec k dups [] = [] := by
  rw [bucketSpec]

theorem bucketSpec_cons (k : Nat) (dups : Bool) (r : FastQ)
    (rest : List FastQ) :
    bucketSpec k dups (r :: rest) =
      (r.Seq.take k,
        if dups ∧ (1 : Int) <
            ((r :: rest.takeWhile fun x : FastQ =>
              decide (x.Seq.take k = r.Seq.take k)).length : Int) ∧
            (r :: rest.takeWhile fun x : FastQ =>
              decide (x.Seq.take k = r.Seq.take k)).all
              (fun x => decide (x.Seq = r.Seq)) then
          -((r :: rest.takeWhile fun x : FastQ =>
            decide (x.Seq.take k = r.Seq.take k)).length : Int)
        else ((r :: rest.takeWhile fun x : FastQ =>
          decide (x.Seq.take k = r.Seq.take k)).length : Int)) ::
      bucketSpec k dups (rest.dropWhile fun x : FastQ =>
        decide (x.Seq.take k = r.Seq.take k)) := by
  rw [bucketSpec]

/-- The close-of-bucket count adjustment: negate when dups is set, the
bucket was uniform, and it held more than one read. -/
def closeCount (dups : Bool) (allSame : Bool) (c : Int) : Int :=
  if dups ∧ allSame ∧ 1 < c then -c else c

theorem counts1_eq_closeCount (dups allSame : Bool) (counts0 : List Int)
    (c : Int) :
    (if dups ∧ allSame ∧ 1 < lastCount (counts0 ++ [c]) then
      negLast (counts0 ++ [c]) else counts0 ++ [c]) =
      counts0 ++ [closeCount dups allSame c] := by
  rw [lastCount_append]
  unfold closeCount
  split_ifs with h
  · exact negLast_append counts0 c
  · rfl

/-- The count a bucket opened at read r closes with, written as the
signed count of its full run. -/
theorem closeCount_signed (k : Nat) (dups : Bool) (r : FastQ)
    (rest : List FastQ) :
    closeCount dups
        (true && (rest.takeWhile fun x =>
          decide (x.Seq.take k = r.Seq.take k)).all
          (fun x => decide (x.Seq = r.Seq)))
        (1 + ((rest.takeWhile fun x =>
          decide (x.Seq.take k = r.Seq.take k)).length : Int)) =
      (if dups ∧ (1 : Int) <
          ((r :: rest.takeWhile fun x : FastQ =>
            decide (x.Seq.take k = r.Seq.take k)).length : Int) ∧
          (r :: rest.takeWhile fun x : FastQ =>
            decide (x.Seq.take k = r.Seq.take k)).all
            (fun x => decide (x.Seq = r.Seq)) then
        -((r :: rest.takeWhile fun x : FastQ =>
          decide (x.Seq.take k = r.Seq.take k)).length : Int)
      else ((r :: rest.takeWhile fun x : FastQ =>
        decide (x.Seq.take k = r.Seq.take k)).length : Int)) := by
  unfold closeCount
  rw [List.length_cons, List.all_cons]
  have hlen : (1 + ((rest.takeWhile fun x =>
      decide (x.Seq.take k = r.Seq.take k)).length : Int)) =
      ((((rest.takeWhile fun x =>
        decide (x.Seq.take k = r.Seq.take k)).length + 1 : Nat)) : Int) := by
    push_cast
    ring
  rw [hlen]
  refine if_congr ?_ rfl rfl
  constructor
  · rintro ⟨hd, hs, hc⟩
    exact ⟨hd, hc, by simp [hs]⟩
  · rintro ⟨hd, hc, hs⟩
    simp only [Bool.and_eq_true, decide_eq_true_eq] at hs
    refine ⟨hd, by simp [hs.2], hc⟩

/-- What one open bucket (current count c, flags allSame/prev) and the
remaining reads contribute: the loop closes the current bucket after its
remaining run and then produces exactly the bucket structure of the rest. -/
theorem listBucketsGo_spec (k : Nat) (dups : Bool) :
    ∀ (reads : List FastQ) (curB prev : Bases) (allSame : Bool)
      (buckets : List Bases) (counts0 : List Int) (c : Int),
      listBucketsGo k dups reads curB prev allSame buckets
          (counts0 ++ [c]) =
        (buckets ++
          (bucketSpec k dups
            (reads.dropWhile fun x => decide (x.Seq.take k = curB))).map
              Prod.fst,
         counts0 ++
          closeCount dups
            (allSame &&
              (reads.takeWhile fun x => decide (x.Seq.take k = curB)).all
                fun x => decide (x.Seq = prev))
            (c + ((reads.takeWhile fun x =>
                decide (x.Seq.take k = curB)).length : Int)) ::
          (bucketSpec k dups
            (reads.dropWhile fun x => decide (x.Seq.take k = curB))).map
              Prod.snd) := by
  intro reads
  induction reads with
  | nil =>
    intro curB prev allSame buckets counts0 c
    show (if dups ∧ allSame ∧ 1 < lastCount (counts0 ++ [c]) then
        (buckets, negLast (counts0 ++ [c]))
      else (buckets, counts0 ++ [c])) = _
    simp only [List.takeWhile_nil, List.dropWhile_nil, List.all_nil,
      Bool.and_true, List.length_nil, Nat.cast_zero, add_zero,
      bucketSpec_nil, List.map_nil, List.append_nil]
    rw [lastCount_append]
    unfold closeCount
    split_ifs with h
    · rw [negLast_append]
    · rfl
  | cons r rest ih =>
    intro curB prev allSame buckets counts0 c
    by_cases hpre : r.Seq.take k = curB
    · show (if r.Seq.take k ≠ curB then _ else _) = _
      rw [if_neg (by simp [hpre])]
      show listBucketsGo k dups rest curB r.Seq
          (allSame && decide (r.Seq = prev)) buckets
          (incLast (counts0 ++ [c])) = _
      rw [incLast_append, ih curB r.Seq (allSame && decide (r.Seq = prev))
        buckets counts0 (c + 1)]
      rw [List.takeWhile_cons_of_pos (by simpa using hpre),
        List.dropWhile_cons_of_pos (by simpa using hpre)]
      have hb : ((allSame && decide (r.Seq = prev)) &&
          (rest.takeWhile fun x => decide (x.Seq.take k = curB)).all
            (fun x => decide (x.Seq = r.Seq))) =
          (allSame &&
            ((r :: rest.takeWhile fun x => decide (x.Seq.take k = curB)).all
              fun x => decide (x.Seq = prev))) := by
        rw [List.all_cons]
        by_cases hr : r.Seq = prev
        · rw [← hr]
          simp
        · simp [hr, decide_eq_false hr]
      have hv : (c + 1 +
          ((rest.takeWhile fun x => decide (x.Seq.take k = curB)).length :
            Int)) =
          (c + (((r :: rest.takeWhile fun x =>
            decide (x.Seq.take k = curB)).length : Nat) : Int)) := by
        rw [List.length_cons]
        push_cast
        ring
      rw [hb, hv]
    · show (if r.Seq.take k ≠ curB then _ else _) = _
      rw [if_pos (by simpa using hpre)]
      show listBucketsGo k dups rest (r.Seq.take k) r.Seq true
          (buckets ++ [r.Seq.take k])
          ((if dups ∧ allSame ∧ 1 < lastCount (counts0 ++ [c]) then
              negLast (counts0 ++ [c]) else counts0 ++ [c]) ++ [1]) = _
      rw [counts1_eq_closeCount]
      rw [ih (r.Seq.take k) r.Seq true (buckets ++ [r.Seq.take k])
        (counts0 ++ [closeCount dups allSame c]) 1]
      rw [List.takeWhile_cons_of_neg (by simpa using hpre),
        List.dropWhile_cons_of_neg (by simpa using hpre)]
      rw [bucketSpec_cons, List.map_cons, List.map_cons]
      rw [closeCount_signed k dups r rest]
      refine Prod.ext ?_ ?_
      · simp
      · simp
    
/-- listBuckets over any read list whose k-prefixes are nonempty (as the
program guarantees: 1 ≤ k ≤ length of every read) produces exactly the
bucket structure: one (prefix, signed count) pair per maximal run. -/
theorem listBuckets_spec (k : Nat) (dups : Bool) (reads : List FastQ)
    (h0 : ∀ r ∈ reads, r.Seq.take k ≠ ([] : Bases)) :
    listBuckets k dups reads =
      ((bucketSpec k dups reads).map Prod.fst,
       (bucketSpec k dups reads).map Prod.snd) := by
  cases reads with
  | nil =>
    show (if dups ∧ (false : Bool) ∧ 1 < lastCount [] then
        (([] : List Bases), negLast [])
      else (([] : List Bases), ([] : List Int))) = _
    rw [if_neg (by simp), bucketSpec_nil]
    rfl
  | cons r rest =>
    show (if r.Seq.take k ≠ ([] : Bases) then _ else _) = _
    rw [if_pos (h0 r (by simp))]
    show listBucketsGo k dups rest (r.Seq.take k) r.Seq true
        ([] ++ [r.Seq.take k])
        ((if dups ∧ (false : Bool) ∧ 1 < lastCount ([] : List Int) then
            negLast [] else ([] : List Int)) ++ [1]) = _
    rw [show (if dups ∧ (false : Bool) ∧ 1 < lastCount ([] : List Int) then
        negLast [] else ([] : List Int)) = ([] : List Int) from
      if_neg (by simp)]
    rw [show (([] : List Int) ++ [(1 : Int)]) = ([] : List Int) ++ [(1 : Int)]
      from rfl]
    rw [listBucketsGo_spec k dups rest (r.Seq.take k) r.Seq true
      ([] ++ [r.Seq.take k]) [] 1]
    rw [closeCount_signed k dups r rest]
    rw [bucketSpec_cons, List.map_cons, List.map_cons]
    refine Prod.ext ?_ ?_
    · simp
    · simp

theorem bytesLt_trichotomy :
    ∀ a b : List Nat, bytesLt a b = true ∨ a = b ∨ bytesLt b a = true := by
  intro a
  induction a with
  | nil =>
    intro b
    cases b with
    | nil => exact Or.inr (Or.inl rfl)
    | cons y ys => exact Or.inl rfl
  | cons x xs ih =>
    intro b
    cases b with
    | nil => exact Or.inr (Or.inr rfl)
    | cons y ys =>
      rcases Nat.lt_trichotomy x y with h | h | h
      · left
        show (if x < y then true else if y < x then false else bytesLt xs ys)
          = true
        rw [if_pos h]
      · subst h
        rcases ih ys with h2 | h2 | h2
        · left
          show (if x < x then true else if x < x then false else
            bytesLt xs ys) = true
          rw [if_neg (by omega), if_neg (by omega)]
          exact h2
        · exact Or.inr (Or.inl (by rw [h2]))
        · right
          right
          show (if x < x then true else if x < x then false else
            bytesLt ys xs) = true
          rw [if_neg (by omega), if_neg (by omega)]
          exact h2
      · right
        right
        show (if y < x then true else if x < y then false else
          bytesLt ys xs) = true
        rw [if_pos h]

theorem byteVal_injective :
    ∀ a b : Base, byteVal a = byteVal b → a = b := by
  intro a b
  cases a <;> cases b <;> simp [byteVal] <;> omega

/-- The prefix key Go's sort and string comparisons use: the raw bytes of
the first k bases. -/
def prefKey (k : Nat) (fq : FastQ) : List Nat :=
  (fq.Seq.take k).map byteVal

/-- The non-strict prefix order sort.Sort establishes: not (b before a). -/
def prefLe (k : Nat) (a b : FastQ) : Prop :=
  bytesLt (prefKey k b) (prefKey k a) = false

theorem prefKey_eq_iff (k : Nat) (x y : FastQ) :
    prefKey k x = prefKey k y ↔ x.Seq.take k = y.Seq.take k := by
  unfold prefKey
  constructor
  · intro h
    exact List.map_injective_iff.mpr byteVal_injective h
  · intro h
    rw [h]

theorem prefLe_antisymm {k : Nat} {x y : FastQ} (h1 : prefLe k x y)
    (h2 : prefLe k y x) : x.Seq.take k = y.Seq.take k := by
  unfold prefLe at h1 h2
  rcases bytesLt_trichotomy (prefKey k x) (prefKey k y) with h | h | h
  · rw [h] at h2
    cases h2
  · exact (prefKey_eq_iff k x y).mp h
  · rw [h] at h1
    cases h1

/-- The bucket structure of a prefix-sorted read list: distinct bucket
prefixes, every read covered, and per bucket a signed count whose
magnitude is the number of reads sharing the prefix, negated exactly for
a uniform bucket of at least two reads. -/
theorem bucketSpec_props (k : Nat) :
    ∀ n (reads : List FastQ), reads.length ≤ n →
      List.Pairwise (prefLe k) reads →
      ((bucketSpec k true reads).map Prod.fst).Nodup ∧
      (∀ r ∈ reads, r.Seq.take k ∈ (bucketSpec k true reads).map Prod.fst) ∧
      (∀ b ∈ (bucketSpec k true reads).map Prod.fst,
        ∃ r ∈ reads, r.Seq.take k = b) ∧
      (∀ pc ∈ bucketSpec k true reads,
        pc.2.natAbs =
          (reads.filter fun x => decide (x.Seq.take k = pc.1)).length ∧
        (pc.2 < 0 ↔
          2 ≤ (reads.filter fun x => decide (x.Seq.take k = pc.1)).length ∧
          ∀ f, (reads.filter fun x =>
              decide (x.Seq.take k = pc.1)).head? = some f →
            ∀ x ∈ reads.filter fun x => decide (x.Seq.take k = pc.1),
              x.Seq = f.Seq)) := by
  intro n
  induction n with
  | zero =>
    intro reads hlen hs
    have hnil : reads = [] := List.length_eq_zero.mp (by omega)
    subst hnil
    rw [bucketSpec_nil]
    exact ⟨List.nodup_nil, by simp, by simp, by simp⟩
  | succ n ih =>
    intro reads hlen hs
    cases reads with
    | nil =>
      rw [bucketSpec_nil]
      exact ⟨List.nodup_nil, by simp, by simp, by simp⟩
    | cons r rest =>
      have hsplit : rest.takeWhile (fun x : FastQ =>
          decide (x.Seq.take k = r.Seq.take k)) ++
          rest.dropWhile (fun x : FastQ =>
            decide (x.Seq.take k = r.Seq.take k)) = rest :=
        List.takeWhile_append_dropWhile _ _
      have hrle : ∀ y ∈ rest, prefLe k r y :=
        fun y hy => (List.pairwise_cons.mp hs).1 y hy
      have hprest : List.Pairwise (prefLe k) rest :=
        (List.pairwise_cons.mp hs).2
      have hprest2 : List.Pairwise (prefLe k)
          (rest.dropWhile fun x : FastQ =>
            decide (x.Seq.take k = r.Seq.take k)) :=
        List.Pairwise.sublist (List.dropWhile_sublist _) hprest
      -- every element of the run shares the prefix of r
      have hmemgrp : ∀ x ∈ r :: rest.takeWhile (fun x : FastQ =>
          decide (x.Seq.take k = r.Seq.take k)),
          x.Seq.take k = r.Seq.take k := by
        intro x hx
        rcases List.mem_cons.mp hx with hx | hx
        · rw [hx]
        · simpa using List.mem_takeWhile_imp hx
      -- no element after the run shares the prefix of r
      have hne : ∀ y ∈ rest.dropWhile (fun x : FastQ =>
          decide (x.Seq.take k = r.Seq.take k)),
          y.Seq.take k ≠ r.Seq.take k := by
        cases hdw : rest.dropWhile (fun x : FastQ =>
            decide (x.Seq.take k = r.Seq.take k)) with
        | nil => simp
        | cons y0 tail =>
          have hy0 : decide (y0.Seq.take k = r.Seq.take k) = false := by
            have := List.head?_dropWhile_not
              (fun x : FastQ => decide (x.Seq.take k = r.Seq.take k)) rest
            rw [hdw] at this
            exact this
          have hy0ne : y0.Seq.take k ≠ r.Seq.take k := by
            simpa using hy0
          intro y hy hceq
          have hy2 : y ∈ rest.dropWhile (fun x : FastQ =>
              decide (x.Seq.take k = r.Seq.take k)) := by
            rw [hdw]
            exact hy
          have hy02 : y0 ∈ rest.dropWhile (fun x : FastQ =>
              decide (x.Seq.take k = r.Seq.take k)) := by
            rw [hdw]
            exact List.mem_cons_self _ _
          have hymem : y ∈ rest :=
            List.Sublist.mem hy2 (List.dropWhile_sublist _)
          have hy0mem : y0 ∈ rest :=
            List.Sublist.mem hy02 (List.dropWhile_sublist _)
          rcases List.mem_cons.mp hy with hyy | hyy
          · exact hy0ne (by rw [← hyy]; exact hceq)
          · -- y comes after y0; keys: r ≤ y0 ≤ y = r forces y0 = r
            have hpyt : List.Pairwise (prefLe k) (y0 :: tail) := by
              rw [← hdw]
              exact hprest2
            have h1 : prefLe k y0 y := (List.pairwise_cons.mp hpyt).1 y hyy
            have h2 : prefLe k r y0 := hrle y0 hy0mem
            -- keys of y and r are equal
            have hkey : prefKey k y = prefKey k r := by
              unfold prefKey
              rw [hceq]
            have h1' : prefLe k r y0 := h2
            have h3 : prefLe k y0 r := by
              unfold prefLe at h1 ⊢
              rw [← hkey]
              exact h1
            exact hy0ne (prefLe_antisymm h3 h1')
      -- the filter for the head prefix is exactly the run
      have hfiltergrp : (r :: rest).filter (fun x : FastQ =>
          decide (x.Seq.take k = r.Seq.take k)) =
          r :: rest.takeWhile (fun x : FastQ =>
            decide (x.Seq.take k = r.Seq.take k)) := by
        conv_lhs => rw [show r :: rest =
          (r :: rest.takeWhile (fun x : FastQ =>
            decide (x.Seq.take k = r.Seq.take k))) ++
            rest.dropWhile (fun x : FastQ =>
              decide (x.Seq.take k = r.Seq.take k)) from by
          rw [List.cons_append, hsplit]]
        rw [List.filter_append,
          List.filter_eq_self.mpr (by
            intro a ha
            simpa using hmemgrp a ha),
          List.filter_eq_nil_iff.mpr (by
            intro a ha
            simpa using hne a ha),
          List.append_nil]
      have hlen2 : (rest.dropWhile fun x : FastQ =>
          decide (x.Seq.take k = r.Seq.take k)).length ≤ n := by
        have h1 := dropWhile_length_le (fun x : FastQ =>
          decide (x.Seq.take k = r.Seq.take k)) rest
        simp only [List.length_cons] at hlen
        omega
      obtain ⟨ihnd, ihcov, ihex, ihpc⟩ := ih _ hlen2 hprest2
      -- the filter for any later bucket skips the run entirely
      have hfilterother : ∀ b, b ≠ r.Seq.take k →
          (r :: rest).filter (fun x : FastQ =>
            decide (x.Seq.take k = b)) =
          (rest.dropWhile fun x : FastQ =>
            decide (x.Seq.take k = r.Seq.take k)).filter
            (fun x : FastQ => decide (x.Seq.take k = b)) := by
        intro b hb
        conv_lhs => rw [show r :: rest =
          (r :: rest.takeWhile (fun x : FastQ =>
            decide (x.Seq.take k = r.Seq.take k))) ++
            rest.dropWhile (fun x : FastQ =>
              decide (x.Seq.take k = r.Seq.take k)) from by
          rw [List.cons_append, hsplit]]
        rw [List.filter_append,
          List.filter_eq_nil_iff.mpr (by
            intro a ha
            simp only [decide_eq_true_eq]
            rw [hmemgrp a ha]
            exact fun h => hb h.symm),
          List.nil_append]
      simp only [bucketSpec_cons, List.map_cons]
      refine ⟨?_, ?_, ?_, ?_⟩
      · rw [List.nodup_cons]
        refine ⟨?_, ihnd⟩
        intro hmem
        obtain ⟨y, hy, hyeq⟩ := ihex _ hmem
        exact hne y hy hyeq
      · intro x hx
        rcases List.mem_cons.mp hx with hx | hx
        · subst hx
          exact List.mem_cons_self _ _
        · rcases (by rw [← hsplit] at hx; exact List.mem_append.mp hx) with
            hx2 | hx2
          · have := List.mem_takeWhile_imp hx2
            simp only [decide_eq_true_eq] at this
            rw [this]
            exact List.mem_cons_self _ _
          · exact List.mem_cons_of_mem _ (ihcov x hx2)
      · intro b hb
        rcases List.mem_cons.mp hb with hb | hb
        · exact ⟨r, List.mem_cons_self _ _, hb.symm⟩
        · obtain ⟨y, hy, hyeq⟩ := ihex b hb
          refine ⟨y, ?_, hyeq⟩
          exact List.mem_cons_of_mem _
            (List.Sublist.mem hy (List.dropWhile_sublist _))
      · intro pc hpc
        rcases List.mem_cons.mp hpc with hpc | hpc
        · subst hpc
          dsimp only
          rw [hfiltergrp]
          constructor
          · split_ifs with hcond
            · rw [Int.natAbs_neg, Int.natAbs_ofNat]
            · rw [Int.natAbs_ofNat]
          · have hlen1 : 1 ≤ (r :: rest.takeWhile fun x : FastQ =>
                decide (x.Seq.take k = r.Seq.take k)).length := by
              simp [List.length_cons]
            constructor
            · intro hneg
              split_ifs at hneg with hcond
              · obtain ⟨-, hgt, hall⟩ := hcond
                refine ⟨by exact_mod_cast hgt, ?_⟩
                intro f hf x hx
                simp only [List.head?_cons, Option.some.injEq] at hf
                subst hf
                have := List.all_eq_true.mp hall x hx
                simpa using this
              · exfalso
                omega
            · rintro ⟨h2, hall⟩
              rw [if_pos ?_]
              · have : 0 < (r :: rest.takeWhile fun x : FastQ =>
                    decide (x.Seq.take k = r.Seq.take k)).length := by omega
                omega
              · refine ⟨by trivial, by exact_mod_cast h2, ?_⟩
                rw [List.all_eq_true]
                intro x hx
                simp only [decide_eq_true_eq]
                exact hall r rfl x hx
        · have hpcb : pc.1 ≠ r.Seq.take k := by
            intro hcontra
            obtain ⟨y, hy, hyeq⟩ := ihex pc.1
              (List.mem_map_of_mem Prod.fst hpc)
            exact hne y hy (by rw [hyeq, hcontra])
          obtain ⟨hna, hneg⟩ := ihpc pc hpc
          rw [hfilterother pc.1 hpcb]
          exact ⟨hna, hneg⟩

instance (k : Nat) (a b : FastQ) : Decidable (prefLe k a b) := by
  unfold prefLe
  infer_instance

/-- C9: Uniform bucket marker. With dupsOption=true and the reads sorted
by their first k bases (the non-strict order sort.Sort establishes), and
every read having a non-empty k-prefix, listBuckets emits distinct bucket
prefixes with one count each, covering every read; each count's absolute
value is the number of reads sharing that prefix, and the count is
negative exactly when the bucket holds at least 2 reads and every read in
it is byte-identical to the first read of the bucket. -/
theorem C9_uniform_bucket_marker (k : Nat) (reads : List FastQ)
    (h0 : ∀ r ∈ reads, r.Seq.take k ≠ ([] : Bases))
    (hsorted : List.Pairwise (prefLe k) reads) :
    (listBuckets k true reads).1.Nodup ∧
    (listBuckets k true reads).2.length =
      (listBuckets k true reads).1.length ∧
    (∀ r ∈ reads, r.Seq.take k ∈ (listBuckets k true reads).1) ∧
    (∀ b ∈ (listBuckets k true reads).1, ∃ r ∈ reads, r.Seq.take k = b) ∧
    (∀ pc ∈ (listBuckets k true reads).1.zip (listBuckets k true reads).2,
      pc.2.natAbs =
        (reads.filter fun x => decide (x.Seq.take k = pc.1)).length ∧
      (pc.2 < 0 ↔
        2 ≤ (reads.filter fun x => decide (x.Seq.take k = pc.1)).length ∧
        ∀ f, (reads.filter fun x =>
            decide (x.Seq.take k = pc.1)).head? = some f →
          ∀ x ∈ reads.filter fun x => decide (x.Seq.take k = pc.1),
            x.Seq = f.Seq)) := by
  have hspec := listBuckets_spec k true reads h0
  obtain ⟨hnd, hcov, hex, hpc⟩ :=
    bucketSpec_props k reads.length reads le_rfl hsorted
  rw [hspec]
  refine ⟨hnd, by simp, hcov, hex, ?_⟩
  intro pc hmem
  have hz : ((bucketSpec k true reads).map Prod.fst).zip
      ((bucketSpec k true reads).map Prod.snd) = bucketSpec k true reads := by
    rw [List.zip_map']
    simp
  rw [show (((bucketSpec k true reads).map Prod.fst,
      (bucketSpec k true reads).map Prod.snd).1.zip
      ((bucketSpec k true reads).map Prod.fst,
      (bucketSpec k true reads).map Prod.snd).2) =
      bucketSpec k true reads from hz] at hmem
  exact hpc pc hmem

/-- Concrete sorted read list for exercising listBuckets: two identical
AA reads followed by one CA read. -/
def c9reads : List FastQ :=
  [⟨[Base.A, Base.A], [], false⟩, ⟨[Base.A, Base.A], [], false⟩,
   ⟨[Base.C, Base.A], [], false⟩]

theorem C9_uniform_bucket_marker_witness :
    ((∀ r ∈ c9reads, r.Seq.take 2 ≠ ([] : Bases)) ∧
      List.Pairwise (prefLe 2) c9reads) ∧
    ((listBuckets 2 true c9reads).1.Nodup ∧
    (listBuckets 2 true c9reads).2.length =
      (listBuckets 2 true c9reads).1.length ∧
    (∀ r ∈ c9reads, r.Seq.take 2 ∈ (listBuckets 2 true c9reads).1) ∧
    (∀ b ∈ (listBuckets 2 true c9reads).1,
      ∃ r ∈ c9reads, r.Seq.take 2 = b) ∧
    (∀ pc ∈ (listBuckets 2 true c9reads).1.zip
        (listBuckets 2 true c9reads).2,
      pc.2.natAbs =
        (c9reads.filter fun x => decide (x.Seq.take 2 = pc.1)).length ∧
      (pc.2 < 0 ↔
        2 ≤ (c9reads.filter fun x => decide (x.Seq.take 2 = pc.1)).length ∧
        ∀ f, (c9reads.filter fun x =>
            decide (x.Seq.take 2 = pc.1)).head? = some f →
          ∀ x ∈ c9reads.filter fun x => decide (x.Seq.take 2 = pc.1),
            x.Seq = f.Seq))) :=
  ⟨⟨by decide, by decide⟩,
    C9_uniform_bucket_marker 2 c9reads (by decide) (by decide)⟩

-- ===== The end-to-end pipeline of claim C1 =====

/-- The loop of encodeSingleReadWithBucket() from kpath.go: for each tail
symbol, compute nextInterval for the current context and hand the
(a, b, total) triple to coder.Encode, then shift the context. The emitted
triple list stands for the arithmetic coder's input. -/
def encodeTailGo {M : Type} (ops : KmerModelOps M) (k : Nat) :
    GlobalState M → Nat → Bases → List (Nat × Nat × Nat) × GlobalState M
  | st, _, [] => ([], st)
  | st, contextMer, s :: rest =>
    let char := acgt s
    let r1 := nextInterval ops st contextMer char true
    let r2 := encodeTailGo ops k r1.2 (shiftKmer k contextMer char) rest
    (r1.1 :: r2.1, r2.2)

/-- encodeSingleReadWithBucket() from kpath.go: encode positions k.. of
the read, starting from the bucket's context k-mer. -/
def encodeSingleReadWithBucket {M : Type} (ops : KmerModelOps M) (k : Nat)
    (contextMer : Nat) (r : Bases) (st : GlobalState M) :
    List (Nat × Nat × Nat) × GlobalState M :=
  encodeTailGo ops k st contextMer (r.drop k)

/-- The positive-count inner loop of encodeReadsFromTempFile() from
kpath.go: encode each read of the bucket in order, every one from the
bucket context. -/
def encodeRun {M : Type} (ops : KmerModelOps M) (k : Nat) (ctx : Nat) :
    List Bases → GlobalState M → List (Nat × Nat × Nat) × GlobalState M
  | [], st => ([], st)
  | r :: rest, st =>
    let r1 := encodeSingleReadWithBucket ops k ctx r st
    let r2 := encodeRun ops k ctx rest r1.2
    (r1.1 ++ r2.1, r2.2)

/-- encodeReadsFromTempFile() from kpath.go, over the parallel
bucket/count lists (as their zip) and the newline-separated reads of the
temp file (as a list). A positive count c encodes the next c reads; any
other count encodes one read and skips the next |c|−1 (the skip loop does
not re-check read errors). Reading past the end of the temp file is the
fatal DIE_ON_ERR path, embedded as none. -/
def encodeReadsFromTempFile {M : Type} (ops : KmerModelOps M) (k : Nat) :
    List (Bases × Int) → List Bases → GlobalState M →
      Option (List (Nat × Nat × Nat) × GlobalState M)
  | [], _, st => some ([], st)
  | (bk, c) :: brest, reads, st =>
    if 0 < c then
      if c.toNat ≤ reads.length then
        (encodeReadsFromTempFile ops k brest (reads.drop c.toNat)
            (encodeRun ops k (stringToKmer bk) (reads.take c.toNat) st).2).bind
          fun r2 =>
            some ((encodeRun ops k (stringToKmer bk)
              (reads.take c.toNat) st).1 ++ r2.1, r2.2)
      else none
    else
      match reads with
      | [] => none
      | r :: rrest =>
        (encodeReadsFromTempFile ops k brest (rrest.drop (c.natAbs - 1))
            (encodeSingleReadWithBucket ops k (stringToKmer bk) r st).2).bind
          fun r2 =>
            some ((encodeSingleReadWithBucket ops k (stringToKmer bk)
              r st).1 ++ r2.1, r2.2)

/-- Modelled from the spec: the arithc.Decoder primitive (arithc is not
under src/). The encoder's emitted (a, b, total) triples stand for the
coder bitstream. The spec's losslessness property is that Decode, driven
with the same total the encoder used, recovers a target inside the
encoded interval [a, b) and hands it to the lookup callback; the target is
modelled as the interval's low end. An exhausted stream, a total that
differs from the encoder's, an empty or out-of-range interval, or a
failing lookup is decoder failure. The symbol of the triple the lookup
returns is the decoded symbol. -/
def arithcDecode (total : Nat) (lu : Nat → Option (Nat × Nat × Fin 4)) :
    List (Nat × Nat × Nat) → Option (Fin 4 × List (Nat × Nat × Nat))
  | [] => none
  | (a, b, t) :: rest =>
    if t = total ∧ a < b ∧ b ≤ t then
      (lu a).bind fun x => some (x.2.2, rest)
    else none

/-- decodeSingleRead() from kpath.go: tailLen times, Decode the next
symbol against the current contextTotal and lookup, write out its letter
(baseFromBits), update the model through nextInterval(…, false) and shift
the context. -/
def decodeSingleRead {M : Type} (ops : KmerModelOps M) (k : Nat) :
    Nat → GlobalState M → Nat → List (Nat × Nat × Nat) →
      Option (Bases × GlobalState M × List (Nat × Nat × Nat))
  | _, st, 0, stream => some ([], st, stream)
  | contextMer, st, tailLen + 1, stream =>
    (arithcDecode (contextTotal ops st contextMer)
        (lookup ops st contextMer) stream).bind fun r1 =>
      (decodeSingleRead ops k (shiftKmer k contextMer r1.1)
          (nextInterval ops st contextMer r1.1 false).2 tailLen r1.2).bind
        fun r2 => some (baseFromBits r1.1 :: r2.1, r2.2.1, r2.2.2)

/-- The non-negative-count inner loop of decodeReads() from kpath.go:
decode c reads for the bucket, each from the bucket context, emitting the
bucket head concatenated with the decoded tail. -/
def decodeRun {M : Type} (ops : KmerModelOps M) (k : Nat) (bk : Bases)
    (tailLen : Nat) :
    Nat → GlobalState M → List (Nat × Nat × Nat) →
      Option (List Bases × GlobalState M × List (Nat × Nat × Nat))
  | 0, st, stream => some ([], st, stream)
  | n + 1, st, stream =>
    (decodeSingleRead ops k (stringToKmer bk) st tailLen stream).bind
      fun r1 =>
        (decodeRun ops k bk tailLen n r1.2.1 r1.2.2).bind fun r2 =>
          some ((bk ++ r1.1) :: r2.1, r2.2.1, r2.2.2)

/-- The main loop of decodeReads() from kpath.go, over the zip of the
bucket names and the counts: a negative count decodes one read and
replicates it |c| times, a non-negative count decodes c reads. Patching
with the sidecar data happens per output read afterwards. -/
def decodeReadsGo {M : Type} (ops : KmerModelOps M) (k : Nat)
    (tailLen : Nat) :
    List (Bases × Int) → GlobalState M → List (Nat × Nat × Nat) →
      Option (List Bases × GlobalState M × List (Nat × Nat × Nat))
  | [], st, stream => some ([], st, stream)
  | (bk, c) :: brest, st, stream =>
    if c < 0 then
      (decodeSingleRead ops k (stringToKmer bk) st tailLen stream).bind
        fun r1 =>
          (decodeReadsGo ops k tailLen brest r1.2.1 r1.2.2).bind fun r2 =>
            some (List.replicate c.natAbs (bk ++ r1.1) ++ r2.1,
              r2.2.1, r2.2.2)
    else
      (decodeRun ops k bk tailLen c.toNat st stream).bind fun r1 =>
        (decodeReadsGo ops k tailLen brest r1.2.1 r1.2.2).bind fun r2 =>
          some (r1.1 ++ r2.1, r2.2.1, r2.2.2)

/-- putbackNs() from kpath.go: overwrite the base at each recorded
position with N (every call passes positions below the read length). -/
def putbackNs (s : Bases) (p : List Nat) : Bases :=
  p.foldl (fun b v => b.set v Base.N) s

/-- The per-read body of patchAndWriteRead() from kpath.go: reinsert the
Ns at the recorded positions, then reverse complement if the read was
flipped. -/
def patchRead (nLoc : List Nat) (flipped : Bool) (s : Bases) : Bases :=
  let s1 := putbackNs s nLoc
  if flipped then reverseComplement s1 else s1

/-- The encoder's outputs, one field per output file: the .enc triple
stream, the .bittree bucket list, the .counts read length and counts, and
the .ns and .flipped sidecars in sorted read order. The bit-tree
serializer and the counts text format are lossless on these values
(modelled from the spec; neither is under src/). The N positions are
written out as full decimal integers; readNLocations() reads them back
through byte(p), which the decode pipeline applies. -/
structure EncodedFiles where
  stream : List (Nat × Nat × Nat)
  buckets : List Bases
  counts : List Int
  readLen : Nat
  nLocations : List (List Nat)
  flippedBits : List Bool
deriving DecidableEq

/-- readAndFlipReads() from kpath.go: ingest the raw reads (ReadFastQ
folds N to A, recording positions), flip each read against the reference
bit vector when the option is on, and sort by the first k bases.
sort.Sort is an unspecified in-place sort of the Lexicographically
comparator; it is modelled as an insertion sort over the same comparator —
the development uses only that the result is a comparator-sorted
permutation of its input. -/
def readAndFlipReads (k : Nat) (bv : BitVec) (flipOpt : Bool)
    (reads0 : List Bases) : List FastQ :=
  List.insertionSort (prefLe k)
    (if flipOpt then flipRange k bv (reads0.map ingestRead)
     else reads0.map ingestRead)

/-- The encode side of main(): read and flip and sort the reads, bucket
them (listBuckets), and encode every read tail against the model built
from the reference (encodeReadsFromTempFile). An empty input hits the
fatal len(reads[0].Seq) of preprocessWithBuckets, embedded as none. -/
def encodePipeline {M : Type} (ops : KmerModelOps M) (k : Nat) (km0 : M)
    (bv : BitVec) (flipOpt dups : Bool) (reads0 : List Bases) :
    Option EncodedFiles :=
  match reads0 with
  | [] => none
  | _ :: _ =>
    let reads3 := readAndFlipReads k bv flipOpt reads0
    let bc := listBuckets k dups reads3
    (encodeReadsFromTempFile ops k (bc.1.zip bc.2)
        (reads3.map FastQ.Seq) (initialState km0)).bind fun r1 =>
      some { stream := r1.1, buckets := bc.1, counts := bc.2,
             readLen := (reads3.headD ⟨[], [], false⟩).Seq.length,
             nLocations := reads3.map FastQ.NLocations,
             flippedBits := reads3.map FastQ.IsFlipped }

/-- The decode side of main(): rebuild the model from the same reference,
recover the bucket list (the bit-tree round-trips the bucket set and
decode re-sorts it, returning the encoder's already-sorted duplicate-free
list — modelled from the spec), decode every bucket (decodeReads), then
patch each output read with its sidecar entry: reinsert Ns at the
byte-truncated recorded positions, then unflip. An empty bucket list hits
the fatal len(kmers[0]), and a sidecar shorter than the output hits a
fatal index-out-of-range, both embedded as none. -/
def decodePipeline {M : Type} (ops : KmerModelOps M) (k : Nat) (km0 : M)
    (enc : EncodedFiles) : Option (List Bases) :=
  enc.buckets.head?.bind fun bk0 =>
    (decodeReadsGo ops k (enc.readLen - bk0.length)
        (enc.buckets.zip enc.counts) (initialState km0) enc.stream).bind
      fun r1 =>
        if r1.1.length = enc.nLocations.length ∧
            r1.1.length = enc.flippedBits.length then
          some (((enc.nLocations.map fun l =>
              l.map fun p => p % 256).zip enc.flippedBits).zipWith
            (fun pr s => patchRead pr.1 pr.2 s) r1.1)
        else none

/-- The decoder's per-read patch as a function of the encoder's sorted
read record: reinsert Ns at the byte-truncated positions of the .ns
sidecar line, then unflip when the .flipped bit is set. -/
def patchRecord (fq : FastQ) : Bases :=
  patchRead (fq.NLocations.map fun p => p % 256) fq.IsFlipped fq.Seq

-- Order facts for the read sort.

theorem bytesLt_asymm :
    ∀ a b : List Nat, bytesLt a b = true → bytesLt b a = false := by
  intro a
  induction a with
  | nil =>
    intro b h
    cases b with
    | nil => rfl
    | cons y ys => rfl
  | cons x xs ih =>
    intro b h
    cases b with
    | nil => exact absurd h (by simp [bytesLt])
    | cons y ys =>
      by_cases h1 : x < y
      · show (if y < x then true else if x < y then false else
          bytesLt ys xs) = false
        rw [if_neg (by omega), if_pos h1]
      · by_cases h2 : y < x
        · have : bytesLt (x :: xs) (y :: ys) = false := by
            show (if x < y then true else if y < x then false else
              bytesLt xs ys) = false
            rw [if_neg h1, if_pos h2]
          rw [this] at h
          cases h
        · have h3 : bytesLt xs ys = true := by
            have : bytesLt (x :: xs) (y :: ys) = bytesLt xs ys := by
              show (if x < y then true else if y < x then false else
                bytesLt xs ys) = _
              rw [if_neg h1, if_neg h2]
            rw [this] at h
            exact h
          show (if y < x then true else if x < y then false else
            bytesLt ys xs) = false
          rw [if_neg h2, if_neg h1]
          exact ih ys h3

theorem bytesLt_trans :
    ∀ a b c : List Nat, bytesLt a b = true → bytesLt b c = true →
      bytesLt a c = true := by
  intro a
  induction a with
  | nil =>
    intro b c h1 h2
    cases b with
    | nil => exact absurd h1 (by simp [bytesLt])
    | cons y ys =>
      cases c with
      | nil => exact absurd h2 (by simp [bytesLt])
      | cons z zs => rfl
  | cons x xs ih =>
    intro b c h1 h2
    cases b with
    | nil => exact absurd h1 (by simp [bytesLt])
    | cons y ys =>
      cases c with
      | nil => exact absurd h2 (by simp [bytesLt])
      | cons z zs =>
        have e1 : bytesLt (x :: xs) (y :: ys) =
            (if x < y then true else if y < x then false else
              bytesLt xs ys) := rfl
        have e2 : bytesLt (y :: ys) (z :: zs) =
            (if y < z then true else if z < y then false else
              bytesLt ys zs) := rfl
        have e3 : bytesLt (x :: xs) (z :: zs) =
            (if x < z then true else if z < x then false else
              bytesLt xs zs) := rfl
        rw [e1] at h1
        rw [e2] at h2
        rw [e3]
        by_cases hxy : x < y
        · by_cases hyz : y < z
          · rw [if_pos (by omega)]
          · by_cases hzy : z < y
            · rw [if_neg hyz, if_pos hzy] at h2
              cases h2
            · rw [if_pos (by omega)]
        · by_cases hyx : y < x
          · rw [if_neg hxy, if_pos hyx] at h1
            cases h1
          · by_cases hyz : y < z
            · rw [if_pos (by omega)]
            · by_cases hzy : z < y
              · rw [if_neg hyz, if_pos hzy] at h2
                cases h2
              · rw [if_neg hxy, if_neg hyx] at h1
                rw [if_neg hyz, if_neg hzy] at h2
                rw [if_neg (by omega), if_neg (by omega)]
                exact ih ys zs h1 h2

instance (k : Nat) : IsTrans FastQ (prefLe k) where
  trans a b c hab hbc := by
    unfold prefLe at hab hbc ⊢
    cases hca : bytesLt (prefKey k c) (prefKey k a) with
    | false => rfl
    | true =>
      exfalso
      rcases bytesLt_trichotomy (prefKey k c) (prefKey k b) with h | h | h
      · rw [h] at hbc
        cases hbc
      · rw [h.symm] at hab
        rw [hca] at hab
        cases hab
      · have := bytesLt_trans _ _ _ h hca
        rw [this] at hab
        cases hab

instance (k : Nat) : IsTotal FastQ (prefLe k) where
  total a b := by
    unfold prefLe
    cases hba : bytesLt (prefKey k b) (prefKey k a) with
    | false => exact Or.inl rfl
    | true => exact Or.inr (bytesLt_asymm _ _ hba)

theorem zip_map_fst_snd {α β : Type} (l : List (α × β)) :
    (l.map Prod.fst).zip (l.map Prod.snd) = l := by
  rw [List.zip_map']
  simp

-- Per-base facts used by the round trip.

theorem baseFromBits_acgt (s : Base) (h : s ≠ Base.N) :
    baseFromBits (acgt s) = s := by
  cases s
  · rfl
  · rfl
  · rfl
  · rfl
  · exact absurd rfl h

theorem RC_RC (b : Base) : RC (RC b) = b := by
  cases b <;> rfl

theorem RC_ne_N (b : Base) (h : b ≠ Base.N) : RC b ≠ Base.N := by
  cases b
  · exact fun hc => Base.noConfusion hc
  · exact fun hc => Base.noConfusion hc
  · exact fun hc => Base.noConfusion hc
  · exact fun hc => Base.noConfusion hc
  · exact absurd rfl h

theorem nToA_ne_N (b : Base) : nToA b ≠ Base.N := by
  cases b <;> exact fun hc => Base.noConfusion hc

theorem nToA_eq_self (b : Base) (h : b ≠ Base.N) : nToA b = b := by
  cases b
  · rfl
  · rfl
  · rfl
  · rfl
  · exact absurd rfl h

theorem reverseComplement_length (r : Bases) :
    (reverseComplement r).length = r.length := by
  simp [reverseComplement]

theorem reverseComplement_reverseComplement (r : Bases) :
    reverseComplement (reverseComplement r) = r := by
  unfold reverseComplement
  rw [List.map_reverse, List.reverse_reverse, List.map_map]
  have hid : RC ∘ RC = id := funext fun b => RC_RC b
  rw [hid, List.map_id]

theorem reverseComplement_getElem (s : Bases) (i : Nat)
    (hi : i < s.length) :
    (reverseComplement s)[i]? = (s[s.length - 1 - i]?).map RC := by
  unfold reverseComplement
  rw [List.getElem?_reverse (by simpa using hi)]
  simp [List.getElem?_map]

-- putbackNs and its interaction with ingestion and flipping.

theorem putbackNs_length :
    ∀ (ps : List Nat) (s : Bases), (putbackNs s ps).length = s.length := by
  intro ps
  induction ps with
  | nil => intro s; rfl
  | cons p ps ih =>
    intro s
    show (putbackNs (s.set p Base.N) ps).length = _
    rw [ih]
    simp

theorem putbackNs_getElem :
    ∀ (ps : List Nat) (s : Bases) (i : Nat), i < s.length →
      (putbackNs s ps)[i]? =
        if i ∈ ps then some Base.N else s[i]? := by
  intro ps
  induction ps with
  | nil =>
    intro s i hi
    simp [putbackNs]
  | cons p ps ih =>
    intro s i hi
    show (putbackNs (s.set p Base.N) ps)[i]? = _
    rw [ih (s.set p Base.N) i (by simpa using hi)]
    by_cases hip : i = p
    · subst hip
      by_cases him : i ∈ ps
      · simp [him]
      · simp [him, List.getElem?_set_self hi]
    · rw [List.getElem?_set_ne (fun hc => hip hc.symm)]
      by_cases him : i ∈ ps
      · simp [him, hip]
      · simp [him, hip]

theorem nPositions_lt (r : Bases) (p : Nat) (hp : p ∈ nPositions r) :
    p < r.length := by
  unfold nPositions at hp
  simp only [List.mem_filter, List.mem_range] at hp
  exact hp.1

theorem putback_ingest (r : Bases) :
    putbackNs (r.map nToA) (nPositions r) = r := by
  apply List.ext_getElem?
  intro i
  by_cases hi : i < r.length
  · rw [putbackNs_getElem (nPositions r) (r.map nToA) i (by simpa using hi)]
    have hmem : i ∈ nPositions r ↔ r.getD i Base.A = Base.N := by
      unfold nPositions
      simp [List.mem_filter, List.mem_range, hi]
    rw [List.getD_eq_getElem r Base.A hi] at hmem
    by_cases hN : r[i] = Base.N
    · rw [if_pos (hmem.mpr hN), List.getElem?_eq_getElem hi, hN]
    · rw [if_neg (fun hc => hN (hmem.mp hc))]
      rw [List.getElem?_map, List.getElem?_eq_getElem hi]
      simp [nToA_eq_self r[i] hN]
  · have h1 : (putbackNs (r.map nToA) (nPositions r)).length ≤ i := by
      rw [putbackNs_length]
      simpa using Nat.le_of_not_lt hi
    rw [List.getElem?_eq_none h1,
      List.getElem?_eq_none (Nat.le_of_not_lt hi)]

theorem putbackNs_mirror (s : Bases) (ps : List Nat)
    (hps : ∀ p ∈ ps, p < s.length) :
    putbackNs (reverseComplement s) (ps.map fun p => s.length - 1 - p) =
      reverseComplement (putbackNs s ps) := by
  apply List.ext_getElem?
  intro i
  by_cases hi : i < s.length
  · rw [putbackNs_getElem _ (reverseComplement s) i
      (by rw [reverseComplement_length]; exact hi)]
    rw [reverseComplement_getElem (putbackNs s ps) i
      (by rw [putbackNs_length]; exact hi)]
    rw [putbackNs_length]
    rw [putbackNs_getElem ps s (s.length - 1 - i) (by omega)]
    have hmem : (i ∈ ps.map fun p => s.length - 1 - p) ↔
        s.length - 1 - i ∈ ps := by
      constructor
      · intro hm
        obtain ⟨p, hp, hpe⟩ := List.mem_map.mp hm
        have hplt := hps p hp
        have : s.length - 1 - i = p := by omega
        rw [this]
        exact hp
      · intro hm
        refine List.mem_map.mpr ⟨s.length - 1 - i, hm, ?_⟩
        have := hps _ hm
        omega
    by_cases hm : s.length - 1 - i ∈ ps
    · rw [if_pos (hmem.mpr hm), if_pos hm]
      rfl
    · rw [if_neg (fun hc => hm (hmem.mp hc)), if_neg hm]
      exact reverseComplement_getElem s i hi
  · have h1 : (putbackNs (reverseComplement s)
        (ps.map fun p => s.length - 1 - p)).length ≤ i := by
      rw [putbackNs_length, reverseComplement_length]
      omega
    have h2 : (reverseComplement (putbackNs s ps)).length ≤ i := by
      rw [reverseComplement_length, putbackNs_length]
      omega
    rw [List.getElem?_eq_none h1, List.getElem?_eq_none h2]

/-- N-freeness of a stored sequence: ingestion folds every N to A and
flipping preserves the property. -/
def NFree (s : Bases) : Prop := ∀ c ∈ s, c ≠ Base.N

theorem NFree_ingest (r : Bases) : NFree (ingestRead r).Seq := by
  intro c hc
  obtain ⟨x, hx, hxe⟩ := List.mem_map.mp hc
  rw [hxe.symm]
  exact nToA_ne_N x

theorem NFree_reverseComplement (s : Bases) (h : NFree s) :
    NFree (reverseComplement s) := by
  intro c hc
  unfold reverseComplement at hc
  rw [List.mem_reverse] at hc
  obtain ⟨x, hx, hxe⟩ := List.mem_map.mp hc
  rw [hxe.symm]
  exact RC_ne_N x (h x hx)

theorem flipOne_Seq (k : Nat) (bv : BitVec) (fq : FastQ) :
    (flipOne k bv fq).Seq = fq.Seq ∨
    (flipOne k bv fq).Seq = reverseComplement fq.Seq := by
  unfold flipOne
  dsimp only
  split
  · exact Or.inr rfl
  · exact Or.inl rfl

theorem NFree_flipOne (k : Nat) (bv : BitVec) (fq : FastQ)
    (h : NFree fq.Seq) : NFree (flipOne k bv fq).Seq := by
  rcases flipOne_Seq k bv fq with he | he <;> rw [he]
  · exact h
  · exact NFree_reverseComplement _ h

theorem flipOne_length (k : Nat) (bv : BitVec) (fq : FastQ) :
    (flipOne k bv fq).Seq.length = fq.Seq.length := by
  rcases flipOne_Seq k bv fq with he | he
  · rw [he]
  · rw [he]
    exact reverseComplement_length _

-- Patching a record undoes ingestion and flipping for reads short enough
-- that the byte-truncated N positions are exact.

theorem patchRecord_ingest (r : Bases) (hr : r.length ≤ 256) :
    patchRecord (ingestRead r) = r := by
  unfold patchRecord ingestRead patchRead
  dsimp only
  rw [if_neg (fun hc => Bool.noConfusion hc)]
  have hmap : (nPositions r).map (fun p => p % 256) = nPositions r := by
    calc (nPositions r).map (fun p => p % 256)
        = (nPositions r).map id :=
          List.map_congr_left (fun p hp => Nat.mod_eq_of_lt
            (by have := nPositions_lt r p hp; omega))
      _ = nPositions r := List.map_id _
  rw [hmap]
  exact putback_ingest r

theorem patchRecord_setRC (r : Bases) (hr : r.length ≤ 256) :
    patchRecord ((ingestRead r).SetReverseComplement
        (reverseComplement (ingestRead r).Seq)) = r := by
  unfold patchRecord FastQ.SetReverseComplement patchRead
  dsimp only
  rw [if_pos rfl]
  have hlen : (ingestRead r).Seq.length = r.length := by
    unfold ingestRead
    simp
  have hmap : (((ingestRead r).NLocations.map
        fun i => (ingestRead r).Seq.length - 1 - i).map fun p => p % 256) =
      (nPositions r).map fun i => (r.map nToA).length - 1 - i := by
    show (((nPositions r).map fun i => (ingestRead r).Seq.length - 1 - i).map
        fun p => p % 256) = _
    rw [List.map_map]
    apply List.map_congr_left
    intro p hp
    have hplt := nPositions_lt r p hp
    show ((ingestRead r).Seq.length - 1 - p) % 256 =
      (r.map nToA).length - 1 - p
    rw [hlen]
    have : (r.map nToA).length = r.length := by simp
    rw [this]
    exact Nat.mod_eq_of_lt (by omega)
  rw [hmap]
  show reverseComplement (putbackNs (reverseComplement (r.map nToA))
    ((nPositions r).map fun i => (r.map nToA).length - 1 - i)) = r
  rw [putbackNs_mirror (r.map nToA) (nPositions r)
    (fun p hp => by have := nPositions_lt r p hp; simp; omega)]
  rw [putback_ingest r]
  exact reverseComplement_reverseComplement r

theorem patchRecord_flipOne (k : Nat) (bv : BitVec) (r : Bases)
    (hr : r.length ≤ 256) :
    patchRecord (flipOne k bv (ingestRead r)) = r := by
  unfold flipOne
  dsimp only
  split
  · exact patchRecord_setRC r hr
  · exact patchRecord_ingest r hr

-- The per-symbol encoder/decoder correspondence: decoding the triple the
-- encoder emitted, in the same model state, returns the encoded symbol.

theorem nextInterval_fst_known {M : Type} (ops : KmerModelOps M)
    (st : GlobalState M) (ctx : Nat) (c : Fin 4)
    (h : (ops.Distribution st.km ctx).1 = true) :
    (nextInterval ops st ctx c true).1 =
      intervalFor c (ops.Distribution st.km ctx).2 := by
  unfold nextInterval
  dsimp only
  rw [if_pos h]
  rfl

theorem nextInterval_fst_unknown {M : Type} (ops : KmerModelOps M)
    (st : GlobalState M) (ctx : Nat) (c : Fin 4)
    (h : (ops.Distribution st.km ctx).1 = false) :
    (nextInterval ops st ctx c true).1 =
      intervalForDefault st.defaultInterval c := by
  unfold nextInterval
  dsimp only
  rw [if_neg (by simp [h])]
  rfl

theorem nextInterval_snd_flag {M : Type} (ops : KmerModelOps M)
    (st : GlobalState M) (ctx : Nat) (c : Fin 4) :
    (nextInterval ops st ctx c false).2 = (nextInterval ops st ctx c true).2 := by
  unfold nextInterval
  dsimp only
  split
  · rfl
  · rfl

theorem arithcDecode_cumW (w : Fin 4 → Nat) (c : Fin 4)
    (rest : List (Nat × Nat × Nat)) (hpos : 1 ≤ w c) :
    arithcDecode (cumW w 4) (dartSearch w)
        ((cumW w c.val, cumW w (c.val + 1), cumW w 4) :: rest) =
      some (c, rest) := by
  have h1 : cumW w c.val < cumW w (c.val + 1) := by
    rw [cumW_succ]
    omega
  have h2 : cumW w (c.val + 1) ≤ cumW w 4 := cumW_mono w (by omega)
  show (if cumW w 4 = cumW w 4 ∧ cumW w c.val < cumW w (c.val + 1) ∧
      cumW w (c.val + 1) ≤ cumW w 4 then
    (dartSearch w (cumW w c.val)).bind fun x => some (x.2.2, rest)
   else none) = some (c, rest)
  rw [if_pos ⟨rfl, h1, h2⟩]
  rw [dartSearch_inv w c (cumW w c.val) (le_refl _) h1]
  rfl

theorem codec_step {M : Type} (ops : KmerModelOps M) (st : GlobalState M)
    (ctx : Nat) (c : Fin 4) (rest : List (Nat × Nat × Nat))
    (hr : ReachableState ops st) :
    arithcDecode (contextTotal ops st ctx) (lookup ops st ctx)
        ((nextInterval ops st ctx c true).1 :: rest) = some (c, rest) := by
  obtain ⟨hsum, hent, -⟩ := reachable_invariant ops st hr
  by_cases hd : (ops.Distribution st.km ctx).1 = true
  · rw [nextInterval_fst_known ops st ctx c hd, intervalFor_eq]
    have htot : contextTotal ops st ctx =
        cumW (fun i => contextWeight i (ops.Distribution st.km ctx).2) 4 := by
      unfold contextTotal
      dsimp only
      rw [if_pos hd, sumWeights_eq_cumW]
    have hlu : lookup ops st ctx =
        dartSearch (fun i => contextWeight i (ops.Distribution st.km ctx).2) := by
      funext t
      unfold lookup dart
      dsimp only
      rw [if_pos hd]
    rw [htot, hlu]
    exact arithcDecode_cumW _ c rest (contextWeight_pos c _)
  · have hd2 : (ops.Distribution st.km ctx).1 = false := by
      simpa using hd
    rw [nextInterval_fst_unknown ops st ctx c hd2, intervalForDefault_eq]
    have htot : contextTotal ops st ctx = cumW st.defaultInterval 4 := by
      unfold contextTotal
      dsimp only
      rw [if_neg (by simp [hd2]), hsum]
    have hlu : lookup ops st ctx = dartSearch st.defaultInterval := by
      funext t
      unfold lookup dartDefault
      dsimp only
      rw [if_neg (by simp [hd2])]
    rw [htot, hlu]
    have := hent c
    exact arithcDecode_cumW _ c rest (by omega)

theorem encodeTailGo_cons {M : Type} (ops : KmerModelOps M) (k : Nat)
    (st : GlobalState M) (ctx : Nat) (s : Base) (tl : Bases) :
    encodeTailGo ops k st ctx (s :: tl) =
      ((nextInterval ops st ctx (acgt s) true).1 ::
        (encodeTailGo ops k (nextInterval ops st ctx (acgt s) true).2
          (shiftKmer k ctx (acgt s)) tl).1,
       (encodeTailGo ops k (nextInterval ops st ctx (acgt s) true).2
          (shiftKmer k ctx (acgt s)) tl).2) := rfl

/-- Decoding the triples a read tail was encoded into, from the same
global state, yields back the tail, the encoder's final state and the
remaining stream; the final state is reachable. -/
theorem codec_tail {M : Type} (ops : KmerModelOps M) (k : Nat) :
    ∀ (tail : Bases) (st : GlobalState M) (ctx : Nat)
      (rest : List (Nat × Nat × Nat)),
      ReachableState ops st → (∀ c ∈ tail, c ≠ Base.N) →
      decodeSingleRead ops k ctx st tail.length
          ((encodeTailGo ops k st ctx tail).1 ++ rest) =
        some (tail, (encodeTailGo ops k st ctx tail).2, rest) ∧
      ReachableState ops (encodeTailGo ops k st ctx tail).2 := by
  intro tail
  induction tail with
  | nil =>
    intro st ctx rest hr hn
    exact ⟨rfl, hr⟩
  | cons s tl ih =>
    intro st ctx rest hr hn
    have hs : s ≠ Base.N := hn s (by simp)
    have hr1 : ReachableState ops (nextInterval ops st ctx (acgt s) true).2 :=
      ReachableState.step st ctx (acgt s) true hr
    obtain ⟨ihdec, ihreach⟩ := ih (nextInterval ops st ctx (acgt s) true).2
      (shiftKmer k ctx (acgt s)) rest hr1 (fun c hc => hn c (by simp [hc]))
    refine ⟨?_, ?_⟩
    · rw [encodeTailGo_cons]
      show decodeSingleRead ops k ctx st (tl.length + 1) _ = _
      show ((arithcDecode (contextTotal ops st ctx) (lookup ops st ctx)
          ((nextInterval ops st ctx (acgt s) true).1 ::
            ((encodeTailGo ops k (nextInterval ops st ctx (acgt s) true).2
              (shiftKmer k ctx (acgt s)) tl).1 ++ rest))).bind fun r1 =>
        (decodeSingleRead ops k (shiftKmer k ctx r1.1)
            (nextInterval ops st ctx r1.1 false).2 tl.length r1.2).bind
          fun r2 => some (baseFromBits r1.1 :: r2.1, r2.2.1, r2.2.2)) = _
      rw [codec_step ops st ctx (acgt s) _ hr]
      rw [Option.some_bind]
      dsimp only
      rw [nextInterval_snd_flag]
      rw [ihdec]
      rw [Option.some_bind]
      dsimp only
      rw [baseFromBits_acgt s hs]
    · rw [encodeTailGo_cons]
      exact ihreach

theorem codec_read {M : Type} (ops : KmerModelOps M) (k L : Nat)
    (r : Bases) (st : GlobalState M) (rest : List (Nat × Nat × Nat))
    (ctx : Nat) (hr : ReachableState ops st) (hn : ∀ c ∈ r, c ≠ Base.N)
    (hL : r.length = L) :
    decodeSingleRead ops k ctx st (L - k)
        ((encodeSingleReadWithBucket ops k ctx r st).1 ++ rest) =
      some (r.drop k, (encodeSingleReadWithBucket ops k ctx r st).2, rest) ∧
    ReachableState ops (encodeSingleReadWithBucket ops k ctx r st).2 := by
  have hlen : (r.drop k).length = L - k := by
    simp [hL.symm]
  have h := codec_tail ops k (r.drop k) st ctx rest hr
    (fun c hc => hn c (List.drop_subset k r hc))
  rw [hlen] at h
  exact h

theorem encodeRun_cons {M : Type} (ops : KmerModelOps M) (k ctx : Nat)
    (r : Bases) (rs : List Bases) (st : GlobalState M) :
    encodeRun ops k ctx (r :: rs) st =
      ((encodeSingleReadWithBucket ops k ctx r st).1 ++
        (encodeRun ops k ctx rs
          (encodeSingleReadWithBucket ops k ctx r st).2).1,
       (encodeRun ops k ctx rs
          (encodeSingleReadWithBucket ops k ctx r st).2).2) := rfl

theorem decodeRun_succ {M : Type} (ops : KmerModelOps M) (k : Nat)
    (bk : Bases) (tailLen n : Nat) (st : GlobalState M)
    (stream : List (Nat × Nat × Nat)) :
    decodeRun ops k bk tailLen (n + 1) st stream =
      (decodeSingleRead ops k (stringToKmer bk) st tailLen stream).bind
        fun r1 =>
          (decodeRun ops k bk tailLen n r1.2.1 r1.2.2).bind fun r2 =>
            some ((bk ++ r1.1) :: r2.1, r2.2.1, r2.2.2) := rfl

/-- Decoding a bucket's worth of reads from the triples that encoded them,
from the same global state, returns exactly those reads. -/
theorem codec_run {M : Type} (ops : KmerModelOps M) (k L : Nat)
    (bk : Bases) :
    ∀ (rs : List Bases) (st : GlobalState M)
      (rest : List (Nat × Nat × Nat)),
      ReachableState ops st →
      (∀ r ∈ rs, ∀ c ∈ r, c ≠ Base.N) →
      (∀ r ∈ rs, r.length = L) →
      (∀ r ∈ rs, r.take k = bk) →
      decodeRun ops k bk (L - k) rs.length st
          ((encodeRun ops k (stringToKmer bk) rs st).1 ++ rest) =
        some (rs, (encodeRun ops k (stringToKmer bk) rs st).2, rest) ∧
      ReachableState ops (encodeRun ops k (stringToKmer bk) rs st).2 := by
  intro rs
  induction rs with
  | nil =>
    intro st rest hr _ _ _
    exact ⟨rfl, hr⟩
  | cons r rs ih =>
    intro st rest hr hn hL hpre
    obtain ⟨hdec1, hreach1⟩ := codec_read ops k L r st
      ((encodeRun ops k (stringToKmer bk) rs
        (encodeSingleReadWithBucket ops k (stringToKmer bk) r st).2).1
        ++ rest)
      (stringToKmer bk) hr (hn r (by simp)) (hL r (by simp))
    obtain ⟨ihdec, ihreach⟩ := ih
      (encodeSingleReadWithBucket ops k (stringToKmer bk) r st).2 rest
      hreach1 (fun x hx => hn x (by simp [hx]))
      (fun x hx => hL x (by simp [hx]))
      (fun x hx => hpre x (by simp [hx]))
    refine ⟨?_, ?_⟩
    · rw [encodeRun_cons]
      show decodeRun ops k bk (L - k) (rs.length + 1) st _ = _
      rw [decodeRun_succ]
      dsimp only
      rw [List.append_assoc, hdec1, Option.some_bind]
      dsimp only
      rw [ihdec, Option.some_bind]
      dsimp only
      have hbk : bk ++ r.drop k = r := by
        rw [(hpre r (by simp)).symm]
        exact List.take_append_drop k r
      rw [hbk]
    · rw [encodeRun_cons]
      exact ihreach

theorem encodeReadsFromTempFile_cons {M : Type} (ops : KmerModelOps M)
    (k : Nat) (bk : Bases) (c : Int) (brest : List (Bases × Int))
    (reads : List Bases) (st : GlobalState M) :
    encodeReadsFromTempFile ops k ((bk, c) :: brest) reads st =
      if 0 < c then
        if c.toNat ≤ reads.length then
          (encodeReadsFromTempFile ops k brest (reads.drop c.toNat)
              (encodeRun ops k (stringToKmer bk) (reads.take c.toNat) st).2).bind
            fun r2 =>
              some ((encodeRun ops k (stringToKmer bk)
                (reads.take c.toNat) st).1 ++ r2.1, r2.2)
        else none
      else
        match reads with
        | [] => none
        | r :: rrest =>
          (encodeReadsFromTempFile ops k brest (rrest.drop (c.natAbs - 1))
              (encodeSingleReadWithBucket ops k (stringToKmer bk) r st).2).bind
            fun r2 =>
              some ((encodeSingleReadWithBucket ops k (stringToKmer bk)
                r st).1 ++ r2.1, r2.2) := rfl

/-- One positive-count bucket: the encoder writes all its reads, the
decoder reads them all back, and both then continue identically. -/
theorem codec_pos_bucket {M : Type} (ops : KmerModelOps M) (k L : Nat)
    (bk : Bases) (gs : List Bases) (hgs : gs ≠ [])
    (spec2 : List (Bases × Int)) (ds : List Bases)
    (st st2 : GlobalState M) (stream2 rest : List (Nat × Nat × Nat))
    (hr : ReachableState ops st)
    (hn : ∀ r ∈ gs, ∀ c ∈ r, c ≠ Base.N)
    (hL : ∀ r ∈ gs, r.length = L)
    (hpre : ∀ r ∈ gs, r.take k = bk)
    (henc2 : encodeReadsFromTempFile ops k spec2 ds
      (encodeRun ops k (stringToKmer bk) gs st).2 = some (stream2, st2))
    (hdec2 : decodeReadsGo ops k (L - k) spec2
      (encodeRun ops k (stringToKmer bk) gs st).2 (stream2 ++ rest) =
        some (ds, st2, rest)) :
    encodeReadsFromTempFile ops k ((bk, (gs.length : Int)) :: spec2)
        (gs ++ ds) st =
      some ((encodeRun ops k (stringToKmer bk) gs st).1 ++ stream2, st2) ∧
    decodeReadsGo ops k (L - k) ((bk, (gs.length : Int)) :: spec2) st
        (((encodeRun ops k (stringToKmer bk) gs st).1 ++ stream2) ++ rest) =
      some (gs ++ ds, st2, rest) := by
  have hpos : (0 : Int) < (gs.length : Int) := by
    have : gs.length ≠ 0 := fun hc => hgs (List.length_eq_zero.mp hc)
    omega
  have htoNat : ((gs.length : Int)).toNat = gs.length := by simp
  obtain ⟨hrun, -⟩ := codec_run ops k L bk gs st (stream2 ++ rest) hr hn hL hpre
  refine ⟨?_, ?_⟩
  · rw [encodeReadsFromTempFile_cons]
    rw [if_pos hpos]
    rw [if_pos (by rw [htoNat]; simp)]
    rw [htoNat]
    rw [List.take_left, List.drop_left, henc2, Option.some_bind]
  · rw [decodeReadsGo]
    rw [if_neg (by omega)]
    rw [htoNat]
    rw [List.append_assoc, hrun, Option.some_bind]
    dsimp only
    rw [hdec2, Option.some_bind]

/-- One uniform bucket: the encoder writes its first read and skips the
remaining identical ones, the decoder reads one back and replicates it,
and both then continue identically. -/
theorem codec_neg_bucket {M : Type} (ops : KmerModelOps M) (k L : Nat)
    (bk : Bases) (r0 : Bases) (m : Nat) (hm : 0 < m)
    (spec2 : List (Bases × Int)) (ds : List Bases)
    (st st2 : GlobalState M) (stream2 rest : List (Nat × Nat × Nat))
    (hr : ReachableState ops st)
    (hn : ∀ c ∈ r0, c ≠ Base.N)
    (hL0 : r0.length = L)
    (hpre : r0.take k = bk)
    (henc2 : encodeReadsFromTempFile ops k spec2 ds
      (encodeSingleReadWithBucket ops k (stringToKmer bk) r0 st).2 =
        some (stream2, st2))
    (hdec2 : decodeReadsGo ops k (L - k) spec2
      (encodeSingleReadWithBucket ops k (stringToKmer bk) r0 st).2
      (stream2 ++ rest) = some (ds, st2, rest)) :
    encodeReadsFromTempFile ops k ((bk, -(m : Int)) :: spec2)
        (List.replicate m r0 ++ ds) st =
      some ((encodeSingleReadWithBucket ops k (stringToKmer bk) r0 st).1
        ++ stream2, st2) ∧
    decodeReadsGo ops k (L - k) ((bk, -(m : Int)) :: spec2) st
        (((encodeSingleReadWithBucket ops k (stringToKmer bk) r0 st).1
          ++ stream2) ++ rest) =
      some (List.replicate m r0 ++ ds, st2, rest) := by
  have hnatAbs : (-(m : Int)).natAbs = m := by
    rw [Int.natAbs_neg, Int.natAbs_ofNat]
  have hrepl : List.replicate m r0 = r0 :: List.replicate (m - 1) r0 := by
    conv_lhs => rw [show m = (m - 1) + 1 by omega]
    rw [List.replicate_succ]
  obtain ⟨hdec1, -⟩ := codec_read ops k L r0 st (stream2 ++ rest)
    (stringToKmer bk) hr hn hL0
  have hbk : bk ++ r0.drop k = r0 := by
    rw [hpre.symm]
    exact List.take_append_drop k r0
  refine ⟨?_, ?_⟩
  · rw [hrepl]
    rw [encodeReadsFromTempFile_cons]
    rw [if_neg (by omega)]
    show (encodeReadsFromTempFile ops k spec2
        ((List.replicate (m - 1) r0 ++ ds).drop ((-(m : Int)).natAbs - 1))
        (encodeSingleReadWithBucket ops k (stringToKmer bk) r0 st).2).bind
      _ = _
    have hdrop : (List.replicate (m - 1) r0 ++ ds).drop
        ((-(m : Int)).natAbs - 1) = ds := by
      rw [hnatAbs]
      nth_rewrite 1 [show m - 1 = (List.replicate (m - 1) r0).length from
        (List.length_replicate _ _).symm]
      exact List.drop_left _ _
    rw [hdrop, henc2, Option.some_bind]
  · rw [decodeReadsGo]
    rw [if_pos (by omega)]
    rw [List.append_assoc, hdec1, Option.some_bind]
    dsimp only
    rw [hdec2, Option.some_bind]
    dsimp only
    rw [hnatAbs, hbk]

/-- The whole-file encoder/decoder correspondence over the bucket
structure of the sorted reads: encoding bucket by bucket succeeds, and
decoding the resulting stream from the same initial state returns exactly
the stored sequences, in order, with the same final state. -/
theorem codec_buckets {M : Type} (ops : KmerModelOps M) (k L : Nat)
    (dups : Bool) :
    ∀ n (rs : List FastQ), rs.length ≤ n →
      ∀ (st : GlobalState M) (rest : List (Nat × Nat × Nat)),
        ReachableState ops st →
        (∀ fq ∈ rs, NFree fq.Seq) →
        (∀ fq ∈ rs, fq.Seq.length = L) →
        ∃ stream st2,
          encodeReadsFromTempFile ops k (bucketSpec k dups rs)
              (rs.map FastQ.Seq) st = some (stream, st2) ∧
          decodeReadsGo ops k (L - k) (bucketSpec k dups rs) st
              (stream ++ rest) = some (rs.map FastQ.Seq, st2, rest) ∧
          ReachableState ops st2 := by
  intro n
  induction n with
  | zero =>
    intro rs hlen st rest hr hnf hL
    have hnil : rs = [] := List.length_eq_zero.mp (by omega)
    subst hnil
    rw [bucketSpec_nil]
    exact ⟨[], st, rfl, rfl, hr⟩
  | succ n ih =>
    intro rs hlen st rest hr hnf hL
    cases rs with
    | nil =>
      rw [bucketSpec_nil]
      exact ⟨[], st, rfl, rfl, hr⟩
    | cons r rest2 =>
      have hsplit : rest2.takeWhile (fun x : FastQ =>
          decide (x.Seq.take k = r.Seq.take k)) ++
          rest2.dropWhile (fun x : FastQ =>
            decide (x.Seq.take k = r.Seq.take k)) = rest2 :=
        List.takeWhile_append_dropWhile _ _
      have hgrpsub : ∀ x ∈ r :: rest2.takeWhile (fun x : FastQ =>
          decide (x.Seq.take k = r.Seq.take k)), x ∈ r :: rest2 := by
        intro x hx
        rcases List.mem_cons.mp hx with hx | hx
        · simp [hx]
        · exact List.mem_cons_of_mem r
            (List.Sublist.mem hx (List.takeWhile_sublist _))
      have hdwsub : ∀ x ∈ rest2.dropWhile (fun x : FastQ =>
          decide (x.Seq.take k = r.Seq.take k)), x ∈ r :: rest2 := by
        intro x hx
        exact List.mem_cons_of_mem r
          (List.Sublist.mem hx (List.dropWhile_sublist _))
      have hpre : ∀ x ∈ r :: rest2.takeWhile (fun x : FastQ =>
          decide (x.Seq.take k = r.Seq.take k)),
          x.Seq.take k = r.Seq.take k := by
        intro x hx
        rcases List.mem_cons.mp hx with hx | hx
        · rw [hx]
        · simpa using List.mem_takeWhile_imp hx
      have hlen2 : (rest2.dropWhile (fun x : FastQ =>
          decide (x.Seq.take k = r.Seq.take k))).length ≤ n := by
        have h1 := congrArg List.length hsplit
        simp only [List.length_append] at h1
        simp only [List.length_cons] at hlen
        omega
      have hmapsplit : (r :: rest2).map FastQ.Seq =
          ((r :: rest2.takeWhile (fun x : FastQ =>
            decide (x.Seq.take k = r.Seq.take k))).map FastQ.Seq) ++
          ((rest2.dropWhile (fun x : FastQ =>
            decide (x.Seq.take k = r.Seq.take k))).map FastQ.Seq) := by
        rw [List.map_cons, List.map_cons, List.cons_append,
          (List.map_append FastQ.Seq _ _).symm, hsplit]
      have hgseq : ∀ x ∈ (r :: rest2.takeWhile (fun x : FastQ =>
          decide (x.Seq.take k = r.Seq.take k))).map FastQ.Seq,
          (∀ c ∈ x, c ≠ Base.N) ∧ x.length = L ∧ x.take k = r.Seq.take k := by
        intro x hx
        obtain ⟨y, hy, hye⟩ := List.mem_map.mp hx
        rw [hye.symm]
        exact ⟨hnf y (hgrpsub y hy), hL y (hgrpsub y hy), hpre y hy⟩
      rw [bucketSpec_cons]
      by_cases hcond : dups = true ∧ (1 : Int) <
          ((r :: rest2.takeWhile fun x : FastQ =>
            decide (x.Seq.take k = r.Seq.take k)).length : Int) ∧
          ((r :: rest2.takeWhile fun x : FastQ =>
            decide (x.Seq.take k = r.Seq.take k)).all
            (fun x => decide (x.Seq = r.Seq)) = true)
      · -- uniform bucket: negative count
        rw [if_pos hcond]
        have hrep : (r :: rest2.takeWhile (fun x : FastQ =>
            decide (x.Seq.take k = r.Seq.take k))).map FastQ.Seq =
            List.replicate (r :: rest2.takeWhile (fun x : FastQ =>
              decide (x.Seq.take k = r.Seq.take k))).length r.Seq := by
          rw [show (r :: rest2.takeWhile (fun x : FastQ =>
              decide (x.Seq.take k = r.Seq.take k))).length =
            ((r :: rest2.takeWhile (fun x : FastQ =>
              decide (x.Seq.take k = r.Seq.take k))).map FastQ.Seq).length
            from (List.length_map _ _).symm]
          apply List.eq_replicate_of_mem
          intro b hb
          obtain ⟨x, hx, hxe⟩ := List.mem_map.mp hb
          rw [hxe.symm]
          have := List.all_eq_true.mp hcond.2.2 x hx
          simpa using this
        obtain ⟨-, hreach1⟩ := codec_read ops k L r.Seq st
          ([] : List (Nat × Nat × Nat)) (stringToKmer (r.Seq.take k)) hr
          (hnf r (by simp)) (hL r (by simp))
        obtain ⟨stream2, st2, henc2, hdec2, hreach2⟩ := ih
          (rest2.dropWhile (fun x : FastQ =>
            decide (x.Seq.take k = r.Seq.take k))) hlen2
          (encodeSingleReadWithBucket ops k (stringToKmer (r.Seq.take k))
            r.Seq st).2 rest hreach1
          (fun x hx => hnf x (hdwsub x hx))
          (fun x hx => hL x (hdwsub x hx))
        obtain ⟨hence, hdece⟩ := codec_neg_bucket ops k L (r.Seq.take k)
          r.Seq ((r :: rest2.takeWhile (fun x : FastQ =>
            decide (x.Seq.take k = r.Seq.take k))).length)
          (by simp) _ _ st st2 stream2 rest hr (hnf r (by simp))
          (hL r (by simp)) rfl henc2 hdec2
        refine ⟨(encodeSingleReadWithBucket ops k
            (stringToKmer (r.Seq.take k)) r.Seq st).1 ++ stream2, st2,
          ?_, ?_, hreach2⟩
        · rw [hmapsplit, hrep]
          exact hence
        · rw [hmapsplit, hrep]
          exact hdece
      · -- mixed bucket: positive count
        rw [if_neg hcond]
        obtain ⟨-, hreach1⟩ := codec_run ops k L (r.Seq.take k)
          ((r :: rest2.takeWhile (fun x : FastQ =>
            decide (x.Seq.take k = r.Seq.take k))).map FastQ.Seq) st
          ([] : List (Nat × Nat × Nat)) hr
          (fun x hx => (hgseq x hx).1)
          (fun x hx => (hgseq x hx).2.1)
          (fun x hx => (hgseq x hx).2.2)
        obtain ⟨stream2, st2, henc2, hdec2, hreach2⟩ := ih
          (rest2.dropWhile (fun x : FastQ =>
            decide (x.Seq.take k = r.Seq.take k))) hlen2
          (encodeRun ops k (stringToKmer (r.Seq.take k))
            ((r :: rest2.takeWhile (fun x : FastQ =>
              decide (x.Seq.take k = r.Seq.take k))).map FastQ.Seq) st).2
          rest hreach1
          (fun x hx => hnf x (hdwsub x hx))
          (fun x hx => hL x (hdwsub x hx))
        obtain ⟨hence, hdece⟩ := codec_pos_bucket ops k L (r.Seq.take k)
          ((r :: rest2.takeWhile (fun x : FastQ =>
            decide (x.Seq.take k = r.Seq.take k))).map FastQ.Seq)
          (by simp) _ _ st st2 stream2 rest hr
          (fun x hx => (hgseq x hx).1)
          (fun x hx => (hgseq x hx).2.1)
          (fun x hx => (hgseq x hx).2.2)
          henc2 hdec2
        refine ⟨(encodeRun ops k (stringToKmer (r.Seq.take k))
            ((r :: rest2.takeWhile (fun x : FastQ =>
              decide (x.Seq.take k = r.Seq.take k))).map FastQ.Seq) st).1
            ++ stream2, st2, ?_, ?_, hreach2⟩
        · rw [hmapsplit]
          rw [show ((r :: rest2.takeWhile fun x : FastQ =>
              decide (x.Seq.take k = r.Seq.take k)).length : Int) =
            (((r :: rest2.takeWhile (fun x : FastQ =>
              decide (x.Seq.take k = r.Seq.take k))).map
                FastQ.Seq).length : Int) from by rw [List.length_map]]
          exact hence
        · rw [hmapsplit]
          rw [show ((r :: rest2.takeWhile fun x : FastQ =>
              decide (x.Seq.take k = r.Seq.take k)).length : Int) =
            (((r :: rest2.takeWhile (fun x : FastQ =>
              decide (x.Seq.take k = r.Seq.take k))).map
                FastQ.Seq).length : Int) from by rw [List.length_map]]
          exact hdece

theorem readAndFlipReads_perm (k : Nat) (bv : BitVec) (flipOpt : Bool)
    (reads0 : List Bases) :
    (readAndFlipReads k bv flipOpt reads0).Perm
      (if flipOpt then flipRange k bv (reads0.map ingestRead)
       else reads0.map ingestRead) :=
  List.perm_insertionSort _ _

theorem readAndFlipReads_sorted (k : Nat) (bv : BitVec) (flipOpt : Bool)
    (reads0 : List Bases) :
    List.Pairwise (prefLe k) (readAndFlipReads k bv flipOpt reads0) :=
  List.sorted_insertionSort _ _

theorem readAndFlipReads_mem (k : Nat) (bv : BitVec) (flipOpt : Bool)
    (reads0 : List Bases) (fq : FastQ)
    (hfq : fq ∈ readAndFlipReads k bv flipOpt reads0) :
    ∃ r ∈ reads0, fq = ingestRead r ∨ fq = flipOne k bv (ingestRead r) := by
  have hmem := (readAndFlipReads_perm k bv flipOpt reads0).mem_iff.mp hfq
  by_cases hf : flipOpt = true
  · rw [if_pos hf] at hmem
    unfold flipRange at hmem
    rw [List.map_map] at hmem
    obtain ⟨r, hr, hre⟩ := List.mem_map.mp hmem
    exact ⟨r, hr, Or.inr hre.symm⟩
  · rw [if_neg hf] at hmem
    obtain ⟨r, hr, hre⟩ := List.mem_map.mp hmem
    exact ⟨r, hr, Or.inl hre.symm⟩

theorem ingestRead_length (r : Bases) :
    (ingestRead r).Seq.length = r.length := by
  unfold ingestRead
  simp

theorem readAndFlipReads_NFree (k : Nat) (bv : BitVec) (flipOpt : Bool)
    (reads0 : List Bases) (fq : FastQ)
    (hfq : fq ∈ readAndFlipReads k bv flipOpt reads0) : NFree fq.Seq := by
  obtain ⟨r, -, he | he⟩ := readAndFlipReads_mem k bv flipOpt reads0 fq hfq
  · rw [he]
    exact NFree_ingest r
  · rw [he]
    exact NFree_flipOne k bv _ (NFree_ingest r)

theorem readAndFlipReads_length (k : Nat) (bv : BitVec) (flipOpt : Bool)
    (reads0 : List Bases) (L : Nat) (hlen : ∀ r ∈ reads0, r.length = L)
    (fq : FastQ) (hfq : fq ∈ readAndFlipReads k bv flipOpt reads0) :
    fq.Seq.length = L := by
  obtain ⟨r, hr, he | he⟩ := readAndFlipReads_mem k bv flipOpt reads0 fq hfq
  · rw [he, ingestRead_length]
    exact hlen r hr
  · rw [he, flipOne_length, ingestRead_length]
    exact hlen r hr

/-- Patching every sorted record recovers the raw input reads up to
order, for reads short enough that byte truncation is exact. -/
theorem readAndFlipReads_patch (k : Nat) (bv : BitVec) (flipOpt : Bool)
    (reads0 : List Bases) (h256 : ∀ r ∈ reads0, r.length ≤ 256) :
    ((readAndFlipReads k bv flipOpt reads0).map patchRecord).Perm reads0 := by
  have hp := (readAndFlipReads_perm k bv flipOpt reads0).map patchRecord
  refine hp.trans ?_
  by_cases hf : flipOpt = true
  · rw [if_pos hf]
    unfold flipRange
    rw [List.map_map, List.map_map]
    have : reads0.map ((patchRecord ∘ flipOne k bv) ∘ ingestRead) =
        reads0.map id :=
      List.map_congr_left fun r hr =>
        patchRecord_flipOne k bv r (h256 r hr)
    rw [this, List.map_id]
  · rw [if_neg hf]
    rw [List.map_map]
    have : reads0.map (patchRecord ∘ ingestRead) = reads0.map id :=
      List.map_congr_left fun r hr => patchRecord_ingest r (h256 r hr)
    rw [this, List.map_id]

/-- The decoder's sidecar patching over the whole output, rewritten as a
map of the per-record patch over the encoder's sorted records. -/
theorem zipWith_patch (l : List FastQ) :
    (((l.map FastQ.NLocations).map fun nl =>
        nl.map fun p => p % 256).zip (l.map FastQ.IsFlipped)).zipWith
      (fun pr s => patchRead pr.1 pr.2 s) (l.map FastQ.Seq) =
    l.map patchRecord := by
  rw [List.map_map, List.zip_map', List.zipWith_map, List.zipWith_same]
  rfl

/-- C1 (amended). Round trip up to order: for either model backend, any
reference-derived model and bit vector, either dupsOption setting and
either flipReadsOption setting, a non-empty set of equal-length reads
over {A,C,G,T,N} with 1 ≤ k ≤ 16 and k ≤ L ≤ 256 decodes from its own
encoding to a permutation (equal multiset) of the input reads. The
exact-sequence form of the claim for dupsOption=false fails because the
encoder sorts (and possibly reverse-complements) the reads, and for reads
longer than 256 bases even the multiset form fails because N positions
are written as decimals but read back through byte(p). -/
theorem C1_round_trip_amended {M : Type} (ops : KmerModelOps M) (km0 : M)
    (bv : BitVec) (k L : Nat) (flipOpt dups : Bool) (reads0 : List Bases)
    (hk1 : 1 ≤ k) (hk16 : k ≤ 16) (hne : reads0 ≠ [])
    (hkL : k ≤ L) (hL256 : L ≤ 256) (hlen : ∀ r ∈ reads0, r.length = L) :
    ∃ enc out,
      encodePipeline ops k km0 bv flipOpt dups reads0 = some enc ∧
      decodePipeline ops k km0 enc = some out ∧
      out.Perm reads0 := by
  obtain ⟨a, as, rfl⟩ : ∃ a as, reads0 = a :: as := by
    cases reads0 with
    | nil => exact absurd rfl hne
    | cons a as => exact ⟨a, as, rfl⟩
  have hnf3 : ∀ fq ∈ readAndFlipReads k bv flipOpt (a :: as),
      NFree fq.Seq :=
    fun fq hfq => readAndFlipReads_NFree k bv flipOpt (a :: as) fq hfq
  have hL3 : ∀ fq ∈ readAndFlipReads k bv flipOpt (a :: as),
      fq.Seq.length = L :=
    fun fq hfq => readAndFlipReads_length k bv flipOpt (a :: as) L hlen fq hfq
  have hlen3 : (readAndFlipReads k bv flipOpt (a :: as)).length =
      (a :: as).length := by
    have h1 := (readAndFlipReads_perm k bv flipOpt (a :: as)).length_eq
    by_cases hf : flipOpt = true
    · rw [if_pos hf] at h1
      unfold flipRange at h1
      simpa using h1
    · rw [if_neg hf] at h1
      simpa using h1
  have h0 : ∀ fq ∈ readAndFlipReads k bv flipOpt (a :: as),
      fq.Seq.take k ≠ ([] : Bases) := by
    intro fq hfq hc
    have hlfq := hL3 fq hfq
    have h2 : (fq.Seq.take k).length = 0 := by
      rw [hc]
      rfl
    rw [List.length_take] at h2
    omega
  have hbc := listBuckets_spec k dups (readAndFlipReads k bv flipOpt
    (a :: as)) h0
  have hzip : ((listBuckets k dups (readAndFlipReads k bv flipOpt
      (a :: as))).1.zip
      (listBuckets k dups (readAndFlipReads k bv flipOpt (a :: as))).2) =
      bucketSpec k dups (readAndFlipReads k bv flipOpt (a :: as)) := by
    rw [hbc]
    exact zip_map_fst_snd _
  obtain ⟨stream, st2, henc, hdec, -⟩ := codec_buckets ops k L dups
    (readAndFlipReads k bv flipOpt (a :: as)).length
    (readAndFlipReads k bv flipOpt (a :: as)) le_rfl (initialState km0)
    [] (ReachableState.init km0) hnf3 hL3
  rw [List.append_nil] at hdec
  obtain ⟨h3, t3, hR3⟩ : ∃ h3 t3,
      readAndFlipReads k bv flipOpt (a :: as) = h3 :: t3 := by
    cases hcase : readAndFlipReads k bv flipOpt (a :: as) with
    | nil =>
      rw [hcase] at hlen3
      simp at hlen3
    | cons h3 t3 => exact ⟨h3, t3, rfl⟩
  have hh3len : h3.Seq.length = L :=
    hL3 h3 (by rw [hR3]; exact List.mem_cons_self h3 t3)
  have hhead : (listBuckets k dups (readAndFlipReads k bv flipOpt
      (a :: as))).1.head? = some (h3.Seq.take k) := by
    rw [hbc]
    show ((bucketSpec k dups (readAndFlipReads k bv flipOpt
      (a :: as))).map Prod.fst).head? = _
    rw [hR3, bucketSpec_cons, List.map_cons]
    rfl
  refine ⟨{ stream := stream,
            buckets := (listBuckets k dups (readAndFlipReads k bv flipOpt
              (a :: as))).1,
            counts := (listBuckets k dups (readAndFlipReads k bv flipOpt
              (a :: as))).2,
            readLen := ((readAndFlipReads k bv flipOpt
              (a :: as)).headD ⟨[], [], false⟩).Seq.length,
            nLocations := (readAndFlipReads k bv flipOpt
              (a :: as)).map FastQ.NLocations,
            flippedBits := (readAndFlipReads k bv flipOpt
              (a :: as)).map FastQ.IsFlipped },
    (readAndFlipReads k bv flipOpt (a :: as)).map patchRecord,
    ?_, ?_, ?_⟩
  · show ((encodeReadsFromTempFile ops k
        ((listBuckets k dups (readAndFlipReads k bv flipOpt
          (a :: as))).1.zip
          (listBuckets k dups (readAndFlipReads k bv flipOpt
            (a :: as))).2)
        ((readAndFlipReads k bv flipOpt (a :: as)).map FastQ.Seq)
        (initialState km0)).bind fun r1 =>
      some ({ stream := r1.1,
              buckets := (listBuckets k dups (readAndFlipReads k bv flipOpt
                (a :: as))).1,
              counts := (listBuckets k dups (readAndFlipReads k bv flipOpt
                (a :: as))).2,
              readLen := ((readAndFlipReads k bv flipOpt
                (a :: as)).headD ⟨[], [], false⟩).Seq.length,
              nLocations := (readAndFlipReads k bv flipOpt
                (a :: as)).map FastQ.NLocations,
              flippedBits := (readAndFlipReads k bv flipOpt
                (a :: as)).map FastQ.IsFlipped } : EncodedFiles)) = _
    rw [hzip, henc, Option.some_bind]
  · show ((listBuckets k dups (readAndFlipReads k bv flipOpt
        (a :: as))).1.head?.bind fun bk0 =>
      (decodeReadsGo ops k
          (((readAndFlipReads k bv flipOpt
            (a :: as)).headD ⟨[], [], false⟩).Seq.length - bk0.length)
          ((listBuckets k dups (readAndFlipReads k bv flipOpt
            (a :: as))).1.zip
            (listBuckets k dups (readAndFlipReads k bv flipOpt
              (a :: as))).2)
          (initialState km0) stream).bind fun r1 =>
        if r1.1.length = ((readAndFlipReads k bv flipOpt
              (a :: as)).map FastQ.NLocations).length ∧
            r1.1.length = ((readAndFlipReads k bv flipOpt
              (a :: as)).map FastQ.IsFlipped).length then
          some (((((readAndFlipReads k bv flipOpt
              (a :: as)).map FastQ.NLocations).map fun l =>
                l.map fun p => p % 256).zip
              ((readAndFlipReads k bv flipOpt
                (a :: as)).map FastQ.IsFlipped)).zipWith
            (fun pr s => patchRead pr.1 pr.2 s) r1.1)
        else none) = _
    rw [hhead, Option.some_bind]
    have htail : ((readAndFlipReads k bv flipOpt
        (a :: as)).headD ⟨[], [], false⟩).Seq.length -
        (h3.Seq.take k).length = L - k := by
      rw [hR3]
      show h3.Seq.length - (h3.Seq.take k).length = L - k
      rw [List.length_take, hh3len]
      have : min k L = k := Nat.min_eq_left hkL
      omega
    rw [htail, hzip, hdec, Option.some_bind]
    dsimp only
    rw [if_pos (by
      constructor
      · simp
      · simp)]
    rw [zipWith_patch]
  · exact readAndFlipReads_patch k bv flipOpt (a :: as)
      (fun r hr => by rw [hlen r hr]; exact hL256)

set_option maxRecDepth 40000 in
/-- C1 as stated is false, in both halves. With dupsOption=false the
decoded output is the sorted read list, not the input sequence: encoding
[CC, AA] decodes to [AA, CC]. And with dupsOption=true a single read of
257 bases with its N at position 256 decodes with the N at position
256 mod 256 = 0, so even the multiset is not preserved: readNLocations
reads the decimal positions back through byte(p). -/
theorem C1_round_trip_counterexample :
    ((encodePipeline smallOps 1 (NewSmallKmerModel 1) (NewBitVec 4)
        true false [[Base.C, Base.C], [Base.A, Base.A]]).bind
      (decodePipeline smallOps 1 (NewSmallKmerModel 1)) =
        some [[Base.A, Base.A], [Base.C, Base.C]] ∧
      [[Base.A, Base.A], [Base.C, Base.C]] ≠
        ([[Base.C, Base.C], [Base.A, Base.A]] : List Bases)) ∧
    ((encodePipeline smallOps 1 (NewSmallKmerModel 1) (NewBitVec 4)
        true true [List.replicate 256 Base.A ++ [Base.N]]).bind
      (decodePipeline smallOps 1 (NewSmallKmerModel 1)) =
        some [Base.N :: List.replicate 256 Base.A] ∧
      ¬ ([Base.N :: List.replicate 256 Base.A] : List Bases).Perm
          [List.replicate 256 Base.A ++ [Base.N]]) :=
  ⟨⟨by decide, by decide⟩, ⟨by decide, by decide⟩⟩

theorem C1_round_trip_amended_witness :
    (1 ≤ 2 ∧ 2 ≤ 16 ∧
      ([[Base.A, Base.C, Base.N], [Base.T, Base.N, Base.G]] :
        List Bases) ≠ [] ∧
      2 ≤ 3 ∧ 3 ≤ 256 ∧
      (∀ r ∈ ([[Base.A, Base.C, Base.N], [Base.T, Base.N, Base.G]] :
        List Bases), r.length = 3)) ∧
    (∃ enc out,
      encodePipeline smallOps 2 (NewSmallKmerModel 2) (NewBitVec 16)
        true true [[Base.A, Base.C, Base.N], [Base.T, Base.N, Base.G]] =
          some enc ∧
      decodePipeline smallOps 2 (NewSmallKmerModel 2) enc = some out ∧
      out.Perm [[Base.A, Base.C, Base.N], [Base.T, Base.N, Base.G]]) :=
  ⟨⟨by decide, by decide, by decide, by decide, by decide, by decide⟩,
    C1_round_trip_amended smallOps (NewSmallKmerModel 2) (NewBitVec 16)
      2 3 true true [[Base.A, Base.C, Base.N], [Base.T, Base.N, Base.G]]
      (by decide) (by decide) (by decide) (by decide) (by decide)
      (by decide)⟩

end KPath
